import Mathlib

/-!
Cycle-cut calculation (GraphAligner, `CycleCutCalculation.cpp`).

A shallow embedding of the cycle-cutting calculator and a verification of the
properties its specification states.

Conventions of the embedding:

* `size_t` values are natural numbers; none of the arithmetic of the file can
  wrap for inputs that fit in memory (every value is an index, a length or a
  count bounded by a length). The `int` parameters `sizeLeft` and `wordSize`
  are natural numbers as well: the code is only called with positive values,
  and `wordSize * 2` is taken to stay inside `int`.
* `std::vector<T>` is `List T`; `std::set<size_t>` is the ascending list of its
  elements (the order in which the code iterates over it);
  `std::map<K, V>` is an association list with one entry per key.
* A failed `assert`, an access outside a vector, `std::map::at` on a missing
  key and the loss of all fuel are all `none`; a run that returns is `some`.
-/

namespace CycleCutCalculation

/-! ## Containers -/

/-- Insertion into a `std::set<size_t>`, kept as the ascending list of its elements. -/
def setInsert (x : Nat) : List Nat → List Nat
  | [] => [x]
  | y :: ys => if x < y then x :: y :: ys else if x = y then y :: ys else y :: setInsert x ys

/-- The statement `v[i].insert(x)` on a `std::vector<std::set<size_t>>`. The code only
executes it with `i` inside the vector. -/
def insertAt (v : List (List Nat)) (i x : Nat) : List (List Nat) :=
  v.set i (setInsert x (v.getD i []))

/-- The call `v.resize(n)` on a vector of sets: shorter vectors are padded with empty sets. -/
def resizeSets (v : List (List Nat)) (n : Nat) : List (List Nat) :=
  v.take n ++ List.replicate (n - v.length) []

/-- Lookup in a `std::map`, as `find` does it: `none` when the key is missing. -/
def mapFind {κ β : Type} [DecidableEq κ] : List (κ × β) → κ → Option β
  | [], _ => none
  | (k', v) :: rest, k => if k' = k then some v else mapFind rest k

/-- The assignment `m[k] = v` on a `std::map`. -/
def mapSet {κ β : Type} [DecidableEq κ] : List (κ × β) → κ → β → List (κ × β)
  | [], k, v => [(k, v)]
  | (k', v') :: rest, k, v => if k' = k then (k, v) :: rest else (k', v') :: mapSet rest k v

/-- An edge between two positions, `std::pair<size_t, size_t>`. -/
abbrev Edge := Nat × Nat

/-- A flow table, `std::map<std::pair<size_t, size_t>, size_t>`. -/
abbrev FlowMap := List (Edge × Nat)

/-- The statement `result[part]++`. -/
def mapIncr (m : FlowMap) (k : Edge) : FlowMap :=
  mapSet m k ((mapFind m k).getD 0 + 1)

/-! ## The graph and the cut -/

/-- The part of `AlignmentGraph` the calculation reads: per node the start and end offsets
(their difference is the span of the node) and the incoming neighbours, in stored order. The
code computes the span as `nodeEnd[node] - nodeStart[node]`, which does not wrap when the span is
at least 1, the contract of the graph accessor. -/
structure AlignmentGraph where
  nodeStart : Nat → Nat
  nodeEnd : Nat → Nat
  inNeighbors : Nat → List Nat

/-- The record `AlignmentGraph::CycleCut`. -/
structure CycleCut where
  nodes : List Nat
  predecessors : List (List Nat)
  previousCut : List Bool
deriving DecidableEq

/-! ## getCycleCuttersOrder -/

/-- The local variables of `getCycleCuttersOrder` during its first loop. -/
structure OrderState where
  supersequence : List Nat
  positionInSupersequence : List ((Nat × Nat) × Nat)
  nodes : List (List Nat)
  edges : List ((Nat × Nat) × (Nat × Nat))

/-- Body of the loop over `graph.inNeighbors[node]`. -/
def orderNeighbor (i nodeSize node : Nat) (st : OrderState) (neighbor : Nat) : OrderState :=
  { st with
    nodes := insertAt st.nodes (i + nodeSize) neighbor
    edges := st.edges ++ [((i, node), (i + nodeSize, neighbor))] }

/-- Body of the loop over `nodes[i]`. -/
def orderNode (g : AlignmentGraph) (sizeLeft i : Nat) (st : OrderState) (node : Nat) :
    OrderState :=
  let st1 : OrderState :=
    { st with
      positionInSupersequence := mapSet st.positionInSupersequence (i, node) st.supersequence.length
      supersequence := st.supersequence ++ [node] }
  let nodeSize := g.nodeEnd node - g.nodeStart node
  if i + nodeSize ≥ sizeLeft then st1
  else (g.inNeighbors node).foldl (orderNeighbor i nodeSize node) st1

/-- Body of the loop over the layers. The layer is read when its turn comes; with spans of at
least one character (the contract of the graph accessor) the loop body only inserts into later
layers, so the set it iterates over does not change under it. -/
def orderLayer (g : AlignmentGraph) (sizeLeft : Nat) (st : OrderState) (i : Nat) : OrderState :=
  (st.nodes.getD i []).foldl (orderNode g sizeLeft i) st

/-- Body of the loop over `edges`: `operator[]` of the position map yields 0 for a missing key. -/
def orderEdge (pos : List ((Nat × Nat) × Nat)) (predecessors : List (List Nat))
    (edge : (Nat × Nat) × (Nat × Nat)) : List (List Nat) :=
  insertAt predecessors ((mapFind pos edge.1).getD 0) ((mapFind pos edge.2).getD 0)

/-- State of `getCycleCuttersOrder` after the loop over the layers. -/
def orderSweep (g : AlignmentGraph) (cycleStart sizeLeft : Nat) : OrderState :=
  (List.range sizeLeft).foldl (orderLayer g sizeLeft)
    { supersequence := []
      positionInSupersequence := []
      nodes := insertAt (List.replicate sizeLeft []) 0 cycleStart
      edges := [] }

/-- The function `getCycleCuttersOrder`: the returned supersequence and the final value of the
reference parameter `predecessors`. With `sizeLeft = 0` the code writes to `nodes[0]` of an
empty vector. -/
def getCycleCuttersOrder (g : AlignmentGraph) (cycleStart sizeLeft : Nat)
    (predecessors : List (List Nat)) : Option (List Nat × List (List Nat)) :=
  if sizeLeft = 0 then none
  else
    let st := orderSweep g cycleStart sizeLeft
    some (st.supersequence,
      st.edges.foldl (orderEdge st.positionInSupersequence)
        (resizeSets predecessors st.supersequence.length))

/-! ## findFeasibleFlow -/

/-- Body of the first loop of `findFeasibleFlow`, on `pathBack` and `successors`. -/
def flowBackStep (i : Nat) (st : List (Nat × List Edge) × List (List Nat)) (predecessor : Nat) :
    List (Nat × List Edge) × List (List Nat) :=
  (mapSet st.1 predecessor (((mapFind st.1 i).getD []) ++ [(i, predecessor)]),
   insertAt st.2 predecessor i)

/-- Body of the second loop of `findFeasibleFlow`, on `pathForward`. -/
def flowForwardStep (i : Nat) (pathForward : List (Nat × List Edge)) (successor : Nat) :
    List (Nat × List Edge) :=
  mapSet pathForward successor (((mapFind pathForward i).getD []) ++ [(successor, i)])

/-- Body of the third loop of `findFeasibleFlow`. -/
def flowEdgeStep (pathBack pathForward : List (Nat × List Edge)) (i : Nat) (result : FlowMap)
    (predecessor : Nat) : FlowMap :=
  if (mapFind result (i, predecessor)).getD 0 > 0 then result
  else
    let r1 := mapIncr result (i, predecessor)
    let r2 := ((mapFind pathBack i).getD []).foldl mapIncr r1
    ((mapFind pathForward predecessor).getD []).foldl mapIncr r2

/-- The pair `(pathBack, successors)` after the first loop of `findFeasibleFlow`. -/
def flowBack (supersequence : List Nat) (predecessors : List (List Nat)) :
    List (Nat × List Edge) × List (List Nat) :=
  (List.range supersequence.length).foldl
    (fun st i => (predecessors.getD i []).foldl (flowBackStep i) st)
    ([], List.replicate supersequence.length [])

/-- The map `pathForward` after the second loop of `findFeasibleFlow`. -/
def flowForward (supersequence : List Nat) (successors : List (List Nat)) :
    List (Nat × List Edge) :=
  (List.range supersequence.length).reverse.foldl
    (fun pf i => (successors.getD i []).foldl (flowForwardStep i) pf) []

/-- The function `findFeasibleFlow`. -/
def findFeasibleFlow (supersequence : List Nat) (predecessors : List (List Nat)) : FlowMap :=
  let back := flowBack supersequence predecessors
  let pathForward := flowForward supersequence back.2
  (List.range supersequence.length).foldl
    (fun result i => (predecessors.getD i []).foldl (flowEdgeStep back.1 pathForward i) result) []

/-! ## getOneFlowPath and findFlowPaths -/

/-- The loop of `getOneFlowPath` over `predecessors[node]`: `some (some p)` when `p` is the first
successor whose edge carries flow, `some none` when the loop ends without one, `none` when the
assertion `predecessor > node` fails or `flows.at` throws. -/
def firstFlowEdge (flows : FlowMap) (node : Nat) : List Nat → Option (Option Nat)
  | [] => some none
  | predecessor :: rest =>
    if predecessor > node then
      match mapFind flows (node, predecessor) with
      | none => none
      | some f => if f > 0 then some (some predecessor) else firstFlowEdge flows node rest
    else none

/-- The function `getOneFlowPath` (its unused parameter `supersequence` left out), with the
recursion depth as fuel. -/
def getOneFlowPath (predecessors : List (List Nat)) (flows : FlowMap) :
    Nat → Nat → List Nat → Option (List Nat)
  | 0, _, _ => none
  | fuel + 1, node, result =>
    match predecessors[node]? with
    | none => none
    | some ps =>
      match firstFlowEdge flows node ps with
      | none => none
      | some none => some (result ++ [node])
      | some (some p) => getOneFlowPath predecessors flows fuel p (result ++ [node])

/-- The two statements `assert(flows[k] >= 1); flows[k] -= 1;`. -/
def mapDecr (m : FlowMap) (k : Edge) : Option FlowMap :=
  if (mapFind m k).getD 0 ≥ 1 then some (mapSet m k ((mapFind m k).getD 0 - 1)) else none

/-- The loop of `findFlowPaths` that takes one unit of flow from every edge of `path`. -/
def consumePath (flows : FlowMap) : List Nat → Option FlowMap
  | a :: b :: rest => (mapDecr flows (a, b)).bind fun f => consumePath f (b :: rest)
  | _ => some flows

/-- The total of a flow table. -/
def totalFlow (flows : FlowMap) : Nat := (flows.map Prod.snd).sum

/-- What `findFlowPaths` computes: `result` is the returned vector of walks (node identifiers),
`paths` lists the value of the local `path` of every iteration that produced a walk, and `flows`
is the flow table when the loop is left. -/
structure FlowPaths where
  paths : List (List Nat)
  result : List (List Nat)
  flows : FlowMap

/-- The loop of `findFlowPaths` that builds `pathID`: the identifiers `supersequence[p]` of the
positions `p` of a path. -/
def lookupAll (supersequence : List Nat) : List Nat → Option (List Nat)
  | [] => some []
  | p :: rest =>
    match supersequence[p]? with
    | none => none
    | some x => (lookupAll supersequence rest).map fun ids => x :: ids

/-- The `while (true)` loop of `findFlowPaths`, with the number of iterations as fuel. -/
def findFlowPathsLoop (supersequence : List Nat) (predecessors : List (List Nat)) :
    Nat → FlowPaths → Option FlowPaths
  | 0, _ => none
  | fuel + 1, st =>
    match getOneFlowPath predecessors st.flows (predecessors.length + 1) 0 [] with
    | none => none
    | some path =>
      if path.length = 0 then none
      else if path.length = 1 then some st
      else
        match consumePath st.flows path with
        | none => none
        | some flows =>
          match lookupAll supersequence path with
          | none => none
          | some pathID =>
            findFlowPathsLoop supersequence predecessors fuel
              { paths := st.paths ++ [path], result := st.result ++ [pathID], flows := flows }

/-- The function `findFlowPaths`, with its assertions and its checked post-condition. -/
def findFlowPaths (supersequence : List Nat) (predecessors : List (List Nat)) (flows : FlowMap) :
    Option FlowPaths :=
  if supersequence.length = 0 then none
  else if supersequence.length = 1 then some { paths := [], result := [[0]], flows := flows }
  else
    match findFlowPathsLoop supersequence predecessors (totalFlow flows + 1)
        { paths := [], result := [], flows := flows } with
    | none => none
    | some st =>
      if st.result.length = 0 then none
      else if st.flows.all (fun x => x.2 = 0) then some st
      else none

/-! ## iterateOverEdgeCoveringPaths -/

/-- The assertion `startFlow[(i, predecessor)] >= 1` of `iterateOverEdgeCoveringPaths`, for every
edge of the skeleton. -/
def startFlowPositive (supersequence : List Nat) (predecessors : List (List Nat))
    (startFlow : FlowMap) : Bool :=
  (List.range supersequence.length).all fun i =>
    (predecessors.getD i []).all fun predecessor =>
      decide ((mapFind startFlow (i, predecessor)).getD 0 ≥ 1)

/-- The function `iterateOverEdgeCoveringPaths`: the list of the walks the callback is applied
to, in order. The flow network the function also builds is never solved and has no effect: its
`add_edge` calls on a graph with list storage always succeed, and the reads `startFlow[...]`
find keys that `findFeasibleFlow` has created for every edge, so they insert nothing. The first
call of `findFlowPaths`, made for its size, and the assertion on `startFlow` are kept. -/
def iterateOverEdgeCoveringPaths (g : AlignmentGraph) (cycleStart sizeLeft : Nat) :
    Option (List (List Nat)) :=
  match getCycleCuttersOrder g cycleStart sizeLeft [] with
  | none => none
  | some (supersequence, predecessors) =>
    let startFlow := findFeasibleFlow supersequence predecessors
    match findFlowPaths supersequence predecessors startFlow with
    | none => none
    | some _ =>
      if startFlowPositive supersequence predecessors startFlow then
        (findFlowPaths supersequence predecessors startFlow).map FlowPaths.result
      else none

/-! ## getPairwiseSupersequenceByAlignment -/

/-- The characters stored in the backtrace table; `unset` is the initial `'-'`. -/
inductive Dir
  | unset | L | U | D
deriving DecidableEq

/-- The two tables `scores` and `backtrace` (`Array2D`), as functions of row and column. -/
structure Tables where
  scores : Nat → Nat → Nat
  backtrace : Nat → Nat → Dir

/-- The two assignments `scores(i, j) = v; backtrace(i, j) = d;`. -/
def Tables.set (t : Tables) (i j v : Nat) (d : Dir) : Tables :=
  { scores := fun a b => if a = i ∧ b = j then v else t.scores a b
    backtrace := fun a b => if a = i ∧ b = j then d else t.backtrace a b }

/-- The pair `(value, source)` that the body of the inner filling loop computes for cell
`(i, j)` from the cells to its left, above it and diagonally above it. -/
def cellValue (supersequence currentStack : List Nat) (t : Tables) (i j : Nat) : Nat × Dir :=
  let value := t.scores (i - 1) j
  let source := Dir.L
  let (value, source) :=
    if t.scores i (j - 1) + 1 < value then (t.scores i (j - 1) + 1, Dir.U) else (value, source)
  if supersequence[i]? = currentStack[j]? ∧ t.scores (i - 1) (j - 1) < value then
    (t.scores (i - 1) (j - 1), Dir.D)
  else (value, source)

/-- Body of the inner loop that fills the tables. -/
def fillCell (supersequence currentStack : List Nat) (i : Nat) (t : Tables) (j : Nat) : Tables :=
  t.set i j (cellValue supersequence currentStack t i j).1
    (cellValue supersequence currentStack t i j).2

/-- The tables after the three filling loops. -/
def fillTables (supersequence currentStack : List Nat) : Tables :=
  let t0 : Tables := { scores := fun _ _ => 2 ^ 64 - 1, backtrace := fun _ _ => Dir.unset }
  let t1 := (List.range supersequence.length).foldl (fun t i => t.set i 0 0 Dir.L) t0
  let t2 := (List.range currentStack.length).foldl (fun t j => t.set 0 j j Dir.U) t1
  (List.range' 1 (supersequence.length - 1)).foldl
    (fun t i => (List.range' 1 (currentStack.length - 1)).foldl
      (fillCell supersequence currentStack i) t) t2

/-- The backtrace loop `while (i != 0 || j != 0)`, with the number of iterations as fuel. A
decrement of an index that is already 0 wraps around and fails the index assertion of the next
iteration, so it is a failure here. -/
def backtraceLoop (supersequence currentStack : List Nat) (backtrace : Nat → Nat → Dir) :
    Nat → Nat → Nat → List Nat → Option (List Nat)
  | fuel, i, j, acc =>
    if i = 0 ∧ j = 0 then some acc
    else
      match fuel with
      | 0 => none
      | fuel + 1 =>
        match supersequence[i]?, currentStack[j]? with
        | some s, some c =>
          match backtrace i j with
          | Dir.L =>
            if i = 0 then none
            else backtraceLoop supersequence currentStack backtrace fuel (i - 1) j (acc ++ [s])
          | Dir.U =>
            if j = 0 then none
            else backtraceLoop supersequence currentStack backtrace fuel i (j - 1) (acc ++ [c])
          | Dir.D =>
            if s = c ∧ i ≠ 0 ∧ j ≠ 0 then
              backtraceLoop supersequence currentStack backtrace fuel (i - 1) (j - 1) (acc ++ [s])
            else none
          | Dir.unset => none
        | _, _ => none

/-- The function `getPairwiseSupersequenceByAlignment`. -/
def getPairwiseSupersequenceByAlignment (supersequence currentStack : List Nat) :
    Option (List Nat) :=
  match supersequence, currentStack with
  | s0 :: _, c0 :: _ =>
    let t := fillTables supersequence currentStack
    match backtraceLoop supersequence currentStack t.backtrace
        (supersequence.length + currentStack.length)
        (supersequence.length - 1) (currentStack.length - 1) [] with
    | none => none
    | some newSupersequence =>
      if s0 = c0 then
        let newSupersequence := (newSupersequence ++ [s0]).reverse
        if newSupersequence.length ≥ supersequence.length then some newSupersequence else none
      else none
  | _, _ => none

/-! ## getCycleCuttersSupersequence -/

/-- The callback of `getCycleCuttersSupersequence`, applied to one walk. -/
def supersequenceStep (supersequence currentStack : List Nat) : Option (List Nat) :=
  if supersequence.length = 0 then
    if currentStack.length > 0 then some currentStack else none
  else getPairwiseSupersequenceByAlignment supersequence currentStack

/-- The function `getCycleCuttersSupersequence`. -/
def getCycleCuttersSupersequence (g : AlignmentGraph) (cycleStart sizeLeft : Nat) :
    Option (List Nat) :=
  (iterateOverEdgeCoveringPaths g cycleStart sizeLeft).bind fun walks =>
    walks.foldlM supersequenceStep []

/-! ## filterUnnecessaryCharacters -/

/-- The vector `isPredecessor` after the marking loop. -/
def markPredecessors (n : Nat) (predecessors : List (List Nat)) : List Bool :=
  predecessors.foldl (fun isP ps => ps.foldl (fun isP p => isP.set p true) isP)
    (List.replicate n false)

/-- The set `removeIndices`, ascending. -/
def removeIndices (isPredecessor : List Bool) : List Nat :=
  (List.range' 1 (isPredecessor.length - 1)).filter fun i => isPredecessor.getD i false = false

/-- The vector `newIndex` after its three loops. -/
def newIndex (n : Nat) (remove : List Nat) : List Nat :=
  let v0 := (List.replicate n 1).set 0 0
  let v1 := remove.foldl (fun v x => v.set x (v.getD x 0 - 1)) v0
  (List.range' 1 (n - 1)).foldl (fun v i => v.set i (v.getD (i - 1) 0 + v.getD i 0)) v1

/-- The function `filterUnnecessaryCharacters` (its unused parameters left out): the final values
of the reference parameters `supersequence` and `supersequencePredecessors`. -/
def filterUnnecessaryCharacters (supersequence : List Nat)
    (supersequencePredecessors : List (List Nat)) : List Nat × List (List Nat) :=
  let isPredecessor := markPredecessors supersequence.length supersequencePredecessors
  let remove := removeIndices isPredecessor
  if remove.length = 0 then (supersequence, supersequencePredecessors)
  else
    let idx := newIndex supersequence.length remove
    let erased := remove.reverse.foldl
      (fun (st : List Nat × List (List Nat)) x => (st.1.eraseIdx x, st.2.eraseIdx x))
      (supersequence, supersequencePredecessors)
    (erased.1, erased.2.map fun olds => olds.foldl (fun s x => setInsert (idx.getD x 0) s) [])

/-! ## getPredecessorsFromSupersequenceOverEdgeCoveringPaths -/

/-- The `while` loop of the callback: from position `pos` on, with the rest of the supersequence
in the list, the first position that holds `x`; `none` when the end is passed. -/
def advance (x : Nat) : List Nat → Nat → Option Nat
  | [], _ => none
  | y :: rest, pos => if y ≠ x then advance x rest (pos + 1) else some pos

/-- The `for` loop of the callback, over the elements of the walk from index `i` on. -/
def recordWalk (supersequence : List Nat) :
    List Nat → Nat → Nat → Nat → List (List Nat) → Option (List (List Nat))
  | [], _, _, _, preds => some preds
  | x :: rest, i, offset, lastIndex, preds =>
    match advance x (supersequence.drop (i + offset)) (i + offset) with
    | none => none
    | some pos => recordWalk supersequence rest (i + 1) (pos - i) pos (insertAt preds lastIndex pos)

/-- The callback of `getPredecessorsFromSupersequenceOverEdgeCoveringPaths`, applied to one
walk. -/
def relationStep (supersequence : List Nat) (supersequencePredecessors : List (List Nat))
    (currentStack : List Nat) : Option (List (List Nat)) :=
  match supersequence, currentStack with
  | s0 :: _, c0 :: rest =>
    if s0 = c0 ∧ supersequence.length ≥ currentStack.length then
      recordWalk supersequence rest 1 0 0 supersequencePredecessors
    else none
  | _, _ => none

/-- The debug check after compaction: every position but the first is a relation target. -/
def allPredecessors (supersequence : List Nat) (supersequencePredecessors : List (List Nat)) :
    Bool :=
  let isPredecessor := markPredecessors supersequence.length supersequencePredecessors
  (List.range' 1 (isPredecessor.length - 1)).all fun i => isPredecessor.getD i false

/-- The function `getPredecessorsFromSupersequenceOverEdgeCoveringPaths`: the final values of the
reference parameters `supersequence` and `supersequencePredecessors`. -/
def getPredecessorsFromSupersequenceOverEdgeCoveringPaths (g : AlignmentGraph)
    (cycleStart sizeLeft : Nat) (supersequence : List Nat)
    (supersequencePredecessors : List (List Nat)) : Option (List Nat × List (List Nat)) :=
  match iterateOverEdgeCoveringPaths g cycleStart sizeLeft with
  | none => none
  | some walks =>
    match walks.foldlM (relationStep supersequence)
        (resizeSets supersequencePredecessors supersequence.length) with
    | none => none
    | some preds =>
      let out := filterUnnecessaryCharacters supersequence preds
      if allPredecessors out.1 out.2 then some out else none

/-! ## getCycleCutters and GetCycleCut -/

/-- The function `getCycleCutters`, on the three fields of the cut it is given. -/
def getCycleCutters (g : AlignmentGraph) (cycleStart sizeLeft : Nat) (cut : CycleCut) :
    Option CycleCut :=
  match getCycleCuttersSupersequence g cycleStart sizeLeft with
  | none => none
  | some supersequence =>
    match getPredecessorsFromSupersequenceOverEdgeCoveringPaths g cycleStart sizeLeft
        supersequence cut.predecessors with
    | none => none
    | some (supersequence, supersequencePredecessors) =>
      some { nodes := supersequence
             predecessors := supersequencePredecessors
             previousCut := cut.previousCut ++ supersequence.map fun x => decide (x < cycleStart) }

/-- The function `GetCycleCut`. Its parameter `wordSize` is an `int`, and the horizon
`wordSize*2` is computed in `int`: the 32 bits of the product are kept, and a value from `2^31`
on is a negative `int`. With a negative horizon the first statement that uses it,
`nodes.resize(sizeLeft)` in `getCycleCuttersOrder`, converts it to a `size_t` beyond the
largest size of a vector and throws `std::length_error`, so that no cut is returned. -/
def GetCycleCut (g : AlignmentGraph) (startNode wordSize : Nat) : Option CycleCut :=
  let sizeLeft := wordSize * 2 % 2 ^ 32
  if sizeLeft < 2 ^ 31 then
    getCycleCutters g startNode sizeLeft { nodes := [], predecessors := [], previousCut := [] }
  else none

/-! ## Predicates used in the verification -/

/-- The cell `(a, b)` of the tables holds what the filling loop computes for it from its three
neighbours. -/
def CellGood (S W : List Nat) (t : Tables) (a b : Nat) : Prop :=
  (t.scores a b, t.backtrace a b) = cellValue S W t a b

/-- The first column and the first row of the tables hold their initial values. -/
def BorderGood (S W : List Nat) (t : Tables) : Prop :=
  (∀ i, 1 ≤ i → i < S.length → t.scores i 0 = 0 ∧ t.backtrace i 0 = Dir.L) ∧
  (∀ j, j < W.length → t.scores 0 j = j ∧ t.backtrace 0 j = Dir.U)

/-- Invariant of the filling loops: the border is set and every inner cell before `(i, j)` in
row-major order is good. -/
def FillInv (S W : List Nat) (i j : Nat) (t : Tables) : Prop :=
  BorderGood S W t ∧
  ∀ a b, 1 ≤ a → 1 ≤ b → b < W.length → (a < i ∨ (a = i ∧ b < j)) → CellGood S W t a b

/-- The list `Z` is a longest common subsequence of `S` and `W`. -/
def IsLongestCommonSubsequence (Z S W : List Nat) : Prop :=
  Z.Sublist S ∧ Z.Sublist W ∧ ∀ Z' : List Nat, Z'.Sublist S → Z'.Sublist W → Z'.length ≤ Z.length

/-- Position `p` occurs as a target in the relation `P`. -/
def IsTarget (P : List (List Nat)) (p : Nat) : Prop := ∃ ps ∈ P, p ∈ ps

/-- The elements of a list whose index, counted from `k`, is not in `rm`. -/
def keepFrom {α : Type} (rm : List Nat) : Nat → List α → List α
  | _, [] => []
  | k, x :: xs => if k ∈ rm then keepFrom rm (k + 1) xs else x :: keepFrom rm (k + 1) xs

/-- The number of indices among the `j` indices from `k` on that are not in `rm`. -/
def rankFrom (rm : List Nat) : Nat → Nat → Nat
  | _, 0 => 0
  | k, j + 1 => (if k ∈ rm then 0 else 1) + rankFrom rm (k + 1) j

/-- Invariant of the first loop of `getCycleCuttersOrder`, while the loop is at layer `i` and
has processed the nodes `done` of that layer. -/
structure OrderInv (g : AlignmentGraph) (s H i : Nat) (done : List Nat) (st : OrderState) :
    Prop where
  nodes_len : st.nodes.length = H
  nodes_sorted : ∀ l, (st.nodes.getD l []).Pairwise (· < ·)
  layer0 : st.nodes.getD 0 [] = [s]
  sup_zero : i = 0 → done = [] → st.supersequence = []
  pos_zero : ∀ v k, mapFind st.positionInSupersequence (0, v) = some k → k = 0
  pos_some : ∀ l v k, mapFind st.positionInSupersequence (l, v) = some k →
    k < st.supersequence.length ∧ st.supersequence[k]? = some v ∧ v ∈ st.nodes.getD l [] ∧
      (l < i ∨ (l = i ∧ v ∈ done))
  pos_def : ∀ l v, (l < i ∨ (l = i ∧ v ∈ done)) → v ∈ st.nodes.getD l [] →
    ∃ k, mapFind st.positionInSupersequence (l, v) = some k
  pos_surj : ∀ k, k < st.supersequence.length →
    ∃ l v, mapFind st.positionInSupersequence (l, v) = some k
  pos_mono : ∀ l v k l' v' k', mapFind st.positionInSupersequence (l, v) = some k →
    mapFind st.positionInSupersequence (l', v') = some k' → l < l' → k < k'
  edges_ok : ∀ e ∈ st.edges, (∃ k, mapFind st.positionInSupersequence e.1 = some k) ∧
    e.1.1 < e.2.1 ∧ e.2.1 < H ∧ e.2.2 ∈ st.nodes.getD e.2.1 [] ∧
    e.2.2 ∈ g.inNeighbors e.1.2 ∧ e.2.1 = e.1.1 + (g.nodeEnd e.1.2 - g.nodeStart e.1.2)
  nodes_src : ∀ l v, 1 ≤ l → v ∈ st.nodes.getD l [] → ∃ e ∈ st.edges, e.2 = (l, v)

/-- The facts about a skeleton (positions and successor sets) that the flow computation and the
path extraction rely on. -/
structure Skeleton (sup : List Nat) (preds : List (List Nat)) : Prop where
  length_eq : preds.length = sup.length
  nonempty : 0 < sup.length
  increasing : ∀ i p, p ∈ preds.getD i [] → i < p ∧ p < sup.length
  reached : ∀ j, 0 < j → j < sup.length → ∃ i, j ∈ preds.getD i []
  sorted : ∀ i, (preds.getD i []).Pairwise (· < ·)

/-- Sum of the flow on the entries of `m` whose key satisfies `pred`. -/
def flowSum (pred : Edge → Bool) (m : FlowMap) : Nat :=
  ((m.filter fun e => pred e.1).map Prod.snd).sum

/-- Sum of the flow on the entries of `m` that enter position `v`. -/
def inflow (m : FlowMap) (v : Nat) : Nat := flowSum (fun e => e.2 == v) m

/-- Sum of the flow on the entries of `m` that leave position `v`. -/
def outflow (m : FlowMap) (v : Nat) : Nat := flowSum (fun e => e.1 == v) m

/-- The value `m[k]` of a flow table, 0 for a missing key. -/
def flowAt (m : FlowMap) (k : Edge) : Nat := (mapFind m k).getD 0

/-- The edges `es` enter every position as often as they leave it, but for one more exit from
`a` and one more entry into `b`: what the edges of a walk from `a` to `b` do. -/
def Balanced (es : List Edge) (a b : Nat) : Prop :=
  ∀ v, es.countP (fun e => e.2 == v) + (if v = a then 1 else 0) =
    es.countP (fun e => e.1 == v) + (if v = b then 1 else 0)

/-- The list `es` consists of skeleton edges and is balanced from `a` to `b`. -/
def PathOK (preds : List (List Nat)) (es : List Edge) (a b : Nat) : Prop :=
  (∀ e ∈ es, e.2 ∈ preds.getD e.1 []) ∧ Balanced es a b

/-- A flow table over the skeleton: one entry per key, every key a skeleton edge, and flow
conserved at every position that is not the first and has a successor. -/
structure FlowOK (preds : List (List Nat)) (m : FlowMap) : Prop where
  keys_nodup : (m.map Prod.fst).Nodup
  keys_edges : ∀ e ∈ m, e.1.2 ∈ preds.getD e.1.1 []
  conserve : ∀ v, 0 < v → preds.getD v [] ≠ [] → inflow m v = outflow m v

/-- The edges between consecutive positions of a path. -/
def edgesOf : List Nat → List Edge
  | a :: b :: rest => (a, b) :: edgesOf (b :: rest)
  | _ => []

/-- A path as `getOneFlowPath` extracts it: every step follows a skeleton edge with flow left,
and from the last position no edge has flow left. -/
def FlowChain (preds : List (List Nat)) (m : FlowMap) : List Nat → Prop
  | [] => False
  | [t] => t < preds.length ∧ ∀ p ∈ preds.getD t [], flowAt m (t, p) = 0
  | a :: b :: rest => b ∈ preds.getD a [] ∧ 0 < flowAt m (a, b) ∧ FlowChain preds m (b :: rest)

/-- Every skeleton edge has an entry in the flow table `m`. -/
def KeysAll (preds : List (List Nat)) (m : FlowMap) : Prop :=
  ∀ i p, p ∈ preds.getD i [] → ∃ f, mapFind m (i, p) = some f

/-- A path through the skeleton as the loop of `findFlowPaths` records it: it starts at position
0, has at least one edge, stays inside the skeleton and follows skeleton edges. -/
def GoodPath (sup : List Nat) (preds : List (List Nat)) (path : List Nat) : Prop :=
  path.head? = some 0 ∧ 2 ≤ path.length ∧ (∀ p ∈ path, p < sup.length) ∧
    ∀ e ∈ edgesOf path, e.2 ∈ preds.getD e.1 []

/-! ## Example graphs -/

/-- The cycle of three nodes of span 1 in which node 0 has the incoming neighbour 2, node 1 the
incoming neighbour 0 and node 2 the incoming neighbour 1. -/
def cycleGraph : AlignmentGraph where
  nodeStart := fun _ => 0
  nodeEnd := fun _ => 1
  inNeighbors := fun n => if n = 0 then [2] else if n = 1 then [0] else if n = 2 then [1] else []

/-- The chain of three nodes of span 1 without a cycle: node 0 has the incoming neighbour 1 and
node 1 the incoming neighbour 2. -/
def chainGraph : AlignmentGraph where
  nodeStart := fun _ => 0
  nodeEnd := fun _ => 1
  inNeighbors := fun n => if n = 0 then [1] else if n = 1 then [2] else []

/-- Nodes of span 1 without any edge. -/
def isolatedGraph : AlignmentGraph where
  nodeStart := fun _ => 0
  nodeEnd := fun _ => 1
  inNeighbors := fun _ => []

/-- Invariant of the relation that the re-derivation builds over the supersequence `S`: it has
one set per position, every edge leads to a later position inside `S`, every position with an
edge out of it is position 0 or a target, and every set is ascending. -/
structure RelInv (S : List Nat) (R : List (List Nat)) : Prop where
  length_eq : R.length = S.length
  increasing : ∀ q p, p ∈ R.getD q [] → q < p ∧ p < S.length
  sources : ∀ q p, p ∈ R.getD q [] → q = 0 ∨ IsTarget R q
  sorted : ∀ q, (R.getD q []).Pairwise (· < ·)

/-- The positions `ps` realise the walk `w` in the node sequence `S` with relation `R`: they
start at position 0, hold the nodes of `w` in order, and each is a later position related to the
one before it. -/
def Realises (S : List Nat) (R : List (List Nat)) (w ps : List Nat) : Prop :=
  ps.head? = some 0 ∧ ps.Chain' (fun a b => a < b ∧ b ∈ R.getD a []) ∧
    ps.map (fun p => S[p]?) = w.map some

/-- The nodes of the list form a backward walk: each is an incoming neighbour of the one before
it. -/
def IsBackwardWalk (g : AlignmentGraph) : List Nat → Prop
  | a :: b :: rest => b ∈ g.inNeighbors a ∧ IsBackwardWalk g (b :: rest)
  | _ => True

/-- The total span of the nodes of a list. -/
def totalSpan (g : AlignmentGraph) (l : List Nat) : Nat :=
  (l.map fun v => g.nodeEnd v - g.nodeStart v).sum

/-- Some backward walk leads from `s` back to `s` and reaches it at a layer below `H`: the nodes
it passes before it is back have a total span below `H`. -/
def ReturnsWithin (g : AlignmentGraph) (s H : Nat) : Prop :=
  ∃ walk : List Nat, IsBackwardWalk g (s :: (walk ++ [s])) ∧ totalSpan g (s :: walk) < H

/-- Second invariant of the first loop of `getCycleCuttersOrder`: distinct keys of the position
map hold distinct indices, and every key `(l, u)` whose continuation layer `l + span u` is below
the horizon has an edge to each incoming neighbour of `u` in that layer. -/
structure OrderClosed (g : AlignmentGraph) (H : Nat) (st : OrderState) : Prop where
  pos_inj : ∀ k1 k2 n, mapFind st.positionInSupersequence k1 = some n →
    mapFind st.positionInSupersequence k2 = some n → k1 = k2
  closed : ∀ l u k, mapFind st.positionInSupersequence (l, u) = some k →
    l + (g.nodeEnd u - g.nodeStart u) < H → ∀ v ∈ g.inNeighbors u,
      ((l, u), (l + (g.nodeEnd u - g.nodeStart u), v)) ∈ st.edges

/-! ## The compactor in the words of its contract -/

/-- The positions that compaction keeps, as the contract words it: position 0 and the positions
that occur as a relation target, in ascending order. -/
def keptPositions (S : List Nat) (P : List (List Nat)) : List Nat :=
  (List.range S.length).filter fun i => decide (i = 0 ∨ i ∈ P.flatten)

/-- The number of removed positions smaller than `x`: the positions that are neither position 0
nor a relation target. -/
def removedBelow (S : List Nat) (P : List (List Nat)) (x : Nat) : Nat :=
  ((List.range x).filter fun i => decide (i < S.length ∧ ¬ (i = 0 ∨ i ∈ P.flatten))).length

/-- The compactor as the contract words it: the kept positions with their node identifiers and
their relation sets, each relation target lowered by the number of removed positions below
it. -/
def compactSpec (S : List Nat) (P : List (List Nat)) : List Nat × List (List Nat) :=
  ((keptPositions S P).map fun i => S.getD i 0,
   (keptPositions S P).map fun i => (P.getD i []).map fun x => x - removedBelow S P x)

end CycleCutCalculation

/-! ## Verification -/

namespace CycleCutCalculation

open List

/-- Invariant rule for a left fold over a run of consecutive numbers, the invariant indexed by
the next number. -/
theorem foldl_range'_invariant {σ : Type} (P : Nat → σ → Prop) (f : σ → Nat → σ) (s len : Nat)
    (init : σ) (h0 : P s init)
    (hstep : ∀ k st, s ≤ k → k < s + len → P k st → P (k + 1) (f st k)) :
    P (s + len) ((List.range' s len).foldl f init) := by
  induction len generalizing s init with
  | zero => simpa using h0
  | succ len ih =>
    simp only [List.range'_succ, List.foldl_cons]
    have := ih (s + 1) (f init s) (hstep s init (le_refl _) (by omega) h0)
      (fun k st hk hk2 hP => hstep k st (by omega) (by omega) hP)
    have e : s + 1 + len = s + (len + 1) := by omega
    rw [e] at this
    exact this

@[simp] theorem Tables.set_scores (t : Tables) (i j v : Nat) (d : Dir) (a b : Nat) :
    (t.set i j v d).scores a b = if a = i ∧ b = j then v else t.scores a b := rfl

@[simp] theorem Tables.set_backtrace (t : Tables) (i j v : Nat) (d : Dir) (a b : Nat) :
    (t.set i j v d).backtrace a b = if a = i ∧ b = j then d else t.backtrace a b := rfl

theorem cellValue_congr (S W : List Nat) (t t' : Tables) (a b : Nat)
    (h1 : t'.scores (a - 1) b = t.scores (a - 1) b)
    (h2 : t'.scores a (b - 1) = t.scores a (b - 1))
    (h3 : t'.scores (a - 1) (b - 1) = t.scores (a - 1) (b - 1)) :
    cellValue S W t' a b = cellValue S W t a b := by
  simp only [cellValue, h1, h2, h3]

theorem border_after_init (S W : List Nat) (t0 : Tables) :
    BorderGood S W ((List.range W.length).foldl (fun t j => t.set 0 j j Dir.U)
      ((List.range S.length).foldl (fun t i => t.set i 0 0 Dir.L) t0)) := by
  constructor
  · intro i hi hin
    have hA : ∀ (l : List Nat) (t : Tables), (i ∈ l ∨ (t.scores i 0 = 0 ∧ t.backtrace i 0 = Dir.L)) →
        ((l.foldl (fun t i => t.set i 0 0 Dir.L) t).scores i 0 = 0 ∧
         (l.foldl (fun t i => t.set i 0 0 Dir.L) t).backtrace i 0 = Dir.L) := by
      intro l
      induction l with
      | nil => intro t h; simpa using h
      | cons a l ih =>
        intro t h
        simp only [List.foldl_cons]
        apply ih
        by_cases hal : i ∈ l
        · exact Or.inl hal
        · right
          rcases h with h | h
          · have : i = a := by simpa [hal] using h
            subst this; simp
          · by_cases hia : i = a
            · subst hia; simp
            · simp [hia, h]
    have hB : ∀ (l : List Nat) (t : Tables), (t.scores i 0 = 0 ∧ t.backtrace i 0 = Dir.L) →
        ((l.foldl (fun t j => t.set 0 j j Dir.U) t).scores i 0 = 0 ∧
         (l.foldl (fun t j => t.set 0 j j Dir.U) t).backtrace i 0 = Dir.L) := by
      intro l
      induction l with
      | nil => intro t h; simpa using h
      | cons a l ih =>
        intro t h
        simp only [List.foldl_cons]
        apply ih
        have : i ≠ 0 := by omega
        simp [this, h]
    exact hB _ _ (hA _ _ (Or.inl (List.mem_range.2 hin)))
  · intro j hj
    have hB : ∀ (l : List Nat) (t : Tables), (j ∈ l ∨ (t.scores 0 j = j ∧ t.backtrace 0 j = Dir.U)) →
        ((l.foldl (fun t j => t.set 0 j j Dir.U) t).scores 0 j = j ∧
         (l.foldl (fun t j => t.set 0 j j Dir.U) t).backtrace 0 j = Dir.U) := by
      intro l
      induction l with
      | nil => intro t h; simpa using h
      | cons a l ih =>
        intro t h
        simp only [List.foldl_cons]
        apply ih
        by_cases hal : j ∈ l
        · exact Or.inl hal
        · right
          rcases h with h | h
          · have : j = a := by simpa [hal] using h
            subst this; simp
          · by_cases hja : j = a
            · subst hja; simp
            · simp [hja, h]
    exact hB _ _ (Or.inl (List.mem_range.2 hj))

theorem fillCell_inv (S W : List Nat) (i j : Nat) (t : Tables) (hi : 1 ≤ i) (hj : 1 ≤ j)
    (hjm : j < W.length) (h : FillInv S W i j t) : FillInv S W i (j + 1) (fillCell S W i t j) := by
  obtain ⟨⟨hb1, hb2⟩, hc⟩ := h
  refine ⟨⟨?_, ?_⟩, ?_⟩
  · intro a ha han
    have : ¬ (a = i ∧ 0 = j) := by omega
    simpa [fillCell, this] using hb1 a ha han
  · intro b hb
    have : ¬ (0 = i ∧ b = j) := by omega
    simpa [fillCell, this] using hb2 b hb
  · intro a b ha hb hbm hlt
    have hcv : cellValue S W (fillCell S W i t j) a b = cellValue S W t a b := by
      apply cellValue_congr <;> simp only [fillCell, Tables.set_scores] <;>
        rw [if_neg] <;> omega
    unfold CellGood
    rw [hcv]
    by_cases hab : a = i ∧ b = j
    · obtain ⟨rfl, rfl⟩ := hab
      simp [fillCell]
    · have hg := hc a b ha hb hbm (by omega)
      unfold CellGood at hg
      simp only [fillCell, Tables.set_scores, Tables.set_backtrace, if_neg hab]
      exact hg

theorem fillTables_good (S W : List Nat) :
    BorderGood S W (fillTables S W) ∧
    ∀ a b, 1 ≤ a → a < S.length → 1 ≤ b → b < W.length → CellGood S W (fillTables S W) a b := by
  have key : FillInv S W (1 + (S.length - 1)) 1 (fillTables S W) := by
    unfold fillTables
    apply foldl_range'_invariant (fun i t => FillInv S W i 1 t)
    · exact ⟨border_after_init S W _, fun a b ha hb _ h => by omega⟩
    · intro i t hi _ hinv
      have h2 : FillInv S W i (1 + (W.length - 1)) ((List.range' 1 (W.length - 1)).foldl
          (fillCell S W i) t) := by
        apply foldl_range'_invariant (fun j t => FillInv S W i j t)
        · exact hinv
        · intro j t' hj hj2 hinv'
          exact fillCell_inv S W i j t' hi hj (by omega) hinv'
      refine ⟨h2.1, fun a b ha hb hbm hlt => h2.2 a b ha hb hbm ?_⟩
      omega
  exact ⟨key.1, fun a b ha han hb hbm => key.2 a b ha hb hbm (by omega)⟩

theorem cell_facts (S W : List Nat) (t : Tables) (i j : Nat) (h : CellGood S W t i j) :
    t.scores i j ≤ t.scores (i - 1) j ∧ t.scores i j ≤ t.scores i (j - 1) + 1 ∧
    (S[i]? = W[j]? → t.scores i j ≤ t.scores (i - 1) (j - 1)) ∧
    (t.backtrace i j = Dir.L → t.scores i j = t.scores (i - 1) j) ∧
    (t.backtrace i j = Dir.U → t.scores i j = t.scores i (j - 1) + 1) ∧
    (t.backtrace i j = Dir.D → S[i]? = W[j]? ∧ t.scores i j = t.scores (i - 1) (j - 1)) ∧
    t.backtrace i j ≠ Dir.unset := by
  unfold CellGood cellValue at h
  simp only [Prod.ext_iff] at h
  obtain ⟨h1, h2⟩ := h
  by_cases c1 : t.scores i (j - 1) + 1 < t.scores (i - 1) j <;>
  by_cases c2 : S[i]? = W[j]? <;> simp only [c1, c2, if_true, if_false, true_and, false_and] at h1 h2
  · by_cases c3 : t.scores (i - 1) (j - 1) < t.scores i (j - 1) + 1 <;>
      simp only [c3, if_true, if_false] at h1 h2 <;>
      simp only [h2, c2, true_and, ne_eq, not_false_eq_true, and_true, forall_const,
        false_implies, reduceCtorEq] <;>
      omega
  · simp only [h2, c2, true_and, ne_eq, not_false_eq_true, and_true, forall_const,
        false_implies, reduceCtorEq, false_and]
    omega
  · by_cases c3 : t.scores (i - 1) (j - 1) < t.scores (i - 1) j <;>
      simp only [c3, if_true, if_false] at h1 h2 <;>
      simp only [h2, c2, true_and, ne_eq, not_false_eq_true, and_true, forall_const,
        false_implies, reduceCtorEq] <;>
      omega
  · simp only [h2, c2, true_and, ne_eq, not_false_eq_true, and_true, forall_const,
        false_implies, reduceCtorEq, false_and]
    omega

theorem take_succ_tail (l : List Nat) (i x : Nat) (hi : 1 ≤ i) (hx : l[i]? = some x) :
    (l.take (i + 1)).tail = (l.take i).tail ++ [x] := by
  cases l with
  | nil => simp at hx
  | cons a l =>
    obtain ⟨k, rfl⟩ : ∃ k, i = k + 1 := ⟨i - 1, by omega⟩
    simp only [List.take_succ_cons, List.tail_cons]
    simp only [List.getElem?_cons_succ] at hx
    rw [List.take_succ, hx]
    rfl

theorem backtraceLoop_spec (S W : List Nat) (fuel : Nat) :
    ∀ (i j : Nat) (acc : List Nat), i < S.length → j < W.length → i + j ≤ fuel →
    ∃ r, backtraceLoop S W (fillTables S W).backtrace fuel i j acc = some (acc ++ r) ∧
      r.length = i + (fillTables S W).scores i j ∧
      (S.take (i + 1)).tail <+ r.reverse ∧ (W.take (j + 1)).tail <+ r.reverse := by
  obtain ⟨⟨hb1, hb2⟩, hc⟩ := fillTables_good S W
  induction fuel with
  | zero =>
    intro i j acc hi hj hf
    have hi0 : i = 0 := by omega
    have hj0 : j = 0 := by omega
    subst hi0 hj0
    refine ⟨[], ?_, ?_, ?_, ?_⟩
    · unfold backtraceLoop; simp
    · simp [(hb2 0 hj).1]
    · cases S <;> simp
    · cases W <;> simp
  | succ fuel ih =>
    intro i j acc hi hj hf
    by_cases h00 : i = 0 ∧ j = 0
    · obtain ⟨rfl, rfl⟩ := h00
      refine ⟨[], ?_, ?_, ?_, ?_⟩
      · unfold backtraceLoop; simp
      · simp [(hb2 0 hj).1]
      · cases S <;> simp
      · cases W <;> simp
    · have hs : S[i]? = some S[i] := List.getElem?_eq_getElem hi
      have hw : W[j]? = some W[j] := List.getElem?_eq_getElem hj
      unfold backtraceLoop
      simp only [h00, if_false, hs, hw]
      by_cases hi0 : i = 0
      · -- first row: 'U'
        subst hi0
        have hj1 : 1 ≤ j := by omega
        have hbt := (hb2 j hj).2
        have hsc := (hb2 j hj).1
        have hsc' := (hb2 (j - 1) (by omega)).1
        obtain ⟨r, hr, hlen, hS, hW⟩ := ih 0 (j - 1) (acc ++ [W[j]]) hi (by omega) (by omega)
        refine ⟨W[j] :: r, ?_, ?_, ?_, ?_⟩
        · simp only [hbt]
          rw [if_neg (by omega), hr]; simp
        · simp [hlen, hsc, hsc']; omega
        · cases S <;> simp
        · rw [take_succ_tail W j W[j] hj1 hw]
          have e : j - 1 + 1 = j := by omega
          rw [e] at hW
          simp only [List.reverse_cons]
          exact List.Sublist.append hW (List.Sublist.refl _)
      · by_cases hj0 : j = 0
        · subst hj0
          have hi1 : 1 ≤ i := by omega
          have hbt := (hb1 i hi1 hi).2
          have hsc := (hb1 i hi1 hi).1
          have hsc' : (fillTables S W).scores (i - 1) 0 = 0 := by
            by_cases h1 : i = 1
            · subst h1; exact (hb2 0 hj).1
            · exact (hb1 (i - 1) (by omega) (by omega)).1
          obtain ⟨r, hr, hlen, hS, hW⟩ := ih (i - 1) 0 (acc ++ [S[i]]) (by omega) hj (by omega)
          refine ⟨S[i] :: r, ?_, ?_, ?_, ?_⟩
          · simp only [hbt]
            rw [if_neg hi0, hr]; simp
          · simp [hlen, hsc, hsc']; omega
          · rw [take_succ_tail S i S[i] hi1 hs]
            have e : i - 1 + 1 = i := by omega
            rw [e] at hS
            simp only [List.reverse_cons]
            exact List.Sublist.append hS (List.Sublist.refl _)
          · cases W <;> simp
        · have hi1 : 1 ≤ i := by omega
          have hj1 : 1 ≤ j := by omega
          have ei : i - 1 + 1 = i := by omega
          have ej : j - 1 + 1 = j := by omega
          obtain ⟨f1, f2, f3, fL, fU, fD, fN⟩ := cell_facts S W _ i j (hc i j hi1 hi hj1 hj)
          cases hbt : (fillTables S W).backtrace i j with
          | unset => exact absurd hbt fN
          | L =>
            obtain ⟨r, hr, hlen, hS, hW⟩ := ih (i - 1) j (acc ++ [S[i]]) (by omega) hj (by omega)
            refine ⟨S[i] :: r, ?_, ?_, ?_, ?_⟩
            · simp only []
              rw [if_neg hi0, hr]; simp
            · simp [hlen, fL hbt]; omega
            · rw [take_succ_tail S i S[i] hi1 hs]
              rw [ei] at hS
              simp only [List.reverse_cons]
              exact List.Sublist.append hS (List.Sublist.refl _)
            · simp only [List.reverse_cons]
              exact hW.trans (List.sublist_append_left _ _)
          | U =>
            obtain ⟨r, hr, hlen, hS, hW⟩ := ih i (j - 1) (acc ++ [W[j]]) hi (by omega) (by omega)
            refine ⟨W[j] :: r, ?_, ?_, ?_, ?_⟩
            · simp only []
              rw [if_neg hj0, hr]; simp
            · simp [hlen, fU hbt]; omega
            · simp only [List.reverse_cons]
              exact hS.trans (List.sublist_append_left _ _)
            · rw [take_succ_tail W j W[j] hj1 hw]
              rw [ej] at hW
              simp only [List.reverse_cons]
              exact List.Sublist.append hW (List.Sublist.refl _)
          | D =>
            obtain ⟨heq, hsc⟩ := fD hbt
            rw [hs, hw] at heq
            have heq' : S[i] = W[j] := by simpa using heq
            obtain ⟨r, hr, hlen, hS, hW⟩ :=
              ih (i - 1) (j - 1) (acc ++ [S[i]]) (by omega) (by omega) (by omega)
            refine ⟨S[i] :: r, ?_, ?_, ?_, ?_⟩
            · simp only []
              rw [if_pos ⟨heq', hi0, hj0⟩, hr]; simp
            · simp [hlen, hsc]; omega
            · rw [take_succ_tail S i S[i] hi1 hs]
              rw [ei] at hS
              simp only [List.reverse_cons]
              exact List.Sublist.append hS (List.Sublist.refl _)
            · rw [take_succ_tail W j W[j] hj1 hw, heq']
              rw [ej] at hW
              simp only [List.reverse_cons]
              exact List.Sublist.append hW (List.Sublist.refl _)

theorem take_succ_reverse (l : List Nat) (i : Nat) (hi : i < l.length) :
    (l.take (i + 1)).reverse = l[i] :: (l.take i).reverse := by
  rw [List.take_succ, List.getElem?_eq_getElem hi]
  simp

theorem cons_sublist_cons_cases {a b : Nat} {l T : List Nat} (h : a :: l <+ b :: T) :
    a :: l <+ T ∨ (a = b ∧ l <+ T) := by
  rcases List.sublist_cons_iff.1 h with h | ⟨r, hr, h⟩
  · exact Or.inl h
  · simp only [List.cons.injEq] at hr
    obtain ⟨rfl, rfl⟩ := hr
    exact Or.inr ⟨rfl, h⟩

/-- The score of a cell bounds the length of every common supersequence of the two prefixes the
cell stands for (stated on reversed lists). -/
theorem scores_lower_bound (S W : List Nat) (T : List Nat) :
    ∀ i j, i < S.length → j < W.length →
      (S.take (i + 1)).reverse <+ T → (W.take (j + 1)).reverse <+ T →
      i + 1 + (fillTables S W).scores i j ≤ T.length := by
  obtain ⟨⟨hb1, hb2⟩, hc⟩ := fillTables_good S W
  induction T with
  | nil =>
    intro i j hi _ hS _
    rw [take_succ_reverse S i hi] at hS
    simp at hS
  | cons x T ih =>
    intro i j hi hj hS hW
    have lenS : ((S.take (i + 1)).reverse).length = i + 1 := by
      simp; omega
    have lenW : ((W.take (j + 1)).reverse).length = j + 1 := by
      simp; omega
    have hS0 := hS
    have hW0 := hW
    rw [take_succ_reverse S i hi] at hS
    rw [take_succ_reverse W j hj] at hW
    simp only [List.length_cons]
    have hs : S[i]? = some S[i] := List.getElem?_eq_getElem hi
    have hw : W[j]? = some W[j] := List.getElem?_eq_getElem hj
    have facts : (1 ≤ i → 1 ≤ j →
        (fillTables S W).scores i j ≤ (fillTables S W).scores (i - 1) j ∧
        (fillTables S W).scores i j ≤ (fillTables S W).scores i (j - 1) + 1 ∧
        (S[i] = W[j] → (fillTables S W).scores i j ≤ (fillTables S W).scores (i - 1) (j - 1))) := by
      intro hi1 hj1
      obtain ⟨f1, f2, f3, -⟩ := cell_facts S W _ i j (hc i j hi1 hi hj1 hj)
      exact ⟨f1, f2, fun e => f3 (by rw [hs, hw, e])⟩
    have row0 : ∀ b, b < W.length → (fillTables S W).scores 0 b = b := fun b hb => (hb2 b hb).1
    have col0 : ∀ a, a < S.length → (fillTables S W).scores a 0 = 0 := by
      intro a han
      by_cases h0 : a = 0
      · subst h0; exact (hb2 0 (by omega)).1
      · exact (hb1 a (by omega) han).1
    have e1 : ∀ k, 1 ≤ k → k - 1 + 1 = k := fun k hk => by omega
    have lenS' : ((S.take i).reverse).length = i := by simp; omega
    have lenW' : ((W.take j).reverse).length = j := by simp; omega
    rcases cons_sublist_cons_cases hS with hS' | ⟨hxS, hS'⟩
    · rw [← take_succ_reverse S i hi] at hS'
      rcases cons_sublist_cons_cases hW with hW' | ⟨hxW, hW'⟩
      · rw [← take_succ_reverse W j hj] at hW'
        have := ih i j hi hj hS' hW'
        omega
      · by_cases hj0 : j = 0
        · subst hj0
          have := hS'.length_le
          rw [lenS] at this
          rw [col0 i hi]; omega
        · have hj1 : 1 ≤ j := by omega
          have hW'' : (W.take (j - 1 + 1)).reverse <+ T := by rw [e1 j hj1]; exact hW'
          have := ih i (j - 1) hi (by omega) hS' hW''
          by_cases hi0 : i = 0
          · subst hi0
            rw [row0 j hj]
            rw [row0 (j - 1) (by omega)] at this
            omega
          · have := (facts (by omega) hj1).2.1
            omega
    · rcases cons_sublist_cons_cases hW with hW' | ⟨hxW, hW'⟩
      · rw [← take_succ_reverse W j hj] at hW'
        by_cases hi0 : i = 0
        · subst hi0
          have := hW'.length_le
          rw [lenW] at this
          rw [row0 j hj]; omega
        · have hi1 : 1 ≤ i := by omega
          have hS'' : (S.take (i - 1 + 1)).reverse <+ T := by rw [e1 i hi1]; exact hS'
          have := ih (i - 1) j (by omega) hj hS'' hW'
          by_cases hj0 : j = 0
          · subst hj0
            rw [col0 i hi]
            omega
          · have := (facts hi1 (by omega)).1
            omega
      · by_cases hi0 : i = 0
        · subst hi0
          have := hW'.length_le
          rw [lenW'] at this
          rw [row0 j hj]; omega
        · by_cases hj0 : j = 0
          · subst hj0
            have := hS'.length_le
            rw [lenS'] at this
            rw [col0 i hi]; omega
          · have hi1 : 1 ≤ i := by omega
            have hj1 : 1 ≤ j := by omega
            have hS'' : (S.take (i - 1 + 1)).reverse <+ T := by rw [e1 i hi1]; exact hS'
            have hW'' : (W.take (j - 1 + 1)).reverse <+ T := by rw [e1 j hj1]; exact hW'
            have := ih (i - 1) (j - 1) (by omega) (by omega) hS'' hW''
            have := (facts hi1 hj1).2.2 (by rw [hxS, hxW])
            omega

/-- Merging along a common subsequence: two lists with a common subsequence `Z` have a common
supersequence that saves the length of `Z`. -/
theorem exists_supersequence_of_common {Z S : List Nat} (hS : Z <+ S) :
    ∀ W : List Nat, Z <+ W →
      ∃ T : List Nat, S <+ T ∧ W <+ T ∧ T.length + Z.length = S.length + W.length := by
  induction hS with
  | slnil => intro W _; exact ⟨W, List.nil_sublist _, List.Sublist.refl _, by simp⟩
  | cons a _ ih =>
    intro W hW
    obtain ⟨T, h1, h2, h3⟩ := ih W hW
    exact ⟨a :: T, h1.cons₂ a, h2.cons a, by simp only [List.length_cons]; omega⟩
  | @cons₂ Z' S' a hZ ih =>
    intro W
    induction W with
    | nil => intro hW; simp at hW
    | cons b W ihW =>
      intro hW
      rcases cons_sublist_cons_cases hW with hW' | ⟨hab, hW'⟩
      · obtain ⟨T, h1, h2, h3⟩ := ihW hW'
        exact ⟨b :: T, h1.cons b, h2.cons₂ b, by simp only [List.length_cons] at h3 ⊢; omega⟩
      · subst hab
        obtain ⟨T, h1, h2, h3⟩ := ih W hW'
        exact ⟨a :: T, h1.cons₂ a, h2.cons₂ a, by simp only [List.length_cons]; omega⟩

/-- Two lists inside a common supersequence `T` share a subsequence that makes up for the
length `T` saves. -/
theorem exists_common_of_supersequence (T : List Nat) :
    ∀ S W : List Nat, S <+ T → W <+ T →
      ∃ Z : List Nat, Z <+ S ∧ Z <+ W ∧ S.length + W.length ≤ T.length + Z.length := by
  induction T with
  | nil =>
    intro S W hS hW
    have hS' : S = [] := by simpa using hS
    have hW' : W = [] := by simpa using hW
    subst hS' hW'
    exact ⟨[], List.Sublist.refl _, List.Sublist.refl _, by simp⟩
  | cons x T ih =>
    intro S W hS hW
    rcases List.sublist_cons_iff.1 hS with hS' | ⟨S', rfl, hS'⟩
    · rcases List.sublist_cons_iff.1 hW with hW' | ⟨W', rfl, hW'⟩
      · obtain ⟨Z, h1, h2, h3⟩ := ih S W hS' hW'
        exact ⟨Z, h1, h2, by simp only [List.length_cons]; omega⟩
      · obtain ⟨Z, h1, h2, h3⟩ := ih S W' hS' hW'
        exact ⟨Z, h1, h2.cons x, by simp only [List.length_cons]; omega⟩
    · rcases List.sublist_cons_iff.1 hW with hW' | ⟨W', rfl, hW'⟩
      · obtain ⟨Z, h1, h2, h3⟩ := ih S' W hS' hW'
        exact ⟨Z, h1.cons x, h2, by simp only [List.length_cons]; omega⟩
      · obtain ⟨Z, h1, h2, h3⟩ := ih S' W' hS' hW'
        exact ⟨x :: Z, h1.cons₂ x, h2.cons₂ x, by simp only [List.length_cons]; omega⟩

/-- What `getPairwiseSupersequenceByAlignment` returns on two non-empty sequences with the same
first element: a common supersequence no longer than any other. -/
theorem pairwise_spec (S W : List Nat) (hS : S ≠ []) (hW : W ≠ []) (h0 : S.head? = W.head?) :
    ∃ R, getPairwiseSupersequenceByAlignment S W = some R ∧ S <+ R ∧ W <+ R ∧
      R.head? = S.head? ∧
      ∀ T : List Nat, S <+ T → W <+ T → R.length ≤ T.length := by
  obtain ⟨s0, S', rfl⟩ := List.exists_cons_of_ne_nil hS
  obtain ⟨c0, W', rfl⟩ := List.exists_cons_of_ne_nil hW
  have hsc : s0 = c0 := by simpa using h0
  subst hsc
  obtain ⟨r, hr, hlen, hSr, hWr⟩ := backtraceLoop_spec (s0 :: S') (s0 :: W')
    ((s0 :: S').length + (s0 :: W').length) ((s0 :: S').length - 1) ((s0 :: W').length - 1) []
    (by simp) (by simp) (by simp; omega)
  simp only [List.length_cons, Nat.add_sub_cancel, List.take_succ_cons, List.tail_cons,
    List.nil_append] at hr hlen hSr hWr
  have hS'r : S' <+ r.reverse := by simpa using hSr
  have hW'r : W' <+ r.reverse := by simpa using hWr
  refine ⟨s0 :: r.reverse, ?_, hS'r.cons₂ s0, hW'r.cons₂ s0, by simp, ?_⟩
  · unfold getPairwiseSupersequenceByAlignment
    simp only [List.length_cons, Nat.add_sub_cancel, hr, if_true, List.reverse_append,
      List.reverse_cons, List.reverse_nil, List.nil_append, List.singleton_append]
    rw [if_pos]
    simp only [List.length_cons, List.length_reverse, hlen]
    omega
  · intro T hST hWT
    have := scores_lower_bound (s0 :: S') (s0 :: W') T.reverse S'.length W'.length
      (by simp) (by simp)
      (by rw [List.reverse_sublist]; simpa using hST)
      (by rw [List.reverse_sublist]; simpa using hWT)
    simp only [List.length_cons, List.length_reverse, hlen]
    simp only [List.length_reverse] at this
    omega

/-- C8: on non-empty sequences `S` and `W` with the same first element,
`getPairwiseSupersequenceByAlignment` returns a sequence that contains both as subsequences, that
no common supersequence of `S` and `W` is shorter than, whose length is `|S| + |W|` minus the
length of a longest common subsequence, and whose length lies between `max |S| |W|` and
`|S| + |W| - 1`. -/
theorem pairwise_merge_is_shortest_common_supersequence (S W : List Nat) (hS : S ≠ [])
    (hW : W ≠ []) (h0 : S.head? = W.head?) :
    ∃ R, getPairwiseSupersequenceByAlignment S W = some R ∧
      List.Sublist S R ∧ List.Sublist W R ∧
      (∀ T : List Nat, List.Sublist S T → List.Sublist W T → R.length ≤ T.length) ∧
      (∃ Z, IsLongestCommonSubsequence Z S W) ∧
      (∀ Z, IsLongestCommonSubsequence Z S W → R.length = S.length + W.length - Z.length) ∧
      max S.length W.length ≤ R.length ∧ R.length ≤ S.length + W.length - 1 := by
  obtain ⟨R, hR, hSR, hWR, -, hmin⟩ := pairwise_spec S W hS hW h0
  obtain ⟨Z0, hZ0S, hZ0W, hZ0⟩ := exists_common_of_supersequence R S W hSR hWR
  have hcommon : ∀ Z : List Nat, Z <+ S → Z <+ W → R.length + Z.length ≤ S.length + W.length := by
    intro Z hZS hZW
    obtain ⟨T, hT1, hT2, hT3⟩ := exists_supersequence_of_common hZS W hZW
    have := hmin T hT1 hT2
    omega
  have hlcs0 : IsLongestCommonSubsequence Z0 S W :=
    ⟨hZ0S, hZ0W, fun Z' h1 h2 => by have := hcommon Z' h1 h2; omega⟩
  refine ⟨R, hR, hSR, hWR, hmin, ⟨Z0, hlcs0⟩, ?_, ?_, ?_⟩
  · rintro Z ⟨hZS, hZW, hZmax⟩
    have h1 := hcommon Z hZS hZW
    have h2 := hZmax Z0 hZ0S hZ0W
    omega
  · exact max_le hSR.length_le hWR.length_le
  · obtain ⟨s0, S', rfl⟩ := List.exists_cons_of_ne_nil hS
    obtain ⟨c0, W', rfl⟩ := List.exists_cons_of_ne_nil hW
    have hsc : s0 = c0 := by simpa using h0
    subst hsc
    have := hcommon [s0] (by simp) (by simp)
    simp only [List.length_cons, List.length_nil] at this ⊢
    omega

/-- C8 at `S = [1, 2, 3]`, `W = [1, 3, 4]`. -/
theorem pairwise_merge_is_shortest_common_supersequence_witness :
    ([1, 2, 3] : List Nat) ≠ [] ∧ ([1, 3, 4] : List Nat) ≠ [] ∧
    ([1, 2, 3] : List Nat).head? = ([1, 3, 4] : List Nat).head? ∧
    ∃ R, getPairwiseSupersequenceByAlignment [1, 2, 3] [1, 3, 4] = some R ∧
      List.Sublist [1, 2, 3] R ∧ List.Sublist [1, 3, 4] R ∧
      (∀ T : List Nat, List.Sublist [1, 2, 3] T → List.Sublist [1, 3, 4] T → R.length ≤ T.length) ∧
      (∃ Z, IsLongestCommonSubsequence Z [1, 2, 3] [1, 3, 4]) ∧
      (∀ Z, IsLongestCommonSubsequence Z [1, 2, 3] [1, 3, 4] →
        R.length = [1, 2, 3].length + [1, 3, 4].length - Z.length) ∧
      max [1, 2, 3].length [1, 3, 4].length ≤ R.length ∧
      R.length ≤ [1, 2, 3].length + [1, 3, 4].length - 1 :=
  ⟨by decide, by decide, by decide,
    pairwise_merge_is_shortest_common_supersequence [1, 2, 3] [1, 3, 4]
      (by decide) (by decide) (by decide)⟩

/-! ### Sets and vectors of sets -/

theorem mem_setInsert (x y : Nat) (l : List Nat) : y ∈ setInsert x l ↔ y = x ∨ y ∈ l := by
  induction l with
  | nil => simp [setInsert]
  | cons a l ih =>
    unfold setInsert
    by_cases h1 : x < a
    · simp [h1]
    · by_cases h2 : x = a
      · subst h2; simp
      · simp only [h1, h2, if_false, List.mem_cons, ih]
        tauto

theorem setInsert_lower (x b : Nat) (l : List Nat) (hx : b < x) (hl : ∀ y ∈ l, b < y) :
    ∀ y ∈ setInsert x l, b < y := by
  intro y hy
  rcases (mem_setInsert x y l).1 hy with h | h
  · omega
  · exact hl y h

theorem setInsert_sorted (x : Nat) (l : List Nat) (h : l.Pairwise (· < ·)) :
    (setInsert x l).Pairwise (· < ·) := by
  induction l with
  | nil => simp [setInsert]
  | cons a l ih =>
    have hal := List.pairwise_cons.1 h
    unfold setInsert
    by_cases h1 : x < a
    · simp only [h1, if_true]
      refine List.pairwise_cons.2 ⟨?_, h⟩
      intro y hy
      rcases List.mem_cons.1 hy with rfl | hy
      · exact h1
      · exact Nat.lt_trans h1 (hal.1 y hy)
    · by_cases h2 : x = a
      · simp [h1, h2, h]
      · simp only [h1, h2, if_false]
        refine List.pairwise_cons.2 ⟨?_, ih hal.2⟩
        exact setInsert_lower x a l (by omega) hal.1

theorem length_insertAt (v : List (List Nat)) (i x : Nat) : (insertAt v i x).length = v.length := by
  simp [insertAt]

theorem getD_insertAt (v : List (List Nat)) (i x k : Nat) :
    (insertAt v i x).getD k [] =
      if k = i ∧ i < v.length then setInsert x (v.getD i []) else v.getD k [] := by
  unfold insertAt
  simp only [List.getD_eq_getElem?_getD, List.getElem?_set]
  by_cases hki : i = k
  · subst hki
    by_cases hlt : i < v.length
    · simp [hlt]
    · simp [hlt, List.getElem?_eq_none (Nat.le_of_not_lt hlt)]
  · have : ¬ (k = i ∧ i < v.length) := fun h => hki h.1.symm
    simp [hki, this]

theorem mem_insertAt (v : List (List Nat)) (i x k y : Nat) :
    y ∈ (insertAt v i x).getD k [] ↔ y ∈ v.getD k [] ∨ (k = i ∧ i < v.length ∧ y = x) := by
  rw [getD_insertAt]
  by_cases h : k = i ∧ i < v.length
  · obtain ⟨rfl, hlt⟩ := h
    simp only [hlt, and_self, if_true, mem_setInsert, true_and]
    tauto
  · simp only [h, if_false]
    constructor
    · exact Or.inl
    · rintro (h' | ⟨h1, h2, -⟩)
      · exact h'
      · exact absurd ⟨h1, h2⟩ h

theorem getD_replicate_nil (n k : Nat) : (List.replicate n ([] : List Nat)).getD k [] = [] := by
  simp only [List.getD_eq_getElem?_getD, List.getElem?_replicate]
  split <;> rfl

theorem resizeSets_nil (n : Nat) : resizeSets [] n = List.replicate n [] := by
  simp [resizeSets]

/-! ### Maps -/

theorem mapFind_mapSet {κ β : Type} [DecidableEq κ] (m : List (κ × β)) (k k' : κ) (v : β) :
    mapFind (mapSet m k v) k' = if k = k' then some v else mapFind m k' := by
  induction m with
  | nil =>
    simp only [mapSet, mapFind]
  | cons e m ih =>
    obtain ⟨a, b⟩ := e
    unfold mapSet
    by_cases h : a = k
    · subst h
      by_cases h' : a = k'
      · simp [mapFind, h']
      · simp [mapFind, h']
    · simp only [h, if_false, mapFind, ih]
      by_cases h' : a = k'
      · subst h'
        simp [h, Ne.symm h]
      · simp [h']

/-! ### The marking loop and the removal set -/

theorem markInner_spec (ps : List Nat) (isP : List Bool) :
    (ps.foldl (fun isP p => isP.set p true) isP).length = isP.length ∧
    ∀ i, (ps.foldl (fun isP p => isP.set p true) isP).getD i false = true ↔
      (isP.getD i false = true ∨ (i < isP.length ∧ i ∈ ps)) := by
  induction ps generalizing isP with
  | nil => simp
  | cons p ps ih =>
    simp only [List.foldl_cons]
    obtain ⟨h1, h2⟩ := ih (isP.set p true)
    refine ⟨by simpa using h1, fun i => ?_⟩
    rw [h2 i]
    simp only [List.length_set, List.getD_eq_getElem?_getD, List.getElem?_set, List.mem_cons]
    by_cases hpi : p = i
    · subst hpi
      by_cases hlt : p < isP.length
      · simp [hlt]
      · simp [hlt, List.getElem?_eq_none (Nat.le_of_not_lt hlt)]
    · simp only [hpi, if_false]
      constructor
      · rintro (h | ⟨h, h'⟩)
        · exact Or.inl h
        · exact Or.inr ⟨h, Or.inr h'⟩
      · rintro (h | ⟨h, h' | h'⟩)
        · exact Or.inl h
        · exact absurd h'.symm hpi
        · exact Or.inr ⟨h, h'⟩

theorem markOuter_spec (P : List (List Nat)) (isP : List Bool) :
    (P.foldl (fun isP ps => ps.foldl (fun isP p => isP.set p true) isP) isP).length = isP.length ∧
    ∀ i, (P.foldl (fun isP ps => ps.foldl (fun isP p => isP.set p true) isP) isP).getD i false
        = true ↔ (isP.getD i false = true ∨ (i < isP.length ∧ IsTarget P i)) := by
  induction P generalizing isP with
  | nil => simp [IsTarget]
  | cons ps P ih =>
    simp only [List.foldl_cons]
    obtain ⟨h1, h2⟩ := ih (ps.foldl (fun isP p => isP.set p true) isP)
    obtain ⟨g1, g2⟩ := markInner_spec ps isP
    refine ⟨by rw [h1, g1], fun i => ?_⟩
    rw [h2 i, g2 i, g1]
    simp only [IsTarget, List.mem_cons, exists_eq_or_imp]
    tauto

theorem length_markPredecessors (n : Nat) (P : List (List Nat)) :
    (markPredecessors n P).length = n := by
  unfold markPredecessors
  rw [(markOuter_spec P _).1]; simp

theorem getD_markPredecessors (n : Nat) (P : List (List Nat)) (i : Nat) :
    (markPredecessors n P).getD i false = true ↔ i < n ∧ IsTarget P i := by
  unfold markPredecessors
  rw [(markOuter_spec P _).2 i]
  have : (List.replicate n false).getD i false = false := by
    simp only [List.getD_eq_getElem?_getD, List.getElem?_replicate]
    split <;> rfl
  simp [this]

theorem mem_removeIndices (isP : List Bool) (i : Nat) :
    i ∈ removeIndices isP ↔ 1 ≤ i ∧ i < isP.length ∧ isP.getD i false = false := by
  unfold removeIndices
  simp only [List.mem_filter, List.mem_range'_1, decide_eq_true_eq]
  constructor
  · rintro ⟨⟨h1, h2⟩, h3⟩; exact ⟨h1, by omega, h3⟩
  · rintro ⟨h1, h2, h3⟩; exact ⟨⟨h1, by omega⟩, h3⟩

theorem removeIndices_sorted (isP : List Bool) : (removeIndices isP).Pairwise (· < ·) := by
  unfold removeIndices
  exact List.Pairwise.filter _ (List.pairwise_lt_range' 1 _)

/-- Membership in the removal set computed by `filterUnnecessaryCharacters`. -/
theorem mem_remove (S : List Nat) (P : List (List Nat)) (i : Nat) :
    i ∈ removeIndices (markPredecessors S.length P) ↔ 1 ≤ i ∧ i < S.length ∧ ¬ IsTarget P i := by
  rw [mem_removeIndices, length_markPredecessors]
  constructor
  · rintro ⟨h1, h2, h3⟩
    refine ⟨h1, h2, fun ht => ?_⟩
    have := (getD_markPredecessors S.length P i).2 ⟨h2, ht⟩
    rw [this] at h3; exact absurd h3 (by decide)
  · rintro ⟨h1, h2, h3⟩
    refine ⟨h1, h2, ?_⟩
    cases hb : (markPredecessors S.length P).getD i false with
    | false => rfl
    | true => exact absurd ((getD_markPredecessors S.length P i).1 hb).2 h3

/-! ### Erasing in descending order -/

theorem keepFrom_congr {α : Type} (rm rm' : List Nat) (l : List α) :
    ∀ k, (∀ i, k ≤ i → (i ∈ rm ↔ i ∈ rm')) → keepFrom rm k l = keepFrom rm' k l := by
  induction l with
  | nil => intro k _; rfl
  | cons x xs ih =>
    intro k h
    unfold keepFrom
    rw [ih (k + 1) (fun i hi => h i (by omega))]
    by_cases hk : k ∈ rm
    · rw [if_pos hk, if_pos ((h k (le_refl _)).1 hk)]
    · rw [if_neg hk, if_neg (fun h' => hk ((h k (le_refl _)).2 h'))]

theorem eraseIdx_keepFrom {α : Type} (rest : List Nat) (r : Nat) (hr : ∀ y ∈ rest, r < y)
    (l : List α) : ∀ k, k ≤ r →
      (keepFrom rest k l).eraseIdx (r - k) = keepFrom (r :: rest) k l := by
  induction l with
  | nil => intro k _; simp [keepFrom]
  | cons x xs ih =>
    intro k hk
    have hk1 : k ∉ rest := fun h => by have := hr k h; omega
    unfold keepFrom
    rw [if_neg hk1]
    by_cases hkr : k = r
    · subst hkr
      simp only [Nat.sub_self, List.eraseIdx_cons_zero, List.mem_cons, true_or, if_true]
      exact keepFrom_congr _ _ _ _ (fun i hi => by simp; omega)
    · have hk2 : k ∉ r :: rest := by simp [hkr, hk1]
      rw [if_neg hk2]
      obtain ⟨m, hm⟩ : ∃ m, r - k = m + 1 := ⟨r - k - 1, by omega⟩
      rw [hm, List.eraseIdx_cons_succ]
      have : m = r - (k + 1) := by omega
      rw [this, ih (k + 1) (by omega)]

theorem eraseAll_eq_keepFrom {α : Type} (rm : List Nat) (hs : rm.Pairwise (· < ·)) (l : List α) :
    rm.reverse.foldl (fun l x => l.eraseIdx x) l = keepFrom rm 0 l := by
  induction rm with
  | nil =>
    simp only [List.reverse_nil, List.foldl_nil]
    induction l with
    | nil => rfl
    | cons x xs ih =>
      have : ∀ k, keepFrom ([] : List Nat) k (x :: xs) = x :: xs := by
        intro k
        have gen : ∀ (l : List α) k, keepFrom ([] : List Nat) k l = l := by
          intro l
          induction l with
          | nil => intro k; rfl
          | cons y ys ih' => intro k; simp [keepFrom, ih']
        exact gen _ _
      exact (this 0).symm
  | cons r rest ih =>
    have hp := List.pairwise_cons.1 hs
    simp only [List.reverse_cons, List.foldl_append, List.foldl_cons, List.foldl_nil]
    rw [ih hp.2]
    have := eraseIdx_keepFrom rest r hp.1 l 0 (Nat.zero_le _)
    simpa using this

theorem erasePair_eq_keepFrom (rm : List Nat) (hs : rm.Pairwise (· < ·)) (A : List Nat)
    (B : List (List Nat)) :
    rm.reverse.foldl (fun (st : List Nat × List (List Nat)) x => (st.1.eraseIdx x, st.2.eraseIdx x))
      (A, B) = (keepFrom rm 0 A, keepFrom rm 0 B) := by
  have gen : ∀ (l : List Nat) (A : List Nat) (B : List (List Nat)),
      l.foldl (fun (st : List Nat × List (List Nat)) x => (st.1.eraseIdx x, st.2.eraseIdx x))
        (A, B) = (l.foldl (fun l x => l.eraseIdx x) A, l.foldl (fun l x => l.eraseIdx x) B) := by
    intro l
    induction l with
    | nil => intro A B; rfl
    | cons x xs ih => intro A B; simp only [List.foldl_cons, ih]
  rw [gen, eraseAll_eq_keepFrom rm hs, eraseAll_eq_keepFrom rm hs]

/-! ### Ranks of the kept positions -/

theorem rankFrom_succ_back (rm : List Nat) (j : Nat) :
    ∀ k, rankFrom rm k (j + 1) = rankFrom rm k j + (if k + j ∈ rm then 0 else 1) := by
  induction j with
  | zero => intro k; simp [rankFrom]
  | succ j ih =>
    intro k
    have h1 : rankFrom rm k (j + 1 + 1) = (if k ∈ rm then 0 else 1) + rankFrom rm (k + 1) (j + 1) :=
      rfl
    have h2 : rankFrom rm k (j + 1) = (if k ∈ rm then 0 else 1) + rankFrom rm (k + 1) j := rfl
    rw [h1, ih (k + 1), h2]
    have : k + 1 + j = k + (j + 1) := by omega
    rw [this]; omega

theorem rankFrom_le (rm : List Nat) (j : Nat) : ∀ k, rankFrom rm k j ≤ j := by
  induction j with
  | zero => intro k; simp [rankFrom]
  | succ j ih =>
    intro k
    have := ih (k + 1)
    simp only [rankFrom]
    split <;> omega

theorem rankFrom_mono (rm : List Nat) (k j j' : Nat) (h : j ≤ j') :
    rankFrom rm k j ≤ rankFrom rm k j' := by
  induction j' with
  | zero =>
    have : j = 0 := by omega
    subst this; exact le_refl _
  | succ j' ih =>
    by_cases hj : j = j' + 1
    · subst hj; exact le_refl _
    · have := ih (by omega)
      rw [rankFrom_succ_back]; omega

theorem rankFrom_strict (rm : List Nat) (k j j' : Nat) (h : j < j') (hk : k + j ∉ rm) :
    rankFrom rm k j < rankFrom rm k j' := by
  have h1 := rankFrom_mono rm k (j + 1) j' h
  rw [rankFrom_succ_back, if_neg hk] at h1
  omega

theorem rankFrom_zero_one (rm : List Nat) (h0 : 0 ∉ rm) (p : Nat) (hp : p ∉ rm) :
    rankFrom rm 0 p = rankFrom rm 1 p := by
  cases p with
  | zero => rfl
  | succ p =>
    have h1 : rankFrom rm 0 (p + 1) = (if 0 ∈ rm then 0 else 1) + rankFrom rm 1 p := rfl
    rw [h1, if_neg h0, rankFrom_succ_back rm p 1]
    have : 1 + p = p + 1 := by omega
    rw [this, if_neg hp]; omega

theorem getElem?_keepFrom {α : Type} (rm : List Nat) (l : List α) :
    ∀ k j, k + j ∉ rm → (keepFrom rm k l)[rankFrom rm k j]? = l[j]? := by
  induction l with
  | nil => intro k j _; simp [keepFrom]
  | cons x xs ih =>
    intro k j hj
    cases j with
    | zero =>
      have : k ∉ rm := by simpa using hj
      simp [keepFrom, rankFrom, this]
    | succ j =>
      have hj' : k + 1 + j ∉ rm := by
        have : k + 1 + j = k + (j + 1) := by omega
        rw [this]; exact hj
      have h1 : rankFrom rm k (j + 1) = (if k ∈ rm then 0 else 1) + rankFrom rm (k + 1) j := rfl
      unfold keepFrom
      rw [h1]
      by_cases hk : k ∈ rm
      · simp only [hk, if_true, Nat.zero_add, List.getElem?_cons_succ]
        exact ih (k + 1) j hj'
      · simp only [hk, if_false, List.getElem?_cons_succ]
        have : 1 + rankFrom rm (k + 1) j = rankFrom rm (k + 1) j + 1 := by omega
        rw [this, List.getElem?_cons_succ]
        exact ih (k + 1) j hj'

theorem keepFrom_surj {α : Type} (rm : List Nat) (l : List α) :
    ∀ k t, t < (keepFrom rm k l).length →
      ∃ j, j < l.length ∧ k + j ∉ rm ∧ rankFrom rm k j = t := by
  induction l with
  | nil => intro k t ht; simp [keepFrom] at ht
  | cons x xs ih =>
    intro k t ht
    unfold keepFrom at ht
    by_cases hk : k ∈ rm
    · rw [if_pos hk] at ht
      obtain ⟨j, h1, h2, h3⟩ := ih (k + 1) t ht
      refine ⟨j + 1, by simp; omega, ?_, ?_⟩
      · have : k + (j + 1) = k + 1 + j := by omega
        rw [this]; exact h2
      · simp only [rankFrom, hk, if_true, Nat.zero_add]; exact h3
    · rw [if_neg hk] at ht
      cases t with
      | zero => exact ⟨0, by simp, by simpa using hk, rfl⟩
      | succ t =>
        simp only [List.length_cons] at ht
        obtain ⟨j, h1, h2, h3⟩ := ih (k + 1) t (by omega)
        refine ⟨j + 1, by simp; omega, ?_, ?_⟩
        · have : k + (j + 1) = k + 1 + j := by omega
          rw [this]; exact h2
        · simp only [rankFrom, hk, if_false]; omega

theorem length_keepFrom {α : Type} (rm : List Nat) (l : List α) :
    ∀ k, (keepFrom rm k l).length = rankFrom rm k l.length := by
  induction l with
  | nil => intro k; rfl
  | cons x xs ih =>
    intro k
    unfold keepFrom
    by_cases hk : k ∈ rm
    · simp only [hk, if_true, List.length_cons, rankFrom, Nat.zero_add]; exact ih (k + 1)
    · simp only [hk, if_false, List.length_cons, rankFrom, ih (k + 1)]; omega

/-! ### The vector `newIndex` -/

theorem decrement_spec (rm : List Nat) (v : List Nat) :
    (rm.foldl (fun v x => v.set x (v.getD x 0 - 1)) v).length = v.length ∧
    ∀ i, (rm.foldl (fun v x => v.set x (v.getD x 0 - 1)) v).getD i 0 = v.getD i 0 - rm.count i := by
  induction rm generalizing v with
  | nil => simp
  | cons r rm ih =>
    simp only [List.foldl_cons]
    obtain ⟨h1, h2⟩ := ih (v.set r (v.getD r 0 - 1))
    refine ⟨by simpa using h1, fun i => ?_⟩
    rw [h2 i]
    simp only [List.getD_eq_getElem?_getD, List.getElem?_set, List.count_cons]
    by_cases hri : r = i
    · subst hri
      by_cases hlt : r < v.length
      · simp [hlt]; omega
      · simp [hlt, List.getElem?_eq_none (Nat.le_of_not_lt hlt)]
    · have : (r == i) = false := by simpa using hri
      simp [hri, this]

theorem prefixSum_spec (rm : List Nat) (n : Nat) (v1 : List Nat) (hlen : v1.length = n)
    (h0 : v1.getD 0 0 = 0)
    (hv : ∀ i, 1 ≤ i → i < n → v1.getD i 0 = if i ∈ rm then 0 else 1) :
    ∀ i, i < n →
      ((List.range' 1 (n - 1)).foldl (fun v i => v.set i (v.getD (i - 1) 0 + v.getD i 0)) v1).getD
        i 0 = rankFrom rm 1 i := by
  have key := foldl_range'_invariant
    (fun i (v : List Nat) => v.length = n ∧ (∀ k, k < i → k < n → v.getD k 0 = rankFrom rm 1 k) ∧
      (∀ k, i ≤ k → v.getD k 0 = v1.getD k 0))
    (fun v i => v.set i (v.getD (i - 1) 0 + v.getD i 0)) 1 (n - 1) v1
    ⟨hlen, fun k hk _ => by
        have : k = 0 := by omega
        subst this; rw [h0]; rfl, fun _ _ => rfl⟩
    (by
      intro i v hi hi2 ⟨hl, ha, hb⟩
      refine ⟨by simpa using hl, ?_, ?_⟩
      · intro k hk hkn
        simp only [List.getD_eq_getElem?_getD, List.getElem?_set]
        by_cases hik : i = k
        · subst hik
          have hlt : i < v.length := by omega
          simp only [hlt, if_true, Option.getD_some]
          have e1 := ha (i - 1) (by omega) (by omega)
          have e2 := hb i (le_refl _)
          simp only [List.getD_eq_getElem?_getD] at e1 e2
          rw [e1, e2]
          have e3 := hv i hi hkn
          simp only [List.getD_eq_getElem?_getD] at e3
          rw [e3]
          obtain ⟨m, rfl⟩ : ∃ m, i = m + 1 := ⟨i - 1, by omega⟩
          rw [rankFrom_succ_back rm m 1]
          have : 1 + m = m + 1 := by omega
          simp only [Nat.add_sub_cancel, this]
        · simp only [hik, if_false]
          have := ha k (by omega) hkn
          simpa only [List.getD_eq_getElem?_getD] using this
      · intro k hk
        simp only [List.getD_eq_getElem?_getD, List.getElem?_set]
        have hik : ¬ i = k := by omega
        simp only [hik, if_false]
        have := hb k (by omega)
        simpa only [List.getD_eq_getElem?_getD] using this)
  intro i hi
  have hn : 1 + (n - 1) = n := by omega
  rw [hn] at key
  exact key.2.1 i hi hi

/-- The entry of `newIndex` at a position is the number of kept positions from 1 up to it. -/
theorem getD_newIndex (n : Nat) (rm : List Nat) (hnd : rm.Nodup) (i : Nat)
    (hi : i < n) : (newIndex n rm).getD i 0 = rankFrom rm 1 i := by
  unfold newIndex
  obtain ⟨d1, d2⟩ := decrement_spec rm ((List.replicate n 1).set 0 0)
  apply prefixSum_spec rm n _ (by simpa using d1) _ _ i hi
  · rw [d2 0]
    have : ((List.replicate n 1).set 0 0).getD 0 0 = 0 := by
      simp only [List.getD_eq_getElem?_getD, List.getElem?_set]
      by_cases h : 0 < n <;> simp [h]
    rw [this]; simp
  · intro k hk1 hkn
    rw [d2 k]
    have : ((List.replicate n 1).set 0 0).getD k 0 = 1 := by
      simp only [List.getD_eq_getElem?_getD, List.getElem?_set]
      have : ¬ 0 = k := by omega
      simp [this, hkn]
    rw [this]
    by_cases hmem : k ∈ rm
    · rw [if_pos hmem, List.count_eq_one_of_mem hnd hmem]
    · rw [if_neg hmem, List.count_eq_zero_of_not_mem hmem]

/-! ### The rewritten relation -/

theorem mem_rewrite (idx : List Nat) (olds : List Nat) (y : Nat) :
    y ∈ olds.foldl (fun s x => setInsert (idx.getD x 0) s) [] ↔ ∃ x ∈ olds, y = idx.getD x 0 := by
  have gen : ∀ (olds : List Nat) (s : List Nat),
      y ∈ olds.foldl (fun s x => setInsert (idx.getD x 0) s) s ↔
        (y ∈ s ∨ ∃ x ∈ olds, y = idx.getD x 0) := by
    intro olds
    induction olds with
    | nil => intro s; simp
    | cons a olds ih =>
      intro s
      simp only [List.foldl_cons, ih, mem_setInsert, List.mem_cons, exists_eq_or_imp]
      tauto
  simpa using gen olds []

theorem mem_getD_imp_isTarget (P : List (List Nat)) (q y : Nat) (h : y ∈ P.getD q []) :
    IsTarget P y := by
  by_cases hq : q < P.length
  · refine ⟨P[q], List.getElem_mem hq, ?_⟩
    simpa [List.getD_eq_getElem?_getD, List.getElem?_eq_getElem hq] using h
  · simp [List.getD_eq_getElem?_getD, List.getElem?_eq_none (Nat.le_of_not_lt hq)] at h

theorem isTarget_iff_getD (P : List (List Nat)) (y : Nat) :
    IsTarget P y ↔ ∃ q, q < P.length ∧ y ∈ P.getD q [] := by
  constructor
  · rintro ⟨ps, hps, hy⟩
    obtain ⟨q, hq, rfl⟩ := List.getElem_of_mem hps
    exact ⟨q, hq, by simpa [List.getD_eq_getElem?_getD, List.getElem?_eq_getElem hq] using hy⟩
  · rintro ⟨q, -, hy⟩
    exact mem_getD_imp_isTarget P q y hy

/-- What `filterUnnecessaryCharacters` does, through the renumbering `ρ` of the kept positions
(position 0 and the relation targets). -/
theorem filter_spec (S : List Nat) (P : List (List Nat)) (hlen : P.length = S.length)
    (hvalid : ∀ ps ∈ P, ∀ p ∈ ps, p < S.length) :
    ∃ ρ : Nat → Nat,
      (filterUnnecessaryCharacters S P).2.length = (filterUnnecessaryCharacters S P).1.length ∧
      ρ 0 = 0 ∧
      (∀ o, o < S.length → (o = 0 ∨ IsTarget P o) →
        ρ o < (filterUnnecessaryCharacters S P).1.length ∧
        (filterUnnecessaryCharacters S P).1[ρ o]? = S[o]? ∧
        ∀ y, y ∈ (filterUnnecessaryCharacters S P).2.getD (ρ o) [] ↔
          ∃ x ∈ P.getD o [], y = ρ x) ∧
      (∀ k, k < (filterUnnecessaryCharacters S P).1.length →
        ∃ o, o < S.length ∧ (o = 0 ∨ IsTarget P o) ∧ ρ o = k) ∧
      (∀ o o', o < o' → (o = 0 ∨ IsTarget P o) → ρ o < ρ o') := by
  by_cases hrm : (removeIndices (markPredecessors S.length P)).length = 0
  · -- nothing to remove
    have hout : filterUnnecessaryCharacters S P = (S, P) := by
      unfold filterUnnecessaryCharacters; simp only [hrm, if_true]
    have hall : ∀ i, i < S.length → (i = 0 ∨ IsTarget P i) := by
      intro i hi
      by_cases h0 : i = 0
      · exact Or.inl h0
      · right
        by_contra hnt
        have : i ∈ removeIndices (markPredecessors S.length P) :=
          (mem_remove S P i).2 ⟨by omega, hi, hnt⟩
        rw [List.length_eq_zero.1 hrm] at this
        simp at this
    rw [hout]
    refine ⟨id, hlen, rfl, ?_, ?_, ?_⟩
    · intro o ho _
      exact ⟨ho, rfl, fun y => by simp⟩
    · intro k hk
      exact ⟨k, hk, hall k hk, rfl⟩
    · intro o o' h _
      exact h
  · -- some positions are removed
    have hsorted := removeIndices_sorted (markPredecessors S.length P)
    have hout : filterUnnecessaryCharacters S P =
        (keepFrom (removeIndices (markPredecessors S.length P)) 0 S,
         (keepFrom (removeIndices (markPredecessors S.length P)) 0 P).map fun olds =>
            olds.foldl (fun s x => setInsert
              ((newIndex S.length (removeIndices (markPredecessors S.length P))).getD x 0) s) []) := by
      unfold filterUnnecessaryCharacters
      simp only [hrm, if_false, erasePair_eq_keepFrom _ hsorted]
    rw [hout]
    generalize hrmdef : removeIndices (markPredecessors S.length P) = rm at *
    have hmem : ∀ i, i ∈ rm ↔ 1 ≤ i ∧ i < S.length ∧ ¬ IsTarget P i := by
      intro i; rw [← hrmdef]; exact mem_remove S P i
    have h0 : 0 ∉ rm := fun h => by have := (hmem 0).1 h; omega
    have hkept : ∀ o, (o = 0 ∨ IsTarget P o) → o ∉ rm := by
      rintro o (rfl | ht) hmemo
      · exact h0 hmemo
      · exact ((hmem o).1 hmemo).2.2 ht
    have hnd : rm.Nodup := hsorted.imp (fun h => Nat.ne_of_lt h)
    refine ⟨fun o => rankFrom rm 0 o, ?_, rfl, ?_, ?_, ?_⟩
    · simp only [List.length_map, length_keepFrom, hlen]
    · intro o ho hk
      have hom : o ∉ rm := hkept o hk
      have hom' : 0 + o ∉ rm := by simpa using hom
      refine ⟨?_, ?_, ?_⟩
      · simp only [length_keepFrom]
        exact rankFrom_strict rm 0 o S.length ho hom'
      · exact getElem?_keepFrom rm S 0 o hom'
      · intro y
        have hP : (keepFrom rm 0 P)[rankFrom rm 0 o]? = P[o]? := getElem?_keepFrom rm P 0 o hom'
        have hoP : o < P.length := by omega
        have hgd : P.getD o [] = P[o] := by
          simp [List.getD_eq_getElem?_getD, List.getElem?_eq_getElem hoP]
        have hg : ∀ f : List Nat → List Nat,
            (List.map f (keepFrom rm 0 P)).getD (rankFrom rm 0 o) [] = f P[o] := by
          intro f
          rw [List.getD_eq_getElem?_getD, List.getElem?_map, hP, List.getElem?_eq_getElem hoP]
          rfl
        rw [hg, hgd, mem_rewrite]
        constructor
        · rintro ⟨x, hx, rfl⟩
          refine ⟨x, hx, ?_⟩
          have hxt : IsTarget P x := ⟨P[o], List.getElem_mem hoP, hx⟩
          have hxn : x < S.length := hvalid _ (List.getElem_mem hoP) x hx
          rw [getD_newIndex S.length rm hnd x hxn]
          exact (rankFrom_zero_one rm h0 x (hkept x (Or.inr hxt))).symm
        · rintro ⟨x, hx, rfl⟩
          refine ⟨x, hx, ?_⟩
          have hxt : IsTarget P x := ⟨P[o], List.getElem_mem hoP, hx⟩
          have hxn : x < S.length := hvalid _ (List.getElem_mem hoP) x hx
          rw [getD_newIndex S.length rm hnd x hxn]
          exact rankFrom_zero_one rm h0 x (hkept x (Or.inr hxt))
    · intro k hk
      obtain ⟨j, hj1, hj2, hj3⟩ := keepFrom_surj rm S 0 k hk
      have hj2' : j ∉ rm := by simpa using hj2
      refine ⟨j, hj1, ?_, hj3⟩
      by_cases hj0 : j = 0
      · exact Or.inl hj0
      · right
        by_contra hnt
        exact hj2' ((hmem j).2 ⟨by omega, hj1, hnt⟩)
    · intro o o' h hk
      exact rankFrom_strict rm 0 o o' h (by simpa using hkept o hk)

/-- Compaction leaves a relation alone in which every position but the first is a target. -/
theorem filter_eq_self_of_all_targets (S : List Nat) (P : List (List Nat))
    (h : ∀ i, 1 ≤ i → i < S.length → IsTarget P i) : filterUnnecessaryCharacters S P = (S, P) := by
  have hrm : removeIndices (markPredecessors S.length P) = [] := by
    apply List.eq_nil_iff_forall_not_mem.2
    intro i hi
    obtain ⟨h1, h2, h3⟩ := (mem_remove S P i).1 hi
    exact h3 (h i h1 h2)
  unfold filterUnnecessaryCharacters
  simp [hrm]

/-- After compaction of a relation whose sources are position 0 or targets, every position but
the first is a target. -/
theorem filter_all_targets (S : List Nat) (P : List (List Nat)) (hlen : P.length = S.length)
    (hvalid : ∀ ps ∈ P, ∀ p ∈ ps, p < S.length)
    (hclosed : ∀ q, q < P.length → 0 < q → P.getD q [] ≠ [] → IsTarget P q) :
    ∀ i, 1 ≤ i → i < (filterUnnecessaryCharacters S P).1.length →
      IsTarget (filterUnnecessaryCharacters S P).2 i := by
  obtain ⟨ρ, -, hρ0, hkept, hsurj, -⟩ := filter_spec S P hlen hvalid
  intro i hi1 hi2
  obtain ⟨o, ho, hk, rfl⟩ := hsurj i hi2
  have ho0 : o ≠ 0 := by
    rintro rfl
    omega
  have hot : IsTarget P o := by
    rcases hk with h | h
    · exact absurd h ho0
    · exact h
  obtain ⟨q, hq, hoq⟩ := (isTarget_iff_getD P o).1 hot
  have hqk : q = 0 ∨ IsTarget P q := by
    by_cases hq0 : q = 0
    · exact Or.inl hq0
    · exact Or.inr (hclosed q hq (by omega) (List.ne_nil_of_mem hoq))
  have := (hkept q (by omega) hqk).2.2 (ρ o)
  exact mem_getD_imp_isTarget _ (ρ q) (ρ o) (this.2 ⟨o, hoq, rfl⟩)

/-- C9, as amended: on a node sequence and a relation of equal length whose targets are valid
indices and in which every position other than 0 that has a relation target is itself a relation
target, `filterUnnecessaryCharacters` applied to its own output returns that output unchanged. -/
theorem filter_idempotent_of_sources_kept (S : List Nat) (P : List (List Nat))
    (hlen : P.length = S.length) (hvalid : ∀ ps ∈ P, ∀ p ∈ ps, p < S.length)
    (hclosed : ∀ q, q < P.length → 0 < q → P.getD q [] ≠ [] → IsTarget P q) :
    filterUnnecessaryCharacters (filterUnnecessaryCharacters S P).1
      (filterUnnecessaryCharacters S P).2 = filterUnnecessaryCharacters S P :=
  filter_eq_self_of_all_targets _ _ (filter_all_targets S P hlen hvalid hclosed)

/-- C9 as amended, at the sequence `[7, 8, 9]` with the single relation edge `0 -> 2`. -/
theorem filter_idempotent_of_sources_kept_witness :
    ([[2], [], []] : List (List Nat)).length = ([7, 8, 9] : List Nat).length ∧
    (∀ ps ∈ ([[2], [], []] : List (List Nat)), ∀ p ∈ ps, p < ([7, 8, 9] : List Nat).length) ∧
    (∀ q, q < ([[2], [], []] : List (List Nat)).length → 0 < q →
      ([[2], [], []] : List (List Nat)).getD q [] ≠ [] → IsTarget [[2], [], []] q) ∧
    filterUnnecessaryCharacters (filterUnnecessaryCharacters [7, 8, 9] [[2], [], []]).1
      (filterUnnecessaryCharacters [7, 8, 9] [[2], [], []]).2 =
      filterUnnecessaryCharacters [7, 8, 9] [[2], [], []] :=
  have hclosed : ∀ q, q < ([[2], [], []] : List (List Nat)).length → 0 < q →
      ([[2], [], []] : List (List Nat)).getD q [] ≠ [] → IsTarget [[2], [], []] q := by
    intro q hq h0 hne
    have hq' : q < 3 := hq
    interval_cases q
    · exact absurd rfl hne
    · exact absurd rfl hne
  ⟨by decide, by decide, hclosed,
    filter_idempotent_of_sources_kept [7, 8, 9] [[2], [], []] (by decide) (by decide) hclosed⟩

/-- C9 fails as stated: on `[7, 8, 9]` with the single relation edge `1 -> 2` the first
compaction removes position 1 and with it the only edge into position 2, which the second
compaction then removes. -/
theorem filter_not_idempotent :
    ¬ ∀ (S : List Nat) (P : List (List Nat)), P.length = S.length →
      (∀ ps ∈ P, ∀ p ∈ ps, p < S.length) →
      filterUnnecessaryCharacters (filterUnnecessaryCharacters S P).1
        (filterUnnecessaryCharacters S P).2 = filterUnnecessaryCharacters S P := by
  intro h
  have := h [7, 8, 9] [[], [2], []] (by decide) (by decide)
  revert this
  decide

/-- Invariant rule for a left fold, the invariant indexed by the part of the list already
processed. -/
theorem foldl_prefix_invariant {σ α : Type} (Q : List α → σ → Prop) (f : σ → α → σ) (l : List α)
    (init : σ) (h0 : Q [] init)
    (hstep : ∀ done x rest st, l = done ++ x :: rest → Q done st → Q (done ++ [x]) (f st x)) :
    Q l (l.foldl f init) := by
  have gen : ∀ (rest done : List α) (st : σ), l = done ++ rest → Q done st →
      Q l (rest.foldl f st) := by
    intro rest
    induction rest with
    | nil => intro done st hl hQ; simpa [hl] using hQ
    | cons x rest ih =>
      intro done st hl hQ
      simp only [List.foldl_cons]
      exact ih (done ++ [x]) (f st x) (by simp [hl]) (hstep done x rest st hl hQ)
  exact gen l [] init rfl h0

/-! ### The first loop of `getCycleCuttersOrder` -/

theorem orderInv_init (g : AlignmentGraph) (s H : Nat) (hH : 0 < H) :
    OrderInv g s H 0 []
      { supersequence := [], positionInSupersequence := [],
        nodes := insertAt (List.replicate H []) 0 s, edges := [] } := by
  have hget : ∀ l, (insertAt (List.replicate H []) 0 s).getD l [] = if l = 0 then [s] else [] := by
    intro l
    rw [getD_insertAt]
    by_cases h : l = 0
    · subst h; simp [hH, getD_replicate_nil, setInsert]
    · simp [h, getD_replicate_nil]
  constructor
  · simp [length_insertAt]
  · intro l
    simp only [hget]
    split <;> simp
  · rw [hget]; rfl
  · intro _ _; rfl
  · intro v k h; simp [mapFind] at h
  · intro l v k h; simp [mapFind] at h
  · intro l v h _
    rcases h with h | ⟨_, h⟩
    · omega
    · simp at h
  · intro k hk; simp at hk
  · intro l v k l' v' k' h; simp [mapFind] at h
  · intro e he; simp at he
  · intro l v hl hv
    simp only [hget] at hv
    rw [if_neg (by omega)] at hv
    simp at hv

/-- The neighbour loop keeps the invariant. -/
theorem orderNeighbor_inv (g : AlignmentGraph) (s H i : Nat) (done : List Nat) (node : Nat)
    (hspan : 1 ≤ g.nodeEnd node - g.nodeStart node)
    (hlt : i + (g.nodeEnd node - g.nodeStart node) < H)
    (nbs : List Nat) (hnbs : ∀ nb ∈ nbs, nb ∈ g.inNeighbors node) :
    ∀ st : OrderState, OrderInv g s H i done st →
      (∃ k, mapFind st.positionInSupersequence (i, node) = some k) →
      OrderInv g s H i done
        (nbs.foldl (orderNeighbor i (g.nodeEnd node - g.nodeStart node) node) st) ∧
      (nbs.foldl (orderNeighbor i (g.nodeEnd node - g.nodeStart node) node) st).nodes.getD i []
        = st.nodes.getD i [] := by
  induction nbs with
  | nil => intro st h _; exact ⟨h, rfl⟩
  | cons nb nbs ih =>
    intro st h hkey
    simp only [List.foldl_cons]
    have hstep : OrderInv g s H i done
        (orderNeighbor i (g.nodeEnd node - g.nodeStart node) node st nb) := by
      have hmem : ∀ l v, v ∈ st.nodes.getD l [] →
          v ∈ (insertAt st.nodes (i + (g.nodeEnd node - g.nodeStart node)) nb).getD l [] :=
        fun l v hv => (mem_insertAt _ _ _ _ _).2 (Or.inl hv)
      have hsame : ∀ l, l ≤ i →
          (insertAt st.nodes (i + (g.nodeEnd node - g.nodeStart node)) nb).getD l [] =
            st.nodes.getD l [] := by
        intro l hl
        rw [getD_insertAt, if_neg]
        omega
      constructor
      · simp [orderNeighbor, length_insertAt, h.nodes_len]
      · intro l
        simp only [orderNeighbor, getD_insertAt]
        split
        · exact setInsert_sorted _ _ (h.nodes_sorted _)
        · exact h.nodes_sorted l
      · simp only [orderNeighbor]
        rw [hsame 0 (Nat.zero_le _)]; exact h.layer0
      · exact h.sup_zero
      · exact h.pos_zero
      · intro l v k hk
        obtain ⟨h1, h2, h3, h4⟩ := h.pos_some l v k hk
        exact ⟨h1, h2, hmem l v h3, h4⟩
      · intro l v hl hv
        have hli : l ≤ i := by rcases hl with hl | ⟨hl, _⟩ <;> omega
        simp only [orderNeighbor] at hv
        rw [hsame l hli] at hv
        exact h.pos_def l v hl hv
      · exact h.pos_surj
      · exact h.pos_mono
      · intro e he
        simp only [orderNeighbor, List.mem_append, List.mem_singleton] at he
        rcases he with he | rfl
        · obtain ⟨h1, h2, h3, h4, h5⟩ := h.edges_ok e he
          exact ⟨h1, h2, h3, hmem _ _ h4, h5⟩
        · refine ⟨hkey, by simp; omega, hlt, ?_, hnbs nb (List.mem_cons_self _ _), rfl⟩
          simp only [orderNeighbor]
          exact (mem_insertAt _ _ _ _ _).2 (Or.inr ⟨rfl, by rw [h.nodes_len]; exact hlt, rfl⟩)
      · intro l v hl hv
        simp only [orderNeighbor] at hv ⊢
        rcases (mem_insertAt _ _ _ _ _).1 hv with hv | ⟨h1, _, h3⟩
        · obtain ⟨e, he, he2⟩ := h.nodes_src l v hl hv
          exact ⟨e, List.mem_append_left _ he, he2⟩
        · subst h1 h3
          exact ⟨_, List.mem_append_right _ (List.mem_singleton_self _), rfl⟩
    have hsame' : (orderNeighbor i (g.nodeEnd node - g.nodeStart node) node st nb).nodes.getD i []
        = st.nodes.getD i [] := by
      simp only [orderNeighbor]
      rw [getD_insertAt, if_neg]
      omega
    obtain ⟨r1, r2⟩ := ih (fun nb' hnb' => hnbs nb' (List.mem_cons_of_mem _ hnb')) _ hstep hkey
    exact ⟨r1, r2.trans hsame'⟩

/-- Processing one node of the current layer keeps the invariant. -/
theorem orderNode_inv (g : AlignmentGraph) (hspan : ∀ v, 1 ≤ g.nodeEnd v - g.nodeStart v)
    (s H i : Nat) (done : List Nat) (node : Nat) (st : OrderState)
    (h : OrderInv g s H i done st) (hnode : node ∈ st.nodes.getD i []) (hnew : node ∉ done)
    (hfirst : i = 0 → done = []) :
    OrderInv g s H i (done ++ [node]) (orderNode g H i st node) ∧
    (orderNode g H i st node).nodes.getD i [] = st.nodes.getD i [] := by
  have hnokey : mapFind st.positionInSupersequence (i, node) = none := by
    cases hk : mapFind st.positionInSupersequence (i, node) with
    | none => rfl
    | some k =>
      rcases (h.pos_some i node k hk).2.2.2 with h' | ⟨_, h'⟩
      · omega
      · exact absurd h' hnew
  have hst1 : OrderInv g s H i (done ++ [node])
      { st with
        positionInSupersequence :=
          mapSet st.positionInSupersequence (i, node) st.supersequence.length
        supersequence := st.supersequence ++ [node] } := by
    constructor
    · exact h.nodes_len
    · exact h.nodes_sorted
    · exact h.layer0
    · intro _ hd; simp at hd
    · intro v k hk
      simp only [mapFind_mapSet] at hk
      by_cases he : (i, node) = (0, v)
      · rw [if_pos he] at hk
        have hi0 : i = 0 := by simpa using (Prod.ext_iff.1 he).1
        have := h.sup_zero hi0 (hfirst hi0)
        simp only [this, List.length_nil, Option.some.injEq] at hk
        exact hk.symm
      · rw [if_neg he] at hk
        exact h.pos_zero v k hk
    · intro l v k hk
      simp only [mapFind_mapSet] at hk
      by_cases he : (i, node) = (l, v)
      · rw [if_pos he] at hk
        obtain ⟨rfl, rfl⟩ := Prod.ext_iff.1 he
        simp only [Option.some.injEq] at hk
        subst hk
        exact ⟨by simp, by simp, hnode, Or.inr ⟨rfl, by simp⟩⟩
      · rw [if_neg he] at hk
        obtain ⟨h1, h2, h3, h4⟩ := h.pos_some l v k hk
        refine ⟨by simp; omega, ?_, h3, ?_⟩
        · simp only []
          rw [List.getElem?_append_left h1]; exact h2
        · rcases h4 with h4 | ⟨h4, h5⟩
          · exact Or.inl h4
          · exact Or.inr ⟨h4, List.mem_append_left _ h5⟩
    · intro l v hl hv
      simp only [mapFind_mapSet]
      by_cases he : (i, node) = (l, v)
      · exact ⟨_, by rw [if_pos he]⟩
      · rw [if_neg he]
        apply h.pos_def l v _ hv
        rcases hl with hl | ⟨hl, hl2⟩
        · exact Or.inl hl
        · right
          refine ⟨hl, ?_⟩
          rcases List.mem_append.1 hl2 with h' | h'
          · exact h'
          · exfalso
            apply he
            rw [List.mem_singleton.1 h', hl]
    · intro k hk
      simp only [List.length_append, List.length_singleton] at hk
      by_cases hkn : k = st.supersequence.length
      · exact ⟨i, node, by simp [mapFind_mapSet, hkn]⟩
      · obtain ⟨l, v, hlv⟩ := h.pos_surj k (by omega)
        refine ⟨l, v, ?_⟩
        simp only [mapFind_mapSet]
        rw [if_neg]
        · exact hlv
        · intro he
          rw [← he, hnokey] at hlv
          exact absurd hlv (by simp)
    · intro l v k l' v' k' hk hk' hll
      simp only [mapFind_mapSet] at hk hk'
      by_cases he : (i, node) = (l, v)
      · -- the new key is the lower one: no key lies in a later layer
        by_cases he' : (i, node) = (l', v')
        · obtain ⟨h1, -⟩ := Prod.ext_iff.1 he
          obtain ⟨h2, -⟩ := Prod.ext_iff.1 he'
          simp only at h1 h2
          omega
        · rw [if_neg he'] at hk'
          obtain ⟨h1, -⟩ := Prod.ext_iff.1 he
          simp only at h1
          rcases (h.pos_some l' v' k' hk').2.2.2 with h' | ⟨h', _⟩ <;> omega
      · rw [if_neg he] at hk
        by_cases he' : (i, node) = (l', v')
        · rw [if_pos he'] at hk'
          simp only [Option.some.injEq] at hk'
          have := (h.pos_some l v k hk).1
          omega
        · rw [if_neg he'] at hk'
          exact h.pos_mono l v k l' v' k' hk hk' hll
    · intro e he
      obtain ⟨⟨k, hk⟩, h2⟩ := h.edges_ok e he
      refine ⟨?_, h2⟩
      simp only [mapFind_mapSet]
      by_cases hee : (i, node) = e.1
      · exact ⟨_, by rw [if_pos hee]⟩
      · exact ⟨k, by rw [if_neg hee]; exact hk⟩
    · exact h.nodes_src
  unfold orderNode
  by_cases hge : i + (g.nodeEnd node - g.nodeStart node) ≥ H
  · rw [if_pos hge]
    exact ⟨hst1, rfl⟩
  · rw [if_neg hge]
    exact orderNeighbor_inv g s H i (done ++ [node]) node (hspan node) (by omega)
      (g.inNeighbors node) (fun _ h => h) _ hst1
      ⟨st.supersequence.length, by simp [mapFind_mapSet]⟩

theorem orderLayer_inv (g : AlignmentGraph) (hspan : ∀ v, 1 ≤ g.nodeEnd v - g.nodeStart v)
    (s H i : Nat) (st : OrderState) (h : OrderInv g s H i [] st) :
    OrderInv g s H (i + 1) [] (orderLayer g H st i) := by
  unfold orderLayer
  have key := foldl_prefix_invariant
    (fun done (st' : OrderState) =>
      OrderInv g s H i done st' ∧ st'.nodes.getD i [] = st.nodes.getD i [])
    (orderNode g H i) (st.nodes.getD i []) st ⟨h, rfl⟩
    (by
      intro done x rest st' hl ⟨hinv, hsame⟩
      have hsorted := h.nodes_sorted i
      rw [hl] at hsorted
      have hx : x ∈ st'.nodes.getD i [] := by rw [hsame, hl]; simp
      have hnew : x ∉ done := by
        intro hd
        have := (List.pairwise_append.1 hsorted).2.2 x hd x (List.mem_cons_self _ _)
        omega
      have hfirst : i = 0 → done = [] := by
        intro hi0
        subst hi0
        have := h.layer0
        rw [hl] at this
        cases done with
        | nil => rfl
        | cons d ds =>
          simp only [List.cons_append, List.cons.injEq] at this
          have h2 := this.2
          simp at h2
      obtain ⟨r1, r2⟩ := orderNode_inv g hspan s H i done x st' hinv hx hnew hfirst
      exact ⟨r1, r2.trans hsame⟩)
  obtain ⟨hinv, hsame⟩ := key
  constructor
  · exact hinv.nodes_len
  · exact hinv.nodes_sorted
  · exact hinv.layer0
  · intro hi; omega
  · exact hinv.pos_zero
  · intro l v k hk
    obtain ⟨h1, h2, h3, h4⟩ := hinv.pos_some l v k hk
    refine ⟨h1, h2, h3, Or.inl ?_⟩
    rcases h4 with h4 | ⟨h4, _⟩ <;> omega
  · intro l v hl hv
    apply hinv.pos_def l v _ hv
    rcases hl with hl | ⟨_, hl⟩
    · by_cases hli : l = i
      · subst hli
        exact Or.inr ⟨rfl, by rw [← hsame]; exact hv⟩
      · exact Or.inl (by omega)
    · simp at hl
  · exact hinv.pos_surj
  · exact hinv.pos_mono
  · exact hinv.edges_ok
  · exact hinv.nodes_src

theorem orderSweep_inv (g : AlignmentGraph) (hspan : ∀ v, 1 ≤ g.nodeEnd v - g.nodeStart v)
    (s H : Nat) (hH : 0 < H) : OrderInv g s H H [] (orderSweep g s H) := by
  unfold orderSweep
  rw [List.range_eq_range']
  have := foldl_range'_invariant (fun i (st : OrderState) => OrderInv g s H i [] st)
    (orderLayer g H) 0 H _ (orderInv_init g s H hH)
    (fun k st _ _ hk => orderLayer_inv g hspan s H k st hk)
  simpa using this

/-! ### The loop over the recorded edges -/

theorem orderEdges_spec (pos : List ((Nat × Nat) × Nat)) (edges : List ((Nat × Nat) × (Nat × Nat)))
    (init : List (List Nat)) :
    (edges.foldl (orderEdge pos) init).length = init.length ∧
    (∀ q p, p ∈ (edges.foldl (orderEdge pos) init).getD q [] ↔
      (p ∈ init.getD q [] ∨ (q < init.length ∧ ∃ e ∈ edges,
        (mapFind pos e.1).getD 0 = q ∧ (mapFind pos e.2).getD 0 = p))) ∧
    ((∀ q, (init.getD q []).Pairwise (· < ·)) →
      ∀ q, ((edges.foldl (orderEdge pos) init).getD q []).Pairwise (· < ·)) := by
  induction edges generalizing init with
  | nil => simp
  | cons e edges ih =>
    simp only [List.foldl_cons]
    obtain ⟨h1, h2, h3⟩ := ih (orderEdge pos init e)
    have hl : (orderEdge pos init e).length = init.length := by simp [orderEdge, length_insertAt]
    refine ⟨by rw [h1, hl], ?_, ?_⟩
    · intro q p
      rw [h2 q p, hl]
      simp only [orderEdge, mem_insertAt, List.mem_cons, exists_eq_or_imp]
      constructor
      · rintro ((h | ⟨h, h', h''⟩) | ⟨h, h'⟩)
        · exact Or.inl h
        · exact Or.inr ⟨by omega, Or.inl ⟨h.symm, h''.symm⟩⟩
        · exact Or.inr ⟨h, Or.inr h'⟩
      · rintro (h | ⟨h, ⟨h', h''⟩ | h'⟩)
        · exact Or.inl (Or.inl h)
        · exact Or.inl (Or.inr ⟨h'.symm, by omega, h''.symm⟩)
        · exact Or.inr ⟨h, h'⟩
    · intro hs
      apply h3
      intro q
      simp only [orderEdge, getD_insertAt]
      split
      · exact setInsert_sorted _ _ (hs _)
      · exact hs q

/-- The skeleton that `getCycleCuttersOrder` returns, with where its edges come from. -/
theorem getCycleCuttersOrder_spec (g : AlignmentGraph)
    (hspan : ∀ v, 1 ≤ g.nodeEnd v - g.nodeStart v) (s H : Nat) (hH : 0 < H) :
    ∃ sup preds, getCycleCuttersOrder g s H [] = some (sup, preds) ∧ Skeleton sup preds ∧
      sup.head? = some s ∧
      ∀ q p, p ∈ preds.getD q [] → ∃ u v, sup[q]? = some u ∧ sup[p]? = some v ∧
        v ∈ g.inNeighbors u := by
  have hinv := orderSweep_inv g hspan s H hH
  have hne : H ≠ 0 := by omega
  refine ⟨(orderSweep g s H).supersequence,
    (orderSweep g s H).edges.foldl (orderEdge (orderSweep g s H).positionInSupersequence)
      (List.replicate (orderSweep g s H).supersequence.length []), by
    unfold getCycleCuttersOrder; rw [if_neg hne]; simp only [resizeSets_nil], ?_, ?_, ?_⟩
  all_goals
    obtain ⟨e1, e2, e3⟩ := orderEdges_spec (orderSweep g s H).positionInSupersequence
      (orderSweep g s H).edges (List.replicate (orderSweep g s H).supersequence.length [])
    simp only [List.length_replicate, getD_replicate_nil, List.not_mem_nil,
      false_or] at e1 e2 e3
  · -- the key of the first position
    have hs0 : s ∈ (orderSweep g s H).nodes.getD 0 [] := by rw [hinv.layer0]; simp
    obtain ⟨k0, hk0⟩ := hinv.pos_def 0 s (Or.inl hH) hs0
    have hk00 := hinv.pos_zero s k0 hk0
    subst hk00
    have edge_pos : ∀ e ∈ (orderSweep g s H).edges, ∃ k1 k2,
        mapFind (orderSweep g s H).positionInSupersequence e.1 = some k1 ∧
        mapFind (orderSweep g s H).positionInSupersequence e.2 = some k2 ∧ k1 < k2 ∧
        k2 < (orderSweep g s H).supersequence.length := by
      intro e he
      obtain ⟨⟨k1, hk1⟩, h2, h3, h4, -⟩ := hinv.edges_ok e he
      obtain ⟨k2, hk2⟩ := hinv.pos_def e.2.1 e.2.2 (Or.inl h3) h4
      exact ⟨k1, k2, hk1, hk2, hinv.pos_mono _ _ _ _ _ _ hk1 hk2 h2,
        (hinv.pos_some _ _ _ hk2).1⟩
    constructor
    · exact e1
    · exact Nat.lt_of_le_of_lt (Nat.zero_le _) (hinv.pos_some 0 s 0 hk0).1
    · intro i p hp
      obtain ⟨-, e, he, hq, hp'⟩ := (e2 i p).1 hp
      obtain ⟨k1, k2, hk1, hk2, hlt, hn⟩ := edge_pos e he
      rw [hk1] at hq; rw [hk2] at hp'
      simp only [Option.getD_some] at hq hp'
      omega
    · intro j hj0 hjn
      obtain ⟨l, v, hlv⟩ := hinv.pos_surj j hjn
      have hl : 1 ≤ l := by
        by_contra hl0
        have : l = 0 := by omega
        subst this
        have := hinv.pos_zero v j hlv
        omega
      obtain ⟨e, he, he2⟩ := hinv.nodes_src l v hl (hinv.pos_some l v j hlv).2.2.1
      obtain ⟨k1, k2, hk1, hk2, hlt, hn⟩ := edge_pos e he
      refine ⟨k1, (e2 k1 j).2 ⟨by omega, e, he, by rw [hk1]; rfl, ?_⟩⟩
      rw [he2, hlv]; rfl
    · exact e3 (fun _ => List.Pairwise.nil)
  · have hs0 : s ∈ (orderSweep g s H).nodes.getD 0 [] := by rw [hinv.layer0]; simp
    obtain ⟨k0, hk0⟩ := hinv.pos_def 0 s (Or.inl hH) hs0
    have hk00 := hinv.pos_zero s k0 hk0
    subst hk00
    have := (hinv.pos_some 0 s 0 hk0).2.1
    cases hsup : (orderSweep g s H).supersequence with
    | nil => rw [hsup] at this; simp at this
    | cons a l => rw [hsup] at this; simpa using this
  · intro q p hp
    obtain ⟨-, e, he, hq, hp'⟩ := (e2 q p).1 hp
    obtain ⟨⟨k1, hk1⟩, h2, h3, h4, h5, -⟩ := hinv.edges_ok e he
    obtain ⟨k2, hk2⟩ := hinv.pos_def e.2.1 e.2.2 (Or.inl h3) h4
    rw [hk1] at hq; rw [hk2] at hp'
    simp only [Option.getD_some] at hq hp'
    subst hq hp'
    exact ⟨e.1.2, e.2.2, (hinv.pos_some _ _ _ hk1).2.1, (hinv.pos_some _ _ _ hk2).2.1, h5⟩

/-! ### Flow tables -/

theorem mapSet_keys {κ β : Type} [DecidableEq κ] (m : List (κ × β)) (k : κ) (v : β) :
    (mapSet m k v).map Prod.fst =
      if k ∈ m.map Prod.fst then m.map Prod.fst else m.map Prod.fst ++ [k] := by
  induction m with
  | nil => simp [mapSet]
  | cons e m ih =>
    obtain ⟨a, b⟩ := e
    unfold mapSet
    by_cases h : a = k
    · subst h; simp
    · simp only [h, if_false, List.map_cons, ih, List.mem_cons]
      have hk : ¬ k = a := fun h' => h h'.symm
      by_cases hm : k ∈ m.map Prod.fst
      · simp [hm]
      · simp [hm, hk]

theorem mapSet_keys_nodup {κ β : Type} [DecidableEq κ] (m : List (κ × β)) (k : κ) (v : β)
    (h : (m.map Prod.fst).Nodup) : ((mapSet m k v).map Prod.fst).Nodup := by
  rw [mapSet_keys]
  by_cases hm : k ∈ m.map Prod.fst
  · rw [if_pos hm]; exact h
  · rw [if_neg hm]
    exact List.nodup_append.2 ⟨h, List.nodup_singleton _, by
      intro a ha hb
      rw [List.mem_singleton] at hb
      subst hb
      exact hm ha⟩

theorem mem_keys_mapSet {κ β : Type} [DecidableEq κ] (m : List (κ × β)) (k k' : κ) (v : β) :
    k' ∈ (mapSet m k v).map Prod.fst ↔ k' = k ∨ k' ∈ m.map Prod.fst := by
  rw [mapSet_keys]
  by_cases hm : k ∈ m.map Prod.fst
  · rw [if_pos hm]
    constructor
    · exact Or.inr
    · rintro (rfl | h)
      · exact hm
      · exact h
  · rw [if_neg hm, List.mem_append, List.mem_singleton]
    tauto

theorem mapFind_isSome_iff {κ β : Type} [DecidableEq κ] (m : List (κ × β)) (k : κ) :
    (∃ v, mapFind m k = some v) ↔ k ∈ m.map Prod.fst := by
  induction m with
  | nil => simp [mapFind]
  | cons e m ih =>
    obtain ⟨a, b⟩ := e
    unfold mapFind
    by_cases h : a = k
    · subst h; simp
    · simp only [h, if_false, ih, List.map_cons, List.mem_cons]
      constructor
      · exact Or.inr
      · rintro (h' | h')
        · exact absurd h'.symm h
        · exact h'

theorem mem_iff_mapFind {κ β : Type} [DecidableEq κ] (m : List (κ × β))
    (hnd : (m.map Prod.fst).Nodup) (k : κ) (v : β) : (k, v) ∈ m ↔ mapFind m k = some v := by
  induction m with
  | nil => simp [mapFind]
  | cons e m ih =>
    obtain ⟨a, b⟩ := e
    simp only [List.map_cons, List.nodup_cons] at hnd
    unfold mapFind
    by_cases h : a = k
    · subst h
      simp only [List.mem_cons, Prod.mk.injEq, true_and, if_true, Option.some.injEq]
      constructor
      · rintro (h | h)
        · exact h.symm
        · exact absurd (List.mem_map_of_mem Prod.fst h) hnd.1
      · intro h; exact Or.inl h.symm
    · simp only [List.mem_cons, Prod.mk.injEq, h, if_false, ← ih hnd.2]
      constructor
      · rintro (⟨h', -⟩ | h')
        · exact absurd h'.symm h
        · exact h'
      · exact Or.inr

theorem flowSum_nil (pred : Edge → Bool) : flowSum pred [] = 0 := rfl

theorem flowSum_cons (pred : Edge → Bool) (e : Edge × Nat) (m : FlowMap) :
    flowSum pred (e :: m) = (if pred e.1 then e.2 else 0) + flowSum pred m := by
  unfold flowSum
  by_cases h : pred e.1 <;> simp [List.filter_cons, h]

theorem flowAt_cons (e : Edge × Nat) (m : FlowMap) (k : Edge) :
    flowAt (e :: m) k = if e.1 = k then e.2 else flowAt m k := by
  obtain ⟨a, b⟩ := e
  unfold flowAt
  simp only [mapFind]
  by_cases h : a = k <;> simp [h]

theorem flowSum_mapSet (pred : Edge → Bool) (m : FlowMap) (k : Edge) (w : Nat) :
    flowSum pred (mapSet m k w) + (if pred k then flowAt m k else 0) =
      flowSum pred m + (if pred k then w else 0) := by
  induction m with
  | nil => simp [mapSet, flowSum_cons, flowSum_nil, flowAt, mapFind]
  | cons e m ih =>
    obtain ⟨a, b⟩ := e
    unfold mapSet
    by_cases h : a = k
    · subst h
      simp only [if_true, flowSum_cons, flowAt_cons]
      split <;> omega
    · simp only [h, if_false, flowSum_cons, flowAt_cons]
      omega

theorem flowSum_mapIncr (pred : Edge → Bool) (m : FlowMap) (k : Edge) :
    flowSum pred (mapIncr m k) = flowSum pred m + (if pred k then 1 else 0) := by
  have := flowSum_mapSet pred m k (flowAt m k + 1)
  unfold mapIncr
  unfold flowAt at this
  by_cases hp : pred k = true
  · rw [if_pos hp, if_pos hp] at this
    rw [if_pos hp]
    omega
  · rw [if_neg hp, if_neg hp] at this
    rw [if_neg hp]
    omega

theorem flowSum_foldl_mapIncr (pred : Edge → Bool) (es : List Edge) (m : FlowMap) :
    flowSum pred (es.foldl mapIncr m) = flowSum pred m + es.countP pred := by
  induction es generalizing m with
  | nil => simp
  | cons e es ih =>
    simp only [List.foldl_cons, ih, flowSum_mapIncr, List.countP_cons]
    omega

theorem flowAt_mapIncr (m : FlowMap) (k k' : Edge) :
    flowAt (mapIncr m k) k' = flowAt m k' + (if k = k' then 1 else 0) := by
  unfold flowAt mapIncr
  rw [mapFind_mapSet]
  by_cases h : k = k'
  · subst h; simp
  · simp [h]

theorem flowAt_foldl_mapIncr_ge (es : List Edge) (m : FlowMap) (k : Edge) :
    flowAt m k ≤ flowAt (es.foldl mapIncr m) k := by
  induction es generalizing m with
  | nil => simp
  | cons e es ih =>
    simp only [List.foldl_cons]
    have := ih (mapIncr m e)
    rw [flowAt_mapIncr] at this
    omega

theorem keys_foldl_mapIncr (es : List Edge) (m : FlowMap) :
    ((m.map Prod.fst).Nodup → ((es.foldl mapIncr m).map Prod.fst).Nodup) ∧
    ∀ k, k ∈ (es.foldl mapIncr m).map Prod.fst ↔ (k ∈ es ∨ k ∈ m.map Prod.fst) := by
  induction es generalizing m with
  | nil => simp
  | cons e es ih =>
    simp only [List.foldl_cons]
    obtain ⟨h2, h3⟩ := ih (mapIncr m e)
    refine ⟨fun h => h2 (mapSet_keys_nodup _ _ _ h), fun k => ?_⟩
    rw [h3 k]
    unfold mapIncr
    rw [mem_keys_mapSet, List.mem_cons]
    tauto

/-! ### Balanced edge lists -/

theorem balanced_nil (a : Nat) : Balanced [] a a := by
  intro v; simp

theorem balanced_snoc (es : List Edge) (a b c : Nat) (h : Balanced es a b) :
    Balanced (es ++ [(b, c)]) a c := by
  intro v
  have := h v
  simp only [List.countP_append, List.countP_cons, List.countP_nil, beq_iff_eq] at this ⊢
  split_ifs at this ⊢ <;> omega

theorem balanced_snoc_front (es : List Edge) (a b t : Nat) (h : Balanced es b t) :
    Balanced (es ++ [(a, b)]) a t := by
  intro v
  have := h v
  simp only [List.countP_append, List.countP_cons, List.countP_nil, beq_iff_eq] at this ⊢
  split_ifs at this ⊢ <;> omega

theorem balanced_unit (pb pf : List Edge) (i p t : Nat) (hb : Balanced pb 0 i)
    (hf : Balanced pf p t) : Balanced ((i, p) :: (pb ++ pf)) 0 t := by
  intro v
  have h1 := hb v
  have h2 := hf v
  simp only [List.countP_append, List.countP_cons, beq_iff_eq] at h1 h2 ⊢
  split_ifs at h1 h2 ⊢ <;> omega

/-! ### The first two loops of `findFeasibleFlow` -/

theorem range_split (n : Nat) (done rest : List Nat) (x : Nat)
    (h : List.range n = done ++ x :: rest) : x < n ∧ ∀ k, k ∈ done ↔ k < x := by
  have hs : (done ++ x :: rest).Pairwise (· < ·) := by rw [← h]; exact List.pairwise_lt_range n
  have hx : x ∈ List.range n := by rw [h]; simp
  have hxn : x < n := List.mem_range.1 hx
  refine ⟨hxn, fun k => ⟨fun hk => ?_, fun hk => ?_⟩⟩
  · exact (List.pairwise_append.1 hs).2.2 k hk x (List.mem_cons_self _ _)
  · have hk' : k ∈ List.range n := List.mem_range.2 (by omega)
    rw [h, List.mem_append, List.mem_cons] at hk'
    rcases hk' with hk' | rfl | hk'
    · exact hk'
    · omega
    · have := (List.pairwise_cons.1 (List.pairwise_append.1 hs).2.1).1 k hk'
      omega

theorem range_reverse_split (n : Nat) (done rest : List Nat) (x : Nat)
    (h : (List.range n).reverse = done ++ x :: rest) :
    x < n ∧ ∀ k, k ∈ done ↔ (x < k ∧ k < n) := by
  have hs : (done ++ x :: rest).Pairwise (· > ·) := by
    rw [← h, List.pairwise_reverse]; exact List.pairwise_lt_range n
  have hmem : ∀ k, k ∈ done ++ x :: rest ↔ k < n := by
    intro k; rw [← h]; simp
  have hxn : x < n := (hmem x).1 (by simp)
  refine ⟨hxn, fun k => ⟨fun hk => ⟨?_, (hmem k).1 (by simp [hk])⟩, fun hk => ?_⟩⟩
  · exact (List.pairwise_append.1 hs).2.2 k hk x (List.mem_cons_self _ _)
  · have hk' := (hmem k).2 hk.2
    rw [List.mem_append, List.mem_cons] at hk'
    rcases hk' with hk' | rfl | hk'
    · exact hk'
    · omega
    · have := (List.pairwise_cons.1 (List.pairwise_append.1 hs).2.1).1 k hk'
      omega

theorem pathOK_nil (preds : List (List Nat)) (a : Nat) : PathOK preds [] a a :=
  ⟨fun e he => by simp at he, balanced_nil a⟩

theorem getD_eq_nil_of_length_le (preds : List (List Nat)) (i : Nat) (h : preds.length ≤ i) :
    preds.getD i [] = [] := by
  simp [List.getD_eq_getElem?_getD, List.getElem?_eq_none h]

/-- What the first loop of `findFeasibleFlow` leaves in `pathBack` and `successors`. -/
theorem flowBack_spec (sup : List Nat) (preds : List (List Nat)) (hsk : Skeleton sup preds) :
    (∀ j, j < sup.length →
      PathOK preds ((mapFind (flowBack sup preds).1 j).getD []) 0 j) ∧
    (∀ s t, s ∈ (flowBack sup preds).2.getD t [] ↔ t ∈ preds.getD s []) := by
  have key := foldl_prefix_invariant
    (fun (doneI : List Nat) (st : List (Nat × List Edge) × List (List Nat)) =>
      (∀ j, (mapFind st.1 j).getD [] = [] ∨ PathOK preds ((mapFind st.1 j).getD []) 0 j) ∧
      (∀ j k, k ∈ doneI → j ∈ preds.getD k [] → (mapFind st.1 j).getD [] ≠ []) ∧
      st.2.length = sup.length ∧
      (∀ s t, s ∈ st.2.getD t [] ↔ (s ∈ doneI ∧ t ∈ preds.getD s [])))
    (fun st i => (preds.getD i []).foldl (flowBackStep i) st)
    (List.range sup.length) ([], List.replicate sup.length [])
    ⟨fun j => Or.inl rfl, fun j k hk => by simp at hk, by simp,
      fun s t => by simp [getD_replicate_nil]⟩
    (by
      intro doneI i restI st hl ⟨hA, hB, hC1, hC2⟩
      obtain ⟨hin, hdone⟩ := range_split _ _ _ _ hl
      -- the path of `i` itself is in place
      have inner := foldl_prefix_invariant
        (fun (doneP : List Nat) (st' : List (Nat × List Edge) × List (List Nat)) =>
          (∀ j, (mapFind st'.1 j).getD [] = [] ∨ PathOK preds ((mapFind st'.1 j).getD []) 0 j) ∧
          (∀ j k, k ∈ doneI → j ∈ preds.getD k [] → (mapFind st'.1 j).getD [] ≠ []) ∧
          (∀ j, j ∈ doneP → (mapFind st'.1 j).getD [] ≠ []) ∧
          st'.2.length = sup.length ∧
          (∀ s t, s ∈ st'.2.getD t [] ↔
            ((s ∈ doneI ∧ t ∈ preds.getD s []) ∨ (s = i ∧ t ∈ doneP))))
        (flowBackStep i) (preds.getD i []) st
        ⟨hA, hB, fun j hj => by simp at hj, hC1, fun s t => by rw [hC2]; simp⟩
        (by
          intro doneP p restP st' hlp ⟨gA, gB, gB', gC1, gC2⟩
          have hp : p ∈ preds.getD i [] := by rw [hlp]; simp
          have hpn := (hsk.increasing i p hp).2
          have hPi : PathOK preds ((mapFind st'.1 i).getD []) 0 i := by
            rcases gA i with h0 | h0
            · by_cases hi0 : i = 0
              · subst hi0; rw [h0]; exact pathOK_nil preds 0
              · obtain ⟨k, hk⟩ := hsk.reached i (by omega) hin
                have hki := (hsk.increasing k i hk).1
                exact absurd h0 (gB i k ((hdone k).2 hki) hk)
            · exact h0
          have hnew : PathOK preds ((mapFind st'.1 i).getD [] ++ [(i, p)]) 0 p := by
            refine ⟨?_, balanced_snoc _ _ _ _ hPi.2⟩
            intro e he
            rcases List.mem_append.1 he with he | he
            · exact hPi.1 e he
            · rw [List.mem_singleton.1 he]; exact hp
          have hfind : ∀ j, (mapFind (flowBackStep i st' p).1 j).getD [] =
              if p = j then (mapFind st'.1 i).getD [] ++ [(i, p)] else (mapFind st'.1 j).getD [] := by
            intro j
            simp only [flowBackStep, mapFind_mapSet]
            split <;> rfl
          refine ⟨?_, ?_, ?_, ?_, ?_⟩
          · intro j
            rw [hfind]
            by_cases hpj : p = j
            · subst hpj; rw [if_pos rfl]; exact Or.inr hnew
            · rw [if_neg hpj]; exact gA j
          · intro j k hk hj
            rw [hfind]
            by_cases hpj : p = j
            · rw [if_pos hpj]; simp
            · rw [if_neg hpj]; exact gB j k hk hj
          · intro j hj
            rw [hfind]
            by_cases hpj : p = j
            · rw [if_pos hpj]; simp
            · rw [if_neg hpj]
              rcases List.mem_append.1 hj with hj | hj
              · exact gB' j hj
              · exact absurd (List.mem_singleton.1 hj).symm hpj
          · simp [flowBackStep, length_insertAt, gC1]
          · intro s t
            simp only [flowBackStep, mem_insertAt, gC2, gC1, List.mem_append, List.mem_singleton]
            constructor
            · rintro ((h | ⟨h, h'⟩) | ⟨h, -, h'⟩)
              · exact Or.inl h
              · exact Or.inr ⟨h, Or.inl h'⟩
              · exact Or.inr ⟨h', Or.inr h⟩
            · rintro (h | ⟨h, h' | h'⟩)
              · exact Or.inl (Or.inl h)
              · exact Or.inl (Or.inr ⟨h, h'⟩)
              · exact Or.inr ⟨h', hpn, h⟩)
      obtain ⟨gA, gB, gB', gC1, gC2⟩ := inner
      refine ⟨gA, ?_, gC1, ?_⟩
      · intro j k hk hj
        rcases List.mem_append.1 hk with hk | hk
        · exact gB j k hk hj
        · rw [List.mem_singleton.1 hk] at hj
          exact gB' j hj
      · intro s t
        rw [gC2, List.mem_append, List.mem_singleton]
        constructor
        · rintro (⟨h, h'⟩ | ⟨h, h'⟩)
          · exact ⟨Or.inl h, h'⟩
          · exact ⟨Or.inr h, by rw [h]; exact h'⟩
        · rintro ⟨h | h, h'⟩
          · exact Or.inl ⟨h, h'⟩
          · exact Or.inr ⟨h, by rw [← h]; exact h'⟩)
  obtain ⟨hA, hB, -, hC⟩ := key
  constructor
  · intro j hj
    rcases hA j with h0 | h0
    · by_cases hj0 : j = 0
      · subst hj0
        show PathOK preds ((mapFind (flowBack sup preds).1 0).getD []) 0 0
        unfold flowBack
        rw [h0]; exact pathOK_nil preds 0
      · obtain ⟨k, hk⟩ := hsk.reached j (by omega) hj
        have hkn : k < sup.length := by have := hsk.increasing k j hk; omega
        exact absurd h0 (hB j k (List.mem_range.2 hkn) hk)
    · exact h0
  · intro s t
    show s ∈ (flowBack sup preds).2.getD t [] ↔ _
    unfold flowBack
    rw [hC s t, List.mem_range]
    constructor
    · exact fun h => h.2
    · intro h
      refine ⟨?_, h⟩
      by_contra hge
      rw [getD_eq_nil_of_length_le preds s (by rw [hsk.length_eq]; omega)] at h
      simp at h

/-- What the second loop of `findFeasibleFlow` leaves in `pathForward`: for every position a
balanced list of edges from it to a position without successors. -/
theorem flowForward_spec (sup : List Nat) (preds succs : List (List Nat))
    (hsk : Skeleton sup preds)
    (hsucc : ∀ s t, s ∈ succs.getD t [] ↔ t ∈ preds.getD s []) :
    ∀ p, p < sup.length → ∃ t, preds.getD t [] = [] ∧
      PathOK preds ((mapFind (flowForward sup succs) p).getD []) p t := by
  have key := foldl_prefix_invariant
    (fun (doneI : List Nat) (pf : List (Nat × List Edge)) =>
      (∀ j, (mapFind pf j).getD [] = [] ∨
        ∃ t, preds.getD t [] = [] ∧ PathOK preds ((mapFind pf j).getD []) j t) ∧
      (∀ j k, k ∈ doneI → k ∈ preds.getD j [] → (mapFind pf j).getD [] ≠ []))
    (fun pf i => (succs.getD i []).foldl (flowForwardStep i) pf)
    (List.range sup.length).reverse []
    ⟨fun j => Or.inl rfl, fun j k hk => by simp at hk⟩
    (by
      intro doneI i restI pf hl ⟨hA, hB⟩
      obtain ⟨hin, hdone⟩ := range_reverse_split _ _ _ _ hl
      have inner := foldl_prefix_invariant
        (fun (doneS : List Nat) (pf' : List (Nat × List Edge)) =>
          (∀ j, (mapFind pf' j).getD [] = [] ∨
            ∃ t, preds.getD t [] = [] ∧ PathOK preds ((mapFind pf' j).getD []) j t) ∧
          (∀ j k, k ∈ doneI → k ∈ preds.getD j [] → (mapFind pf' j).getD [] ≠ []) ∧
          (∀ j, j ∈ doneS → (mapFind pf' j).getD [] ≠ []))
        (flowForwardStep i) (succs.getD i []) pf
        ⟨hA, hB, fun j hj => by simp at hj⟩
        (by
          intro doneS s restS pf' hls ⟨gA, gB, gB'⟩
          have hs : i ∈ preds.getD s [] := by
            rw [← hsucc]; rw [hls]; simp
          have hPi : ∃ t, preds.getD t [] = [] ∧
              PathOK preds ((mapFind pf' i).getD []) i t := by
            rcases gA i with h0 | h0
            · by_cases hsink : preds.getD i [] = []
              · exact ⟨i, hsink, by rw [h0]; exact pathOK_nil preds i⟩
              · obtain ⟨k, hk⟩ := List.exists_mem_of_ne_nil _ hsink
                have := hsk.increasing i k hk
                exact absurd h0 (gB i k ((hdone k).2 this) hk)
            · exact h0
          obtain ⟨t, ht, hPt⟩ := hPi
          have hnew : PathOK preds ((mapFind pf' i).getD [] ++ [(s, i)]) s t := by
            refine ⟨?_, balanced_snoc_front _ _ _ _ hPt.2⟩
            intro e he
            rcases List.mem_append.1 he with he | he
            · exact hPt.1 e he
            · rw [List.mem_singleton.1 he]; exact hs
          have hfind : ∀ j, (mapFind (flowForwardStep i pf' s) j).getD [] =
              if s = j then (mapFind pf' i).getD [] ++ [(s, i)] else (mapFind pf' j).getD [] := by
            intro j
            simp only [flowForwardStep, mapFind_mapSet]
            split <;> rfl
          refine ⟨?_, ?_, ?_⟩
          · intro j
            rw [hfind]
            by_cases hsj : s = j
            · subst hsj; rw [if_pos rfl]; exact Or.inr ⟨t, ht, hnew⟩
            · rw [if_neg hsj]; exact gA j
          · intro j k hk hj
            rw [hfind]
            by_cases hsj : s = j
            · rw [if_pos hsj]; simp
            · rw [if_neg hsj]; exact gB j k hk hj
          · intro j hj
            rw [hfind]
            by_cases hsj : s = j
            · rw [if_pos hsj]; simp
            · rw [if_neg hsj]
              rcases List.mem_append.1 hj with hj | hj
              · exact gB' j hj
              · exact absurd (List.mem_singleton.1 hj).symm hsj)
      obtain ⟨gA, gB, gB'⟩ := inner
      refine ⟨gA, ?_⟩
      intro j k hk hj
      rcases List.mem_append.1 hk with hk | hk
      · exact gB j k hk hj
      · rw [List.mem_singleton.1 hk] at hj
        exact gB' j ((hsucc j i).2 hj))
  obtain ⟨hA, hB⟩ := key
  intro p hp
  rcases hA p with h0 | h0
  · by_cases hsink : preds.getD p [] = []
    · refine ⟨p, hsink, ?_⟩
      show PathOK preds ((mapFind (flowForward sup succs) p).getD []) p p
      unfold flowForward
      rw [h0]; exact pathOK_nil preds p
    · obtain ⟨k, hk⟩ := List.exists_mem_of_ne_nil _ hsink
      have := hsk.increasing p k hk
      exact absurd h0 (hB p k (by simp; omega) hk)
  · exact h0

/-! ### The third loop of `findFeasibleFlow` -/

theorem flowOK_nil (preds : List (List Nat)) : FlowOK preds [] :=
  ⟨by simp, fun e he => by simp at he, fun v _ _ => rfl⟩

/-- Adding one unit of flow along a balanced list of edges from position 0 to a position
without successors keeps a flow table in order. -/
theorem flowOK_add_unit (preds : List (List Nat)) (m : FlowMap) (es : List Edge) (t : Nat)
    (hm : FlowOK preds m) (hes : PathOK preds es 0 t) (ht : preds.getD t [] = []) :
    FlowOK preds (es.foldl mapIncr m) := by
  obtain ⟨k1, k2⟩ := keys_foldl_mapIncr es m
  constructor
  · exact k1 hm.keys_nodup
  · intro e he
    have : e.1 ∈ (es.foldl mapIncr m).map Prod.fst := List.mem_map_of_mem Prod.fst he
    rcases (k2 e.1).1 this with h | h
    · exact hes.1 e.1 h
    · obtain ⟨e', he', heq⟩ := List.mem_map.1 h
      rw [← heq]; exact hm.keys_edges e' he'
  · intro v hv hint
    have hvt : v ≠ t := fun h => hint (h ▸ ht)
    have hb := hes.2 v
    rw [if_neg (by omega), if_neg hvt] at hb
    unfold inflow outflow
    rw [flowSum_foldl_mapIncr, flowSum_foldl_mapIncr]
    have := hm.conserve v hv hint
    unfold inflow outflow at this
    omega

theorem flowEdgeStep_spec (preds : List (List Nat)) (pb pf : List (Nat × List Edge))
    (m : FlowMap) (i p t : Nat) (hm : FlowOK preds m) (hp : p ∈ preds.getD i [])
    (hb : PathOK preds ((mapFind pb i).getD []) 0 i)
    (hf : PathOK preds ((mapFind pf p).getD []) p t) (ht : preds.getD t [] = []) :
    FlowOK preds (flowEdgeStep pb pf i m p) ∧
    (∀ k, flowAt m k ≤ flowAt (flowEdgeStep pb pf i m p) k) ∧
    1 ≤ flowAt (flowEdgeStep pb pf i m p) (i, p) := by
  unfold flowEdgeStep
  by_cases hpos : (mapFind m (i, p)).getD 0 > 0
  · rw [if_pos hpos]
    exact ⟨hm, fun _ => le_refl _, hpos⟩
  · rw [if_neg hpos]
    have heq : ((mapFind pf p).getD []).foldl mapIncr
        (((mapFind pb i).getD []).foldl mapIncr (mapIncr m (i, p))) =
        ((i, p) :: ((mapFind pb i).getD [] ++ (mapFind pf p).getD [])).foldl mapIncr m := by
      simp only [List.foldl_cons, List.foldl_append]
    simp only [heq]
    refine ⟨flowOK_add_unit preds m _ t hm ⟨?_, balanced_unit _ _ i p t hb.2 hf.2⟩ ht, ?_, ?_⟩
    · intro e he
      rcases List.mem_cons.1 he with he | he
      · rw [he]; exact hp
      · rcases List.mem_append.1 he with he | he
        · exact hb.1 e he
        · exact hf.1 e he
    · intro k
      exact flowAt_foldl_mapIncr_ge _ m k
    · simp only [List.foldl_cons]
      have h1 := flowAt_foldl_mapIncr_ge ((mapFind pb i).getD [] ++ (mapFind pf p).getD [])
        (mapIncr m (i, p)) (i, p)
      rw [flowAt_mapIncr, if_pos rfl] at h1
      omega

/-- The flow that `findFeasibleFlow` computes on a skeleton: a flow table in order that gives
every skeleton edge a flow of at least one. -/
theorem findFeasibleFlow_spec (sup : List Nat) (preds : List (List Nat))
    (hsk : Skeleton sup preds) :
    FlowOK preds (findFeasibleFlow sup preds) ∧
    ∀ i p, p ∈ preds.getD i [] → 1 ≤ flowAt (findFeasibleFlow sup preds) (i, p) := by
  obtain ⟨hback, hsucc⟩ := flowBack_spec sup preds hsk
  have hfwd := flowForward_spec sup preds (flowBack sup preds).2 hsk hsucc
  have key := foldl_prefix_invariant
    (fun (doneI : List Nat) (m : FlowMap) =>
      FlowOK preds m ∧ ∀ i p, i ∈ doneI → p ∈ preds.getD i [] → 1 ≤ flowAt m (i, p))
    (fun result i => (preds.getD i []).foldl
      (flowEdgeStep (flowBack sup preds).1 (flowForward sup (flowBack sup preds).2) i) result)
    (List.range sup.length) []
    ⟨flowOK_nil preds, fun i p hi => by simp at hi⟩
    (by
      intro doneI i restI m hl ⟨hok, hdone⟩
      obtain ⟨hin, -⟩ := range_split _ _ _ _ hl
      have inner := foldl_prefix_invariant
        (fun (doneP : List Nat) (m' : FlowMap) =>
          FlowOK preds m' ∧ (∀ k, flowAt m k ≤ flowAt m' k) ∧
          ∀ p, p ∈ doneP → 1 ≤ flowAt m' (i, p))
        (flowEdgeStep (flowBack sup preds).1 (flowForward sup (flowBack sup preds).2) i)
        (preds.getD i []) m
        ⟨hok, fun _ => le_refl _, fun p hp => by simp at hp⟩
        (by
          intro doneP p restP m' hlp ⟨gok, gmono, gdone⟩
          have hp : p ∈ preds.getD i [] := by rw [hlp]; simp
          have hpn := (hsk.increasing i p hp).2
          obtain ⟨t, ht, hPt⟩ := hfwd p hpn
          obtain ⟨r1, r2, r3⟩ := flowEdgeStep_spec preds (flowBack sup preds).1
            (flowForward sup (flowBack sup preds).2) m' i p t gok hp (hback i hin) hPt ht
          refine ⟨r1, fun k => le_trans (gmono k) (r2 k), ?_⟩
          intro q hq
          rcases List.mem_append.1 hq with hq | hq
          · exact le_trans (gdone q hq) (r2 _)
          · rw [List.mem_singleton.1 hq]; exact r3)
      obtain ⟨gok, gmono, gdone⟩ := inner
      refine ⟨gok, ?_⟩
      intro j p hj hp
      rcases List.mem_append.1 hj with hj | hj
      · exact le_trans (hdone j p hj hp) (gmono _)
      · rw [List.mem_singleton.1 hj] at hp ⊢
        exact gdone p hp)
  obtain ⟨hok, hdone⟩ := key
  refine ⟨hok, ?_⟩
  intro i p hp
  have hin : i < sup.length := by
    by_contra hge
    rw [getD_eq_nil_of_length_le preds i (by rw [hsk.length_eq]; omega)] at hp
    simp at hp
  exact hdone i p (List.mem_range.2 hin) hp

/-! ### getOneFlowPath -/

theorem flowAt_of_mapFind (m : FlowMap) (k : Edge) (f : Nat) (h : mapFind m k = some f) :
    flowAt m k = f := by
  unfold flowAt; rw [h]; rfl

theorem firstFlowEdge_spec (m : FlowMap) (node : Nat) (ps : List Nat)
    (hgt : ∀ p ∈ ps, node < p) (hkeys : ∀ p ∈ ps, ∃ f, mapFind m (node, p) = some f) :
    (firstFlowEdge m node ps = some none ∧ ∀ p ∈ ps, flowAt m (node, p) = 0) ∨
    ∃ p, firstFlowEdge m node ps = some (some p) ∧ p ∈ ps ∧ 0 < flowAt m (node, p) := by
  induction ps with
  | nil => left; exact ⟨rfl, fun p hp => by simp at hp⟩
  | cons a ps ih =>
    have ha : node < a := hgt a (List.mem_cons_self _ _)
    obtain ⟨f, hf⟩ := hkeys a (List.mem_cons_self _ _)
    unfold firstFlowEdge
    rw [if_pos ha, hf]
    by_cases hpos : f > 0
    · right
      exact ⟨a, by simp [hpos], List.mem_cons_self _ _, by rw [flowAt_of_mapFind m _ f hf]; exact hpos⟩
    · simp only [hpos, if_false]
      rcases ih (fun p hp => hgt p (List.mem_cons_of_mem _ hp))
        (fun p hp => hkeys p (List.mem_cons_of_mem _ hp)) with ⟨h1, h2⟩ | ⟨p, h1, h2, h3⟩
      · left
        refine ⟨h1, ?_⟩
        intro p hp
        rcases List.mem_cons.1 hp with rfl | hp
        · rw [flowAt_of_mapFind m _ f hf]; omega
        · exact h2 p hp
      · right
        exact ⟨p, h1, List.mem_cons_of_mem _ h2, h3⟩

theorem getD_eq_of_getElem? (preds : List (List Nat)) (i : Nat) (hi : i < preds.length) :
    preds[i]? = some (preds.getD i []) := by
  simp [List.getD_eq_getElem?_getD, List.getElem?_eq_getElem hi]

/-- With enough fuel `getOneFlowPath` returns, and what it appends to `result` is a path from
`node` along edges with flow left to a position from which no edge has flow left. -/
theorem getOneFlowPath_spec (sup : List Nat) (preds : List (List Nat)) (hsk : Skeleton sup preds)
    (m : FlowMap) (hkeys : KeysAll preds m) (fuel : Nat) :
    ∀ node acc, node < sup.length → sup.length - node < fuel →
      ∃ path, getOneFlowPath preds m fuel node acc = some (acc ++ path) ∧
        path.head? = some node ∧ FlowChain preds m path := by
  induction fuel with
  | zero => intro node acc _ h; omega
  | succ fuel ih =>
    intro node acc hnode hfuel
    have hlen : node < preds.length := by rw [hsk.length_eq]; exact hnode
    unfold getOneFlowPath
    rw [getD_eq_of_getElem? preds node hlen]
    simp only []
    rcases firstFlowEdge_spec m node (preds.getD node [])
      (fun p hp => (hsk.increasing node p hp).1) (fun p hp => hkeys node p hp) with
      ⟨h1, h2⟩ | ⟨p, h1, h2, h3⟩
    · rw [h1]
      exact ⟨[node], rfl, rfl, ⟨hlen, h2⟩⟩
    · rw [h1]
      have hp := hsk.increasing node p h2
      obtain ⟨path, e1, e2, e3⟩ := ih p (acc ++ [node]) hp.2 (by omega)
      refine ⟨node :: path, ?_, rfl, ?_⟩
      · simp only []
        rw [e1]; simp
      · cases path with
        | nil => simp at e2
        | cons b rest =>
          simp only [List.head?_cons, Option.some.injEq] at e2
          subst e2
          exact ⟨h2, h3, e3⟩

/-! ### Paths and their edges -/

theorem flowChain_props (sup : List Nat) (preds : List (List Nat)) (hsk : Skeleton sup preds)
    (m : FlowMap) : ∀ path, FlowChain preds m path →
      path.Chain' (· < ·) ∧ (∀ p ∈ path, p < sup.length) ∧
      (∀ e ∈ edgesOf path, e.2 ∈ preds.getD e.1 [] ∧ 0 < flowAt m e) := by
  intro path
  induction path with
  | nil => intro h; exact absurd h (by simp [FlowChain])
  | cons a rest ih =>
    cases rest with
    | nil =>
      intro h
      simp only [FlowChain] at h
      refine ⟨by simp, ?_, by simp [edgesOf]⟩
      intro p hp
      rw [List.mem_singleton.1 hp, ← hsk.length_eq]; exact h.1
    | cons b rest =>
      intro h
      simp only [FlowChain] at h
      obtain ⟨h1, h2, h3⟩ := h
      obtain ⟨i1, i2, i3⟩ := ih h3
      have hab := hsk.increasing a b h1
      refine ⟨List.chain'_cons.2 ⟨hab.1, i1⟩, ?_, ?_⟩
      · intro p hp
        rcases List.mem_cons.1 hp with rfl | hp
        · omega
        · exact i2 p hp
      · intro e he
        simp only [edgesOf, List.mem_cons] at he
        rcases he with rfl | he
        · exact ⟨h1, h2⟩
        · exact i3 e he

theorem edgesOf_ge (path : List Nat) : ∀ a, (a :: path).Chain' (· < ·) →
    ∀ e ∈ edgesOf (a :: path), a ≤ e.1 := by
  induction path with
  | nil => intro a _ e he; simp [edgesOf] at he
  | cons b rest ih =>
    intro a hc e he
    obtain ⟨hab, hc'⟩ := List.chain'_cons.1 hc
    simp only [edgesOf, List.mem_cons] at he
    rcases he with rfl | he
    · exact le_refl _
    · have := ih b hc' e he
      omega

theorem length_edgesOf (path : List Nat) : (edgesOf path).length = path.length - 1 := by
  induction path with
  | nil => rfl
  | cons a rest ih =>
    cases rest with
    | nil => rfl
    | cons b rest =>
      simp only [edgesOf, List.length_cons] at ih ⊢
      omega

theorem balanced_cons (es : List Edge) (a b t : Nat) (h : Balanced es b t) :
    Balanced ((a, b) :: es) a t := by
  intro v
  have := h v
  simp only [List.countP_cons, beq_iff_eq] at this ⊢
  split_ifs at this ⊢ <;> omega

theorem balanced_edgesOf (path : List Nat) : ∀ a, ∃ t, (a :: path).getLast? = some t ∧
    Balanced (edgesOf (a :: path)) a t := by
  induction path with
  | nil => intro a; exact ⟨a, rfl, balanced_nil a⟩
  | cons b rest ih =>
    intro a
    obtain ⟨t, h1, h2⟩ := ih b
    refine ⟨t, ?_, ?_⟩
    · rw [List.getLast?_cons_cons]; exact h1
    · simp only [edgesOf]
      exact balanced_cons _ a b t h2

/-! ### consumePath -/

theorem consumePath_spec (path : List Nat) : ∀ (m : FlowMap), path.Chain' (· < ·) →
    (∀ e ∈ edgesOf path, 1 ≤ flowAt m e) →
    ∃ m', consumePath m path = some m' ∧ m'.map Prod.fst = m.map Prod.fst ∧
      (∀ pred, flowSum pred m' + (edgesOf path).countP pred = flowSum pred m) ∧
      (∀ k, flowAt m' k + (edgesOf path).count k = flowAt m k) := by
  induction path with
  | nil => intro m _ _; exact ⟨m, rfl, rfl, by simp [edgesOf], by simp [edgesOf]⟩
  | cons a rest ih =>
    cases rest with
    | nil => intro m _ _; exact ⟨m, rfl, rfl, by simp [edgesOf], by simp [edgesOf]⟩
    | cons b rest =>
      intro m hc hflow
      obtain ⟨hab, hc'⟩ := List.chain'_cons.1 hc
      have hf : 1 ≤ flowAt m (a, b) := hflow (a, b) (by simp [edgesOf])
      have hkey : (a, b) ∈ m.map Prod.fst := by
        rw [← mapFind_isSome_iff]
        cases hfind : mapFind m (a, b) with
        | none => unfold flowAt at hf; rw [hfind] at hf; simp at hf
        | some f => exact ⟨f, rfl⟩
      have hat : ∀ k, flowAt (mapSet m (a, b) (flowAt m (a, b) - 1)) k =
          if (a, b) = k then flowAt m (a, b) - 1 else flowAt m k := by
        intro k
        unfold flowAt
        rw [mapFind_mapSet]
        split <;> rfl
      obtain ⟨m', e1, e2, e3, e4⟩ := ih (mapSet m (a, b) (flowAt m (a, b) - 1)) hc' (by
        intro e he
        have hge := edgesOf_ge rest b hc' e he
        have hne : ¬ (a, b) = e := by
          intro h; rw [← h] at hge; simp at hge; omega
        rw [hat, if_neg hne]
        exact hflow e (by simp only [edgesOf, List.mem_cons]; exact Or.inr he))
      refine ⟨m', ?_, ?_, ?_, ?_⟩
      · unfold consumePath mapDecr
        have : (mapFind m (a, b)).getD 0 ≥ 1 := hf
        rw [if_pos this]
        exact e1
      · rw [e2, mapSet_keys, if_pos hkey]
      · intro pred
        have h1 := e3 pred
        have h2 := flowSum_mapSet pred m (a, b) (flowAt m (a, b) - 1)
        simp only [edgesOf, List.countP_cons]
        split_ifs at h2 ⊢ <;> omega
      · intro k
        have h1 := e4 k
        rw [hat] at h1
        simp only [edgesOf, List.count_cons]
        by_cases hk : (a, b) = k
        · subst hk
          simp only [if_true, beq_self_eq_true] at h1 ⊢
          omega
        · have hk' : ((a, b) == k) = false := by simpa using hk
          rw [if_neg hk] at h1
          simp only [hk']
          simpa using h1

/-! ### Sums over flow tables -/

theorem flowSum_ge_of_mem (pred : Edge → Bool) (m : FlowMap) (e : Edge × Nat) (he : e ∈ m)
    (hp : pred e.1 = true) : e.2 ≤ flowSum pred m := by
  induction m with
  | nil => simp at he
  | cons a m ih =>
    rw [flowSum_cons]
    rcases List.mem_cons.1 he with rfl | he
    · rw [if_pos hp]; omega
    · have := ih he; omega

theorem flowSum_eq_zero_iff (pred : Edge → Bool) (m : FlowMap) :
    flowSum pred m = 0 ↔ ∀ e ∈ m, pred e.1 = true → e.2 = 0 := by
  induction m with
  | nil => simp [flowSum_nil]
  | cons a m ih =>
    rw [flowSum_cons]
    constructor
    · intro h e he hp
      rcases List.mem_cons.1 he with rfl | he
      · rw [if_pos hp] at h; omega
      · exact ih.1 (by omega) e he hp
    · intro h
      have h1 := ih.2 (fun e he hp => h e (List.mem_cons_of_mem _ he) hp)
      by_cases hp : pred a.1 = true
      · rw [if_pos hp, h a (List.mem_cons_self _ _) hp, h1]
      · rw [if_neg hp, h1]

theorem totalFlow_eq_flowSum (m : FlowMap) : totalFlow m = flowSum (fun _ => true) m := by
  unfold totalFlow flowSum
  simp

theorem mem_of_flowAt_pos (m : FlowMap) (hnd : (m.map Prod.fst).Nodup) (k : Edge)
    (h : 0 < flowAt m k) : (k, flowAt m k) ∈ m := by
  rw [mem_iff_mapFind m hnd]
  cases hfind : mapFind m k with
  | none => unfold flowAt at h; rw [hfind] at h; simp at h
  | some f => rw [flowAt_of_mapFind m k f hfind]

theorem flowAt_of_mem (m : FlowMap) (hnd : (m.map Prod.fst).Nodup) (e : Edge × Nat) (he : e ∈ m) :
    flowAt m e.1 = e.2 :=
  flowAt_of_mapFind m e.1 e.2 ((mem_iff_mapFind m hnd e.1 e.2).1 he)

/-! ### One iteration of the loop of `findFlowPaths` -/

/-- A path along edges with flow left, out of position 0 and with at least one edge, ends at a
position without successors when flow is conserved. -/
theorem flowChain_ends_at_sink (sup : List Nat) (preds : List (List Nat))
    (hsk : Skeleton sup preds) (m : FlowMap) (hm : FlowOK preds m) :
    ∀ path a, FlowChain preds m (a :: path) → ∀ t, (a :: path).getLast? = some t →
      (path ≠ [] ∨ (0 < a ∧ 0 < inflow m a)) → preds.getD t [] = [] := by
  intro path
  induction path with
  | nil =>
    intro a hc t ht hcase
    simp only [List.getLast?_singleton, Option.some.injEq] at ht
    subst ht
    rcases hcase with h | ⟨ha, hin⟩
    · exact absurd rfl h
    · by_contra hne
      have hcons := hm.conserve a ha hne
      have hout : outflow m a = 0 := by
        unfold outflow
        rw [flowSum_eq_zero_iff]
        intro e he hp
        have hp' : e.1.1 = a := by simpa using hp
        have hedge := hm.keys_edges e he
        rw [hp'] at hedge
        have := hc.2 e.1.2 hedge
        rw [← hp', Prod.mk.eta, flowAt_of_mem m hm.keys_nodup e he] at this
        exact this
      omega
  | cons b rest ih =>
    intro a hc t ht _
    simp only [FlowChain] at hc
    obtain ⟨h1, h2, h3⟩ := hc
    rw [List.getLast?_cons_cons] at ht
    apply ih b h3 t ht
    right
    have hab := hsk.increasing a b h1
    refine ⟨by omega, ?_⟩
    have hmem := mem_of_flowAt_pos m hm.keys_nodup (a, b) h2
    have := flowSum_ge_of_mem (fun e => e.2 == b) m _ hmem (by simp)
    unfold inflow
    simp only at this
    omega

theorem flowOK_consume (sup : List Nat) (preds : List (List Nat)) (hsk : Skeleton sup preds)
    (m m' : FlowMap) (hm : FlowOK preds m) (path : List Nat)
    (hc : FlowChain preds m (0 :: path)) (hne : path ≠ [])
    (hkeys : m'.map Prod.fst = m.map Prod.fst)
    (hsum : ∀ pred, flowSum pred m' + (edgesOf (0 :: path)).countP pred = flowSum pred m) :
    FlowOK preds m' := by
  obtain ⟨t, ht, hbal⟩ := balanced_edgesOf path 0
  have hsink := flowChain_ends_at_sink sup preds hsk m hm path 0 hc t ht (Or.inl hne)
  constructor
  · rw [hkeys]; exact hm.keys_nodup
  · intro e he
    have : e.1 ∈ m.map Prod.fst := by rw [← hkeys]; exact List.mem_map_of_mem Prod.fst he
    obtain ⟨e', he', heq⟩ := List.mem_map.1 this
    rw [← heq]; exact hm.keys_edges e' he'
  · intro v hv hint
    have hvt : v ≠ t := fun h => hint (h ▸ hsink)
    have hb := hbal v
    rw [if_neg (by omega), if_neg hvt] at hb
    have h1 := hsum (fun e => e.2 == v)
    have h2 := hsum (fun e => e.1 == v)
    have := hm.conserve v hv hint
    unfold inflow outflow at this ⊢
    omega

/-- Conserved flow that leaves position 0 on no edge is zero everywhere. -/
theorem flow_all_zero (sup : List Nat) (preds : List (List Nat)) (hsk : Skeleton sup preds)
    (m : FlowMap) (hm : FlowOK preds m) (h0 : ∀ p ∈ preds.getD 0 [], flowAt m (0, p) = 0) :
    ∀ e ∈ m, e.2 = 0 := by
  have key : ∀ u, ∀ e ∈ m, e.1.1 = u → e.2 = 0 := by
    intro u
    induction u using Nat.strong_induction_on with
    | _ u ih =>
      intro e he hu
      have hedge := hm.keys_edges e he
      by_cases hu0 : u = 0
      · rw [hu, hu0] at hedge
        have := h0 e.1.2 hedge
        have hk : (0, e.1.2) = e.1 := Prod.ext (by rw [hu, hu0]) rfl
        rw [hk, flowAt_of_mem m hm.keys_nodup e he] at this
        exact this
      · have hint : preds.getD u [] ≠ [] := by
          rw [← hu]; exact List.ne_nil_of_mem hedge
        have hin : inflow m u = 0 := by
          unfold inflow
          rw [flowSum_eq_zero_iff]
          intro e' he' hp
          have hp' : e'.1.2 = u := by simpa using hp
          have hedge' := hm.keys_edges e' he'
          have := (hsk.increasing _ _ hedge').1
          exact ih e'.1.1 (by omega) e' he' rfl
        have hout := hm.conserve u (by omega) hint
        rw [hin] at hout
        unfold outflow at hout
        exact (flowSum_eq_zero_iff _ m).1 hout.symm e he (by simpa using hu)
  intro e he
  exact key e.1.1 e he rfl

theorem lookupAll_eq (sup : List Nat) (path : List Nat) (h : ∀ p ∈ path, p < sup.length) :
    lookupAll sup path = some (path.map fun p => sup.getD p 0) := by
  induction path with
  | nil => rfl
  | cons a rest ih =>
    have ha : a < sup.length := h a (List.mem_cons_self _ _)
    unfold lookupAll
    rw [List.getElem?_eq_getElem ha, ih (fun p hp => h p (List.mem_cons_of_mem _ hp))]
    simp [List.getD_eq_getElem?_getD, List.getElem?_eq_getElem ha]

theorem keysAll_of_keys_eq (preds : List (List Nat)) (m m' : FlowMap)
    (hkeys : m'.map Prod.fst = m.map Prod.fst) (h : KeysAll preds m) : KeysAll preds m' := by
  intro i p hp
  rw [mapFind_isSome_iff, hkeys, ← mapFind_isSome_iff]
  exact h i p hp

/-! ### The loop of `findFlowPaths` -/

/-- With more fuel than there is flow, the loop of `findFlowPaths` leaves through its `break`:
it has then extracted good paths that account for all the flow it removed, and no flow leaves
position 0 any more. -/
theorem findFlowPathsLoop_spec (sup : List Nat) (preds : List (List Nat))
    (hsk : Skeleton sup preds) (fuel : Nat) :
    ∀ st : FlowPaths, FlowOK preds st.flows → KeysAll preds st.flows →
      totalFlow st.flows < fuel →
      ∃ newPaths mf, findFlowPathsLoop sup preds fuel st =
          some { paths := st.paths ++ newPaths
                 result := st.result ++ newPaths.map (fun path => path.map fun p => sup.getD p 0)
                 flows := mf } ∧
        FlowOK preds mf ∧
        (∀ p ∈ preds.getD 0 [], flowAt mf (0, p) = 0) ∧
        (∀ path ∈ newPaths, GoodPath sup preds path) ∧
        (∀ k, flowAt st.flows k =
          flowAt mf k + (newPaths.map fun path => (edgesOf path).count k).sum) ∧
        ((∃ p ∈ preds.getD 0 [], 0 < flowAt st.flows (0, p)) → newPaths ≠ []) := by
  induction fuel with
  | zero => intro st _ _ h; omega
  | succ fuel ih =>
    intro st hok hkeys hfuel
    obtain ⟨path, hp1, hp2, hp3⟩ := getOneFlowPath_spec sup preds hsk st.flows hkeys
      (preds.length + 1) 0 [] hsk.nonempty (by rw [hsk.length_eq]; omega)
    simp only [List.nil_append] at hp1
    obtain ⟨hchain, hrange, hedges⟩ := flowChain_props sup preds hsk st.flows path hp3
    unfold findFlowPathsLoop
    rw [hp1]
    simp only []
    cases path with
    | nil => simp at hp2
    | cons a rest =>
      simp only [List.head?_cons, Option.some.injEq] at hp2
      subst hp2
      cases rest with
      | nil =>
        -- the loop is left
        refine ⟨[], st.flows, ?_, hok, ?_, ?_, ?_, ?_⟩
        · simp
        · exact hp3.2
        · intro p hp; simp at hp
        · intro k; simp
        · rintro ⟨p, hp, hpos⟩
          have := hp3.2 p hp
          omega
      | cons b rest =>
        have hflow : ∀ e ∈ edgesOf (0 :: b :: rest), 1 ≤ flowAt st.flows e :=
          fun e he => (hedges e he).2
        obtain ⟨m', c1, c2, c3, c4⟩ := consumePath_spec (0 :: b :: rest) st.flows hchain hflow
        have hok' : FlowOK preds m' :=
          flowOK_consume sup preds hsk st.flows m' hok (b :: rest) hp3 (by simp) c2 c3
        have hkeys' : KeysAll preds m' := keysAll_of_keys_eq preds st.flows m' c2 hkeys
        have htot : totalFlow m' < fuel := by
          have := c3 (fun _ => true)
          rw [← totalFlow_eq_flowSum, ← totalFlow_eq_flowSum] at this
          have hl : (edgesOf (0 :: b :: rest)).countP (fun _ => true) = rest.length + 1 := by
            rw [List.countP_true, length_edgesOf]; simp
          omega
        obtain ⟨newPaths, mf, r1, r2, r3, r4, r5, -⟩ :=
          ih { paths := st.paths ++ [0 :: b :: rest]
               result := st.result ++ [(0 :: b :: rest).map fun p => sup.getD p 0]
               flows := m' } hok' hkeys' htot
        refine ⟨(0 :: b :: rest) :: newPaths, mf, ?_, r2, r3, ?_, ?_, ?_⟩
        · have hl0 : ¬ (0 :: b :: rest).length = 0 := by simp
          have hl1 : ¬ (0 :: b :: rest).length = 1 := by simp
          rw [if_neg hl0, if_neg hl1, c1, lookupAll_eq sup _ hrange]
          simp only []
          rw [r1]
          simp
        · intro q hq
          rcases List.mem_cons.1 hq with rfl | hq
          · exact ⟨rfl, by simp, hrange, fun e he => (hedges e he).1⟩
          · exact r4 q hq
        · intro k
          have h1 := r5 k
          have h2 := c4 k
          simp only at h1
          simp only [List.map_cons, List.sum_cons]
          omega
        · intro _; simp

theorem flowAt_eq_zero_of_all_zero (m : FlowMap) (h : ∀ e ∈ m, e.2 = 0) (k : Edge) :
    flowAt m k = 0 := by
  induction m with
  | nil => rfl
  | cons a m ih =>
    rw [flowAt_cons]
    split
    · exact h a (List.mem_cons_self _ _)
    · exact ih (fun e he => h e (List.mem_cons_of_mem _ he))

/-- On a skeleton with more than one position and a flow table in order that gives every edge
flow, `findFlowPaths` returns: its paths are good, it returns their node identifiers, and every
edge lies on exactly as many paths as it had flow. -/
theorem findFlowPaths_spec (sup : List Nat) (preds : List (List Nat)) (hsk : Skeleton sup preds)
    (hn : 2 ≤ sup.length) (m : FlowMap) (hm : FlowOK preds m)
    (hpos : ∀ i p, p ∈ preds.getD i [] → 1 ≤ flowAt m (i, p)) :
    ∃ paths mf, findFlowPaths sup preds m =
        some { paths := paths
               result := paths.map (fun path => path.map fun p => sup.getD p 0)
               flows := mf } ∧
      paths ≠ [] ∧ (∀ path ∈ paths, GoodPath sup preds path) ∧ (∀ e ∈ mf, e.2 = 0) ∧
      ∀ k, flowAt m k = (paths.map fun path => (edgesOf path).count k).sum := by
  have hkeys : KeysAll preds m := by
    intro i p hp
    have := hpos i p hp
    cases hfind : mapFind m (i, p) with
    | none => unfold flowAt at this; rw [hfind] at this; simp at this
    | some f => exact ⟨f, rfl⟩
  obtain ⟨newPaths, mf, r1, r2, r3, r4, r5, r6⟩ :=
    findFlowPathsLoop_spec sup preds hsk (totalFlow m + 1)
      { paths := [], result := [], flows := m } hm hkeys (by simp)
  have hzero := flow_all_zero sup preds hsk mf r2 r3
  have hne : newPaths ≠ [] := by
    apply r6
    obtain ⟨i, hi⟩ := hsk.reached 1 (by omega) (by omega)
    have hi0 : i = 0 := by have := (hsk.increasing i 1 hi).1; omega
    subst hi0
    exact ⟨1, hi, hpos 0 1 hi⟩
  refine ⟨newPaths, mf, ?_, hne, r4, hzero, ?_⟩
  · unfold findFlowPaths
    have h0 : ¬ sup.length = 0 := by omega
    have h1 : ¬ sup.length = 1 := by omega
    rw [if_neg h0, if_neg h1, r1]
    simp only [List.nil_append]
    have hl : ¬ (newPaths.map fun path => path.map fun p => sup.getD p 0).length = 0 := by
      simp [hne]
    rw [if_neg hl, if_pos]
    rw [List.all_eq_true]
    intro e he
    simpa using hzero e he
  · intro k
    have := r5 k
    simp only at this
    rw [this, flowAt_eq_zero_of_all_zero mf hzero k]
    simp

theorem mem_edgesOf (path : List Nat) (i j : Nat) (h : (i, j) ∈ edgesOf path) :
    ∃ pre post, path = pre ++ i :: j :: post := by
  induction path with
  | nil => simp [edgesOf] at h
  | cons a rest ih =>
    cases rest with
    | nil => simp [edgesOf] at h
    | cons b rest =>
      simp only [edgesOf, List.mem_cons, Prod.mk.injEq] at h
      rcases h with ⟨rfl, rfl⟩ | h
      · exact ⟨[], rest, rfl⟩
      · obtain ⟨pre, post, hp⟩ := ih h
        exact ⟨a :: pre, post, by rw [hp]; rfl⟩

theorem skeleton_single (sup : List Nat) (preds : List (List Nat)) (hsk : Skeleton sup preds)
    (h1 : sup.length = 1) : ∀ i p, ¬ p ∈ preds.getD i [] := by
  intro i p hp
  have := hsk.increasing i p hp
  omega

/-- C1: for every graph with spans of at least 1, every `cycleStart` and every horizon
`H >= 1`, `getCycleCuttersOrder` returns a skeleton, `findFlowPaths` returns on the flow of
`findFeasibleFlow`, and every skeleton edge `i -> j` occurs in one of the index paths that
`findFlowPaths` extracted, as `i` immediately followed by `j`. -/
theorem flow_paths_cover_every_skeleton_edge (g : AlignmentGraph)
    (hspan : ∀ v, 1 ≤ g.nodeEnd v - g.nodeStart v) (cycleStart H : Nat) (hH : 1 ≤ H) :
    ∃ sup preds fp, getCycleCuttersOrder g cycleStart H [] = some (sup, preds) ∧
      findFlowPaths sup preds (findFeasibleFlow sup preds) = some fp ∧
      ∀ i j, j ∈ preds.getD i [] →
        ∃ path ∈ fp.paths, ∃ pre post, path = pre ++ i :: j :: post := by
  obtain ⟨sup, preds, h1, hsk, -, -⟩ := getCycleCuttersOrder_spec g hspan cycleStart H hH
  obtain ⟨hok, hpos⟩ := findFeasibleFlow_spec sup preds hsk
  by_cases hn : 2 ≤ sup.length
  · obtain ⟨paths, mf, e1, e2, e3, e4, e5⟩ :=
      findFlowPaths_spec sup preds hsk hn _ hok hpos
    refine ⟨sup, preds, _, h1, e1, ?_⟩
    intro i j hij
    have hsum := e5 (i, j)
    have hge := hpos i j hij
    rw [hsum] at hge
    have : ∃ path ∈ paths, 0 < (edgesOf path).count (i, j) := by
      by_contra hcon
      have hall : ∀ x ∈ paths.map (fun path => (edgesOf path).count (i, j)), x = 0 := by
        intro x hx
        obtain ⟨path, hp, rfl⟩ := List.mem_map.1 hx
        by_contra hx0
        exact hcon ⟨path, hp, by omega⟩
      rw [List.sum_eq_zero hall] at hge
      omega
    obtain ⟨path, hp, hcount⟩ := this
    exact ⟨path, hp, mem_edgesOf path i j (List.count_pos_iff.1 hcount)⟩
  · have hlen : sup.length = 1 := by have := hsk.nonempty; omega
    refine ⟨sup, preds, { paths := [], result := [[0]], flows := findFeasibleFlow sup preds },
      h1, ?_, ?_⟩
    · unfold findFlowPaths
      rw [if_neg (by omega), if_pos hlen]
    · intro i j hij
      exact absurd hij (skeleton_single sup preds hsk hlen i j)

/-- C1 on the three-node cycle, from node 0 with horizon 4. -/
theorem flow_paths_cover_every_skeleton_edge_witness :
    (∀ v, 1 ≤ cycleGraph.nodeEnd v - cycleGraph.nodeStart v) ∧ 1 ≤ 4 ∧
    ∃ sup preds fp, getCycleCuttersOrder cycleGraph 0 4 [] = some (sup, preds) ∧
      findFlowPaths sup preds (findFeasibleFlow sup preds) = some fp ∧
      ∀ i j, j ∈ preds.getD i [] →
        ∃ path ∈ fp.paths, ∃ pre post, path = pre ++ i :: j :: post :=
  ⟨fun _ => Nat.le_refl 1, by decide,
    flow_paths_cover_every_skeleton_edge cycleGraph (fun _ => Nat.le_refl 1) 0 4 (by decide)⟩

/-! ### iterateOverEdgeCoveringPaths -/

theorem startFlowPositive_of_pos (sup : List Nat) (preds : List (List Nat)) (m : FlowMap)
    (hpos : ∀ i p, p ∈ preds.getD i [] → 1 ≤ flowAt m (i, p)) :
    startFlowPositive sup preds m = true := by
  unfold startFlowPositive
  rw [List.all_eq_true]
  intro i _
  rw [List.all_eq_true]
  intro p hp
  exact decide_eq_true (hpos i p hp)

/-- The walks that `iterateOverEdgeCoveringPaths` hands to its callback: the single walk `[0]`
when the skeleton has one position, and otherwise the node identifiers along the good paths that
`findFlowPaths` extracts. -/
theorem iterate_spec (g : AlignmentGraph) (hspan : ∀ v, 1 ≤ g.nodeEnd v - g.nodeStart v)
    (s H : Nat) (hH : 1 ≤ H) :
    ∃ sup preds, getCycleCuttersOrder g s H [] = some (sup, preds) ∧ Skeleton sup preds ∧
      sup.head? = some s ∧
      ((sup.length = 1 ∧ iterateOverEdgeCoveringPaths g s H = some [[0]]) ∨
       (2 ≤ sup.length ∧ ∃ paths, paths ≠ [] ∧ (∀ path ∈ paths, GoodPath sup preds path) ∧
          (findFlowPaths sup preds (findFeasibleFlow sup preds)).map FlowPaths.paths = some paths ∧
          iterateOverEdgeCoveringPaths g s H =
            some (paths.map fun path => path.map fun p => sup.getD p 0))) := by
  obtain ⟨sup, preds, h1, hsk, hhead, -⟩ := getCycleCuttersOrder_spec g hspan s H hH
  obtain ⟨hok, hpos⟩ := findFeasibleFlow_spec sup preds hsk
  have hsfp := startFlowPositive_of_pos sup preds _ hpos
  refine ⟨sup, preds, h1, hsk, hhead, ?_⟩
  by_cases hn : 2 ≤ sup.length
  · right
    obtain ⟨paths, mf, e1, e2, e3, -, -⟩ := findFlowPaths_spec sup preds hsk hn _ hok hpos
    refine ⟨hn, paths, e2, e3, by rw [e1]; rfl, ?_⟩
    unfold iterateOverEdgeCoveringPaths
    rw [h1]
    simp only [e1, hsfp, if_true, Option.map_some']
  · left
    have hlen : sup.length = 1 := by have := hsk.nonempty; omega
    refine ⟨hlen, ?_⟩
    have hf : findFlowPaths sup preds (findFeasibleFlow sup preds) =
        some { paths := [], result := [[0]], flows := findFeasibleFlow sup preds } := by
      unfold findFlowPaths
      rw [if_neg (by omega), if_pos hlen]
    unfold iterateOverEdgeCoveringPaths
    rw [h1]
    simp only [hf, hsfp, if_true, Option.map_some']

/-- The walks of `iterateOverEdgeCoveringPaths` are not empty and begin with the same node
identifier. -/
theorem iterate_walks (g : AlignmentGraph) (hspan : ∀ v, 1 ≤ g.nodeEnd v - g.nodeStart v)
    (s H : Nat) (hH : 1 ≤ H) :
    ∃ walks h, iterateOverEdgeCoveringPaths g s H = some walks ∧ walks ≠ [] ∧
      ∀ w ∈ walks, w.head? = some h := by
  obtain ⟨sup, preds, -, hsk, hhead, hcase⟩ := iterate_spec g hspan s H hH
  rcases hcase with ⟨-, hit⟩ | ⟨-, paths, hne, hgood, -, hit⟩
  · exact ⟨[[0]], 0, hit, by simp, fun w hw => by rw [List.mem_singleton.1 hw]; rfl⟩
  · refine ⟨_, sup.getD 0 0, hit, by simpa using hne, ?_⟩
    intro w hw
    obtain ⟨path, hp, rfl⟩ := List.mem_map.1 hw
    obtain ⟨h1, -⟩ := hgood path hp
    cases path with
    | nil => simp at h1
    | cons a rest =>
      simp only [List.head?_cons, Option.some.injEq] at h1
      subst h1
      rfl

/-! ### getCycleCuttersSupersequence -/

theorem merge_fold_spec (h : Nat) (walks : List (List Nat)) :
    ∀ S : List Nat, S.head? = some h → (∀ w ∈ walks, w.head? = some h) →
      ∃ R, walks.foldlM supersequenceStep S = some R ∧ S <+ R ∧ R.head? = some h ∧
        ∀ w ∈ walks, w <+ R := by
  induction walks with
  | nil => intro S hS _; exact ⟨S, rfl, List.Sublist.refl _, hS, fun w hw => by simp at hw⟩
  | cons w walks ih =>
    intro S hS hw
    have hSne : S ≠ [] := by rintro rfl; simp at hS
    have hwh := hw w (List.mem_cons_self _ _)
    have hwne : w ≠ [] := by rintro rfl; simp at hwh
    obtain ⟨R1, e1, e2, e3, e4, -⟩ := pairwise_spec S w hSne hwne (by rw [hS, hwh])
    obtain ⟨R, f1, f2, f3, f4⟩ := ih R1 (by rw [e4, hS])
      (fun w' hw' => hw w' (List.mem_cons_of_mem _ hw'))
    refine ⟨R, ?_, e2.trans f2, f3, ?_⟩
    · rw [List.foldlM_cons]
      have : supersequenceStep S w = some R1 := by
        unfold supersequenceStep
        rw [if_neg (by simpa using hSne)]
        exact e1
      rw [this]
      exact f1
    · intro w' hw'
      rcases List.mem_cons.1 hw' with rfl | hw'
      · exact e3.trans f2
      · exact f4 w' hw'

/-- The merged supersequence: it is returned, begins like the walks and contains each of them
as a subsequence. -/
theorem supersequence_spec (g : AlignmentGraph) (hspan : ∀ v, 1 ≤ g.nodeEnd v - g.nodeStart v)
    (s H : Nat) (hH : 1 ≤ H) :
    ∃ walks h S, iterateOverEdgeCoveringPaths g s H = some walks ∧ walks ≠ [] ∧
      (∀ w ∈ walks, w.head? = some h) ∧
      getCycleCuttersSupersequence g s H = some S ∧ S.head? = some h ∧ ∀ w ∈ walks, w <+ S := by
  obtain ⟨walks, h, e1, e2, e3⟩ := iterate_walks g hspan s H hH
  cases walks with
  | nil => exact absurd rfl e2
  | cons w walks =>
    have hwh := e3 w (List.mem_cons_self _ _)
    have hwne : w ≠ [] := by rintro rfl; simp at hwh
    obtain ⟨R, f1, f2, f3, f4⟩ := merge_fold_spec h walks w hwh
      (fun w' hw' => e3 w' (List.mem_cons_of_mem _ hw'))
    refine ⟨w :: walks, h, R, e1, e2, e3, ?_, f3, ?_⟩
    · unfold getCycleCuttersSupersequence
      rw [e1]
      simp only [Option.bind_eq_bind, Option.some_bind, List.foldlM_cons]
      have : supersequenceStep [] w = some w := by
        unfold supersequenceStep
        have : 0 < w.length := List.length_pos.2 hwne
        simp [this]
      rw [this]
      exact f1
    · intro w' hw'
      rcases List.mem_cons.1 hw' with rfl | hw'
      · exact f2
      · exact f4 w' hw'

/-- C2: for every graph with spans of at least 1, every `cycleStart` and every horizon
`H >= 1`, `iterateOverEdgeCoveringPaths` and `getCycleCuttersSupersequence` return, and every
enumerated walk is a subsequence of the sequence `getCycleCuttersSupersequence` returns. -/
theorem walks_are_subsequences_of_supersequence (g : AlignmentGraph)
    (hspan : ∀ v, 1 ≤ g.nodeEnd v - g.nodeStart v) (cycleStart H : Nat) (hH : 1 ≤ H) :
    ∃ walks S, iterateOverEdgeCoveringPaths g cycleStart H = some walks ∧
      getCycleCuttersSupersequence g cycleStart H = some S ∧
      ∀ w ∈ walks, List.Sublist w S := by
  obtain ⟨walks, h, S, e1, -, -, e4, -, e6⟩ := supersequence_spec g hspan cycleStart H hH
  exact ⟨walks, S, e1, e4, e6⟩

/-- C2 on the three-node cycle, from node 0 with horizon 4. -/
theorem walks_are_subsequences_of_supersequence_witness :
    (∀ v, 1 ≤ cycleGraph.nodeEnd v - cycleGraph.nodeStart v) ∧ 1 ≤ 4 ∧
    ∃ walks S, iterateOverEdgeCoveringPaths cycleGraph 0 4 = some walks ∧
      getCycleCuttersSupersequence cycleGraph 0 4 = some S ∧
      ∀ w ∈ walks, List.Sublist w S :=
  ⟨fun _ => Nat.le_refl 1, by decide,
    walks_are_subsequences_of_supersequence cycleGraph (fun _ => Nat.le_refl 1) 0 4 (by decide)⟩

/-! ### The re-derivation of the relation -/

/-- The `while` loop of the re-derivation finds the first occurrence of `x` when the rest of
the walk still fits into the rest of the supersequence, and the rest of the walk then fits
behind that occurrence. -/
theorem advance_spec (x : Nat) (rest : List Nat) (L : List Nat) :
    ∀ pos, (x :: rest) <+ L →
      ∃ k, advance x L pos = some (pos + k) ∧ L[k]? = some x ∧ rest <+ L.drop (k + 1) ∧
        ∀ k', k' < k → L[k']? ≠ some x := by
  induction L with
  | nil => intro pos h; simp at h
  | cons y L ih =>
    intro pos h
    unfold advance
    by_cases hyx : y = x
    · subst hyx
      refine ⟨0, by simp, by simp, ?_, fun k' hk' => by omega⟩
      rcases cons_sublist_cons_cases h with h' | ⟨-, h'⟩
      · simpa using (List.sublist_cons_self y rest).trans h'
      · simpa using h'
    · rw [if_pos hyx]
      have h' : (x :: rest) <+ L := by
        rcases cons_sublist_cons_cases h with h' | ⟨h', -⟩
        · exact h'
        · exact absurd h'.symm hyx
      obtain ⟨k, e1, e2, e3, e4⟩ := ih (pos + 1) h'
      refine ⟨k + 1, ?_, by simpa using e2, by simpa using e3, ?_⟩
      · rw [e1]; congr 1; omega
      · intro k' hk'
        cases k' with
        | zero => simp [hyx]
        | succ k' => simpa using e4 k' (by omega)

theorem isTarget_insertAt (R : List (List Nat)) (a b : Nat) (ha : a < R.length) :
    IsTarget (insertAt R a b) b :=
  mem_getD_imp_isTarget _ a b ((mem_insertAt R a b a b).2 (Or.inr ⟨rfl, ha, rfl⟩))

theorem isTarget_mono (R R' : List (List Nat)) (h : ∀ q p, p ∈ R.getD q [] → p ∈ R'.getD q [])
    (p : Nat) (hp : IsTarget R p) : IsTarget R' p := by
  obtain ⟨q, -, hq⟩ := (isTarget_iff_getD R p).1 hp
  exact mem_getD_imp_isTarget R' q p (h q p hq)

theorem relInv_insert (S : List Nat) (R : List (List Nat)) (hR : RelInv S R) (a b : Nat)
    (hab : a < b) (hb : b < S.length) (ha : a = 0 ∨ IsTarget R a) :
    RelInv S (insertAt R a b) ∧ ∀ q p, p ∈ R.getD q [] → p ∈ (insertAt R a b).getD q [] := by
  have hmono : ∀ q p, p ∈ R.getD q [] → p ∈ (insertAt R a b).getD q [] :=
    fun q p hp => (mem_insertAt R a b q p).2 (Or.inl hp)
  refine ⟨⟨?_, ?_, ?_, ?_⟩, hmono⟩
  · rw [length_insertAt]; exact hR.length_eq
  · intro q p hp
    rcases (mem_insertAt R a b q p).1 hp with h | ⟨h1, -, h3⟩
    · exact hR.increasing q p h
    · subst h1 h3; exact ⟨hab, hb⟩
  · intro q p hp
    rcases (mem_insertAt R a b q p).1 hp with h | ⟨h1, -, -⟩
    · rcases hR.sources q p h with h0 | ht
      · exact Or.inl h0
      · exact Or.inr (isTarget_mono R _ hmono q ht)
    · subst h1
      rcases ha with h0 | ht
      · exact Or.inl h0
      · exact Or.inr (isTarget_mono R _ hmono q ht)
  · intro q
    rw [getD_insertAt]
    split
    · exact setInsert_sorted _ _ (hR.sorted _)
    · exact hR.sorted q

/-- The `for` loop of the re-derivation over the rest of a walk that fits into the rest of the
supersequence: it returns, keeps the invariant of the relation and all its edges, and records a
chain of later and later positions that hold the nodes of the walk. -/
theorem recordWalk_spec (S : List Nat) (rest : List Nat) :
    ∀ (i offset last : Nat) (R : List (List Nat)), RelInv S R → last < i + offset →
      (last = 0 ∨ IsTarget R last) → rest <+ S.drop (i + offset) →
      ∃ R' ps, recordWalk S rest i offset last R = some R' ∧ RelInv S R' ∧
        (∀ q p, p ∈ R.getD q [] → p ∈ R'.getD q []) ∧
        (last :: ps).Chain' (fun a b => a < b ∧ b ∈ R'.getD a []) ∧
        ps.map (fun p => S[p]?) = rest.map some := by
  induction rest with
  | nil =>
    intro i offset last R hR _ _ _
    exact ⟨R, [], rfl, hR, fun _ _ h => h, by simp, rfl⟩
  | cons x rest ih =>
    intro i offset last R hR hlast hsrc hsub
    obtain ⟨k, e1, e2, e3, -⟩ := advance_spec x rest (S.drop (i + offset)) (i + offset) hsub
    have hSk : S[i + offset + k]? = some x := by
      rw [List.getElem?_drop] at e2; exact e2
    have hlt : i + offset + k < S.length := by
      by_contra hge
      rw [List.getElem?_eq_none (by omega)] at hSk
      simp at hSk
    have hlastR : last < R.length := by rw [hR.length_eq]; omega
    obtain ⟨hR1, hmono1⟩ := relInv_insert S R hR last (i + offset + k) (by omega) hlt hsrc
    have hnext : i + 1 + (i + offset + k - i) = i + offset + k + 1 := by omega
    obtain ⟨R', ps, f1, f2, f3, f4, f5⟩ := ih (i + 1) (i + offset + k - i) (i + offset + k)
      (insertAt R last (i + offset + k)) hR1 (by omega)
      (Or.inr (isTarget_insertAt R last _ hlastR))
      (by rw [hnext]; simpa [List.drop_drop, Nat.add_comm, Nat.add_left_comm, Nat.add_assoc]
            using e3)
    refine ⟨R', (i + offset + k) :: ps, ?_, f2, fun q p hp => f3 q p (hmono1 q p hp), ?_, ?_⟩
    · unfold recordWalk
      rw [e1]
      exact f1
    · refine List.chain'_cons.2 ⟨⟨by omega, ?_⟩, f4⟩
      exact f3 _ _ ((mem_insertAt R last _ last _).2 (Or.inr ⟨rfl, hlastR, rfl⟩))
    · simp only [List.map_cons, hSk, f5]

theorem relationStep_spec (S : List Nat) (R : List (List Nat)) (hR : RelInv S R) (w : List Nat)
    (hw : w <+ S) (hne : w ≠ []) (hhead : w.head? = S.head?) :
    ∃ R' ps, relationStep S R w = some R' ∧ RelInv S R' ∧
      (∀ q p, p ∈ R.getD q [] → p ∈ R'.getD q []) ∧ Realises S R' w ps := by
  obtain ⟨c0, rest, rfl⟩ := List.exists_cons_of_ne_nil hne
  cases S with
  | nil => simp at hw
  | cons s0 S' =>
    have hsc : c0 = s0 := by simpa using hhead
    subst hsc
    have hrest : rest <+ S' := by
      rcases cons_sublist_cons_cases hw with h | ⟨-, h⟩
      · exact (List.sublist_cons_self c0 rest).trans h
      · exact h
    obtain ⟨R', ps, f1, f2, f3, f4, f5⟩ := recordWalk_spec (c0 :: S') rest 1 0 0 R hR (by omega)
      (Or.inl rfl) (by simpa using hrest)
    refine ⟨R', 0 :: ps, ?_, f2, f3, rfl, f4, ?_⟩
    · unfold relationStep
      have := hw.length_le
      simp only [List.length_cons] at this
      simp only [List.length_cons, true_and, ge_iff_le]
      rw [if_pos (by omega)]
      exact f1
    · simp [f5]

theorem realises_mono (S : List Nat) (R R' : List (List Nat))
    (h : ∀ q p, p ∈ R.getD q [] → p ∈ R'.getD q []) (w ps : List Nat)
    (hr : Realises S R w ps) : Realises S R' w ps :=
  ⟨hr.1, hr.2.1.imp (fun _ _ hab => ⟨hab.1, h _ _ hab.2⟩), hr.2.2⟩

theorem relation_fold_spec (S : List Nat) (walks : List (List Nat)) :
    ∀ R : List (List Nat), RelInv S R →
      (∀ w ∈ walks, w <+ S ∧ w ≠ [] ∧ w.head? = S.head?) →
      ∃ R', walks.foldlM (relationStep S) R = some R' ∧ RelInv S R' ∧
        (∀ q p, p ∈ R.getD q [] → p ∈ R'.getD q []) ∧
        ∀ w ∈ walks, ∃ ps, Realises S R' w ps := by
  induction walks with
  | nil => intro R hR _; exact ⟨R, rfl, hR, fun _ _ h => h, fun w hw => by simp at hw⟩
  | cons w walks ih =>
    intro R hR hw
    obtain ⟨h1, h2, h3⟩ := hw w (List.mem_cons_self _ _)
    obtain ⟨R1, ps, e1, e2, e3, e4⟩ := relationStep_spec S R hR w h1 h2 h3
    obtain ⟨R', f1, f2, f3, f4⟩ := ih R1 e2 (fun w' hw' => hw w' (List.mem_cons_of_mem _ hw'))
    refine ⟨R', ?_, f2, fun q p hp => f3 q p (e3 q p hp), ?_⟩
    · rw [List.foldlM_cons, e1]; exact f1
    · intro w' hw'
      rcases List.mem_cons.1 hw' with rfl | hw'
      · exact ⟨ps, realises_mono S R1 R' f3 _ ps e4⟩
      · exact f4 w' hw'

theorem relInv_empty (S : List Nat) : RelInv S (List.replicate S.length []) :=
  ⟨by simp, fun q p hp => by simp [getD_replicate_nil] at hp,
    fun q p hp => by simp [getD_replicate_nil] at hp,
    fun q => by simp [getD_replicate_nil]⟩

/-! ### Compaction of the re-derived relation -/

theorem chain'_targets {r : Nat → Nat → Prop} (ps : List Nat) :
    ∀ a, (a :: ps).Chain' r → ∀ p ∈ ps, ∃ a', r a' p := by
  induction ps with
  | nil => intro a _ p hp; simp at hp
  | cons b ps ih =>
    intro a hc p hp
    obtain ⟨hab, hc'⟩ := List.chain'_cons.1 hc
    rcases List.mem_cons.1 hp with rfl | hp
    · exact ⟨a, hab⟩
    · exact ih b hc' p hp

theorem relInv_valid (S : List Nat) (R : List (List Nat)) (hR : RelInv S R) :
    ∀ ps ∈ R, ∀ p ∈ ps, p < S.length := by
  intro ps hps p hp
  obtain ⟨q, hq, rfl⟩ := List.getElem_of_mem hps
  have : p ∈ R.getD q [] := by
    simpa [List.getD_eq_getElem?_getD, List.getElem?_eq_getElem hq] using hp
  exact (hR.increasing q p this).2

theorem relInv_closed (S : List Nat) (R : List (List Nat)) (hR : RelInv S R) :
    ∀ q, q < R.length → 0 < q → R.getD q [] ≠ [] → IsTarget R q := by
  intro q _ hq0 hne
  obtain ⟨p, hp⟩ := List.exists_mem_of_ne_nil _ hne
  rcases hR.sources q p hp with h | h
  · omega
  · exact h

/-- What compaction makes of a relation that the re-derivation built. -/
theorem compaction_props (S : List Nat) (R : List (List Nat)) (hR : RelInv S R) :
    (filterUnnecessaryCharacters S R).2.length = (filterUnnecessaryCharacters S R).1.length ∧
    (∀ q p, p ∈ (filterUnnecessaryCharacters S R).2.getD q [] →
      q < p ∧ p < (filterUnnecessaryCharacters S R).1.length) ∧
    (∀ i, 1 ≤ i → i < (filterUnnecessaryCharacters S R).1.length →
      ∃ q, q < i ∧ i ∈ (filterUnnecessaryCharacters S R).2.getD q []) ∧
    (∀ w ps, Realises S R w ps → ∃ ps', Realises (filterUnnecessaryCharacters S R).1
      (filterUnnecessaryCharacters S R).2 w ps') ∧
    allPredecessors (filterUnnecessaryCharacters S R).1 (filterUnnecessaryCharacters S R).2
      = true := by
  have hvalid := relInv_valid S R hR
  have hclosed := relInv_closed S R hR
  have htargets := filter_all_targets S R hR.length_eq hvalid hclosed
  obtain ⟨ρ, hlen, hρ0, hkept, hsurj, hmono⟩ := filter_spec S R hR.length_eq hvalid
  have hb : ∀ q p, p ∈ (filterUnnecessaryCharacters S R).2.getD q [] →
      q < p ∧ p < (filterUnnecessaryCharacters S R).1.length := by
    intro q p hp
    have hq : q < (filterUnnecessaryCharacters S R).1.length := by
      by_contra hge
      rw [getD_eq_nil_of_length_le _ q (by rw [hlen]; omega)] at hp
      simp at hp
    obtain ⟨o, ho, hok, rfl⟩ := hsurj q hq
    obtain ⟨x, hx, rfl⟩ := ((hkept o ho hok).2.2 p).1 hp
    have hox := hR.increasing o x hx
    exact ⟨hmono o x hox.1 hok,
      (hkept x hox.2 (Or.inr (mem_getD_imp_isTarget R o x hx))).1⟩
  refine ⟨hlen, hb, ?_, ?_, ?_⟩
  · intro i hi1 hi2
    obtain ⟨q, -, hq⟩ := (isTarget_iff_getD _ i).1 (htargets i hi1 hi2)
    exact ⟨q, (hb q i hq).1, hq⟩
  · rintro w ps ⟨h1, h2, h3⟩
    cases ps with
    | nil => simp at h1
    | cons p0 ps =>
      simp only [List.head?_cons, Option.some.injEq] at h1
      subst h1
      -- every position of the chain is kept and inside `S`
      have hin : ∀ p ∈ (0 :: ps), p < S.length := by
        intro p hp
        have : S[p]? ∈ (0 :: ps).map (fun p => S[p]?) := List.mem_map_of_mem _ hp
        rw [h3] at this
        obtain ⟨x, -, hx⟩ := List.mem_map.1 this
        by_contra hge
        rw [List.getElem?_eq_none (by omega)] at hx
        simp at hx
      have hk : ∀ p ∈ (0 :: ps), p = 0 ∨ IsTarget R p := by
        intro p hp
        rcases List.mem_cons.1 hp with rfl | hp
        · exact Or.inl rfl
        · obtain ⟨a, -, ha⟩ := chain'_targets ps 0 h2 p hp
          exact Or.inr (mem_getD_imp_isTarget R a p ha)
      refine ⟨(0 :: ps).map ρ, by simp [hρ0], ?_, ?_⟩
      · rw [List.chain'_map]
        have hc : (0 :: ps).Chain' (fun a b => (a < b ∧ b ∈ R.getD a []) ∧
            (a = 0 ∨ IsTarget R a)) := by
          have gen : ∀ (l : List Nat), l.Chain' (fun a b => a < b ∧ b ∈ R.getD a []) →
              l.Chain' (fun a b => (a < b ∧ b ∈ R.getD a []) ∧ (a = 0 ∨ IsTarget R a)) := by
            intro l hl
            exact hl.imp (fun a b hab => ⟨hab, hR.sources a b hab.2⟩)
          exact gen _ h2
        refine hc.imp ?_
        rintro a b ⟨⟨hab, hmem⟩, hka⟩
        have han : a < S.length := by have := hR.increasing a b hmem; omega
        exact ⟨hmono a b hab hka, ((hkept a han hka).2.2 (ρ b)).2 ⟨b, hmem, rfl⟩⟩
      · rw [← h3, List.map_map]
        apply List.map_congr_left
        intro p hp
        exact (hkept p (hin p hp) (hk p hp)).2.1
  · unfold allPredecessors
    rw [List.all_eq_true]
    intro i hi
    rw [List.mem_range'_1, length_markPredecessors] at hi
    exact (getD_markPredecessors _ _ i).2 ⟨by omega, htargets i hi.1 (by omega)⟩

/-! ### getCycleCutters and GetCycleCut -/

/-- While `wordSize*2` fits an `int`, `GetCycleCut` is `getCycleCutters` with that horizon. -/
theorem getCycleCut_in_range (g : AlignmentGraph) (s wordSize : Nat) (hb : wordSize < 2 ^ 30) :
    GetCycleCut g s wordSize =
      getCycleCutters g s (wordSize * 2) { nodes := [], predecessors := [], previousCut := [] } := by
  have h1 : wordSize * 2 % 2 ^ 32 = wordSize * 2 := Nat.mod_eq_of_lt (by omega)
  unfold GetCycleCut
  simp only [h1]
  rw [if_pos (by omega)]

/-- From `wordSize = 2^30` on the `int` product `wordSize*2` is negative and no cut is
returned. -/
theorem getCycleCut_overflow (g : AlignmentGraph) (s wordSize : Nat) (h1 : 2 ^ 30 ≤ wordSize)
    (h2 : wordSize < 2 ^ 31) : GetCycleCut g s wordSize = none := by
  have h3 : wordSize * 2 % 2 ^ 32 = wordSize * 2 := Nat.mod_eq_of_lt (by omega)
  unfold GetCycleCut
  simp only [h3]
  rw [if_neg (by omega)]

/-- The whole calculation returns: the cut of `GetCycleCut` is the compaction of the relation
that the re-derivation builds over the merged supersequence, and that relation realises every
enumerated walk. -/
theorem getCycleCut_spec (g : AlignmentGraph) (hspan : ∀ v, 1 ≤ g.nodeEnd v - g.nodeStart v)
    (s wordSize : Nat) (hw : 0 < wordSize) (hb : wordSize < 2 ^ 30) :
    ∃ walks S R, iterateOverEdgeCoveringPaths g s (wordSize * 2) = some walks ∧
      getCycleCuttersSupersequence g s (wordSize * 2) = some S ∧ RelInv S R ∧
      (∀ w ∈ walks, ∃ ps, Realises S R w ps) ∧
      GetCycleCut g s wordSize = some
        { nodes := (filterUnnecessaryCharacters S R).1
          predecessors := (filterUnnecessaryCharacters S R).2
          previousCut := (filterUnnecessaryCharacters S R).1.map fun x => decide (x < s) } := by
  obtain ⟨walks, h, S, e1, e2, e3, e4, e5, e6⟩ :=
    supersequence_spec g hspan s (wordSize * 2) (by omega)
  obtain ⟨R, f1, f2, -, f4⟩ := relation_fold_spec S walks (List.replicate S.length [])
    (relInv_empty S) (fun w hw' => ⟨e6 w hw', by
      have := e3 w hw'
      rintro rfl
      simp at this, by rw [e3 w hw', e5]⟩)
  obtain ⟨-, -, -, -, c5⟩ := compaction_props S R f2
  refine ⟨walks, S, R, e1, e4, f2, f4, ?_⟩
  rw [getCycleCut_in_range g s wordSize hb]
  unfold getCycleCutters
  rw [e4]
  simp only []
  unfold getPredecessorsFromSupersequenceOverEdgeCoveringPaths
  rw [e1]
  simp only [resizeSets_nil, f1, c5, if_true, List.nil_append]

/-! ### The cut -/

/-- C3: for every graph with spans of at least 1, every `cycleStart` and `wordSize > 0`: while
the `int` product `wordSize*2` does not overflow (`wordSize < 2^30`), the walks are enumerated,
`GetCycleCut` returns a cut, and for every enumerated walk the cut holds positions
`p_0 = 0 < p_1 < ... < p_k` with `nodes[p_t]` the `t`-th node of the walk and `p_(t+1)` in
`predecessors[p_t]`; for the other values of the `int` (`2^30 ≤ wordSize < 2^31`) the product
is negative and no cut is returned. -/
theorem cut_realises_every_walk (g : AlignmentGraph)
    (hspan : ∀ v, 1 ≤ g.nodeEnd v - g.nodeStart v) (cycleStart wordSize : Nat)
    (hw : 0 < wordSize) :
    (wordSize < 2 ^ 30 →
      ∃ walks cut, iterateOverEdgeCoveringPaths g cycleStart (wordSize * 2) = some walks ∧
        GetCycleCut g cycleStart wordSize = some cut ∧
        ∀ w ∈ walks, ∃ ps : List Nat, ps.length = w.length ∧ ps.head? = some 0 ∧
          ps.Chain' (fun a b => a < b ∧ b ∈ cut.predecessors.getD a []) ∧
          ps.map (fun p => cut.nodes[p]?) = w.map some) ∧
    (2 ^ 30 ≤ wordSize → wordSize < 2 ^ 31 → GetCycleCut g cycleStart wordSize = none) := by
  refine ⟨fun hb => ?_, getCycleCut_overflow g cycleStart wordSize⟩
  obtain ⟨walks, S, R, e1, -, e3, e4, e5⟩ := getCycleCut_spec g hspan cycleStart wordSize hw hb
  obtain ⟨-, -, -, c4, -⟩ := compaction_props S R e3
  refine ⟨walks, _, e1, e5, ?_⟩
  intro w hw'
  obtain ⟨ps, hps⟩ := e4 w hw'
  obtain ⟨ps', h1, h2, h3⟩ := c4 w ps hps
  refine ⟨ps', ?_, h1, h2, h3⟩
  have := congrArg List.length h3
  simpa using this

/-- C3 on the three-node cycle, from node 0 with word size 2. -/
theorem cut_realises_every_walk_witness :
    (∀ v, 1 ≤ cycleGraph.nodeEnd v - cycleGraph.nodeStart v) ∧ 0 < 2 ∧ 2 < 2 ^ 30 ∧
    ∃ walks cut, iterateOverEdgeCoveringPaths cycleGraph 0 (2 * 2) = some walks ∧
      GetCycleCut cycleGraph 0 2 = some cut ∧
      ∀ w ∈ walks, ∃ ps : List Nat, ps.length = w.length ∧ ps.head? = some 0 ∧
        ps.Chain' (fun a b => a < b ∧ b ∈ cut.predecessors.getD a []) ∧
        ps.map (fun p => cut.nodes[p]?) = w.map some :=
  ⟨fun _ => Nat.le_refl 1, by decide, by decide,
    (cut_realises_every_walk cycleGraph (fun _ => Nat.le_refl 1) 0 2 (by decide)).1 (by decide)⟩

/-- C4: for every graph with spans of at least 1, every `cycleStart` and `wordSize > 0`: while
the `int` product `wordSize*2` does not overflow (`wordSize < 2^30`), `GetCycleCut` returns a
cut (so the debug assertion after compaction holds, here restated) in which every position
`p > 0` is in `predecessors[q]` of some position `q < p`; for the other values of the `int`
(`2^30 ≤ wordSize < 2^31`) the product is negative and no cut is returned. -/
theorem cut_positions_have_earlier_source (g : AlignmentGraph)
    (hspan : ∀ v, 1 ≤ g.nodeEnd v - g.nodeStart v) (cycleStart wordSize : Nat)
    (hw : 0 < wordSize) :
    (wordSize < 2 ^ 30 →
      ∃ cut, GetCycleCut g cycleStart wordSize = some cut ∧
        allPredecessors cut.nodes cut.predecessors = true ∧
        ∀ p, 0 < p → p < cut.nodes.length → ∃ q, q < p ∧ p ∈ cut.predecessors.getD q []) ∧
    (2 ^ 30 ≤ wordSize → wordSize < 2 ^ 31 → GetCycleCut g cycleStart wordSize = none) := by
  refine ⟨fun hb => ?_, getCycleCut_overflow g cycleStart wordSize⟩
  obtain ⟨walks, S, R, -, -, e3, -, e5⟩ := getCycleCut_spec g hspan cycleStart wordSize hw hb
  obtain ⟨-, -, c3, -, c5⟩ := compaction_props S R e3
  exact ⟨_, e5, c5, fun p hp hpn => c3 p hp hpn⟩

/-- C4 on the three-node cycle, from node 0 with word size 2. -/
theorem cut_positions_have_earlier_source_witness :
    (∀ v, 1 ≤ cycleGraph.nodeEnd v - cycleGraph.nodeStart v) ∧ 0 < 2 ∧ 2 < 2 ^ 30 ∧
    ∃ cut, GetCycleCut cycleGraph 0 2 = some cut ∧
      allPredecessors cut.nodes cut.predecessors = true ∧
      ∀ p, 0 < p → p < cut.nodes.length → ∃ q, q < p ∧ p ∈ cut.predecessors.getD q [] :=
  ⟨fun _ => Nat.le_refl 1, by decide, by decide,
    (cut_positions_have_earlier_source cycleGraph (fun _ => Nat.le_refl 1) 0 2
      (by decide)).1 (by decide)⟩

theorem transGen_lt (r : Nat → Nat → Prop) (hr : ∀ a b, r a b → a < b) (a b : Nat)
    (h : Relation.TransGen r a b) : a < b := by
  induction h with
  | single h => exact hr _ _ h
  | tail _ h ih => exact Nat.lt_trans ih (hr _ _ h)

/-- C5: for every graph with spans of at least 1, every `cycleStart` and `wordSize > 0`: while
the `int` product `wordSize*2` does not overflow (`wordSize < 2^30`), `GetCycleCut` returns a
cut in which every relation edge `q -> p` (`p` in `predecessors[q]`) has `q < p < nodes.size()`,
and in which no chain of relation edges leads from a position back to itself; for the other
values of the `int` (`2^30 ≤ wordSize < 2^31`) the product is negative and no cut is
returned. -/
theorem cut_is_index_ordered_and_acyclic (g : AlignmentGraph)
    (hspan : ∀ v, 1 ≤ g.nodeEnd v - g.nodeStart v) (cycleStart wordSize : Nat)
    (hw : 0 < wordSize) :
    (wordSize < 2 ^ 30 →
      ∃ cut, GetCycleCut g cycleStart wordSize = some cut ∧
        (∀ q p, p ∈ cut.predecessors.getD q [] → q < p ∧ p < cut.nodes.length) ∧
        ∀ q, ¬ Relation.TransGen (fun a b => b ∈ cut.predecessors.getD a []) q q) ∧
    (2 ^ 30 ≤ wordSize → wordSize < 2 ^ 31 → GetCycleCut g cycleStart wordSize = none) := by
  refine ⟨fun hb => ?_, getCycleCut_overflow g cycleStart wordSize⟩
  obtain ⟨walks, S, R, -, -, e3, -, e5⟩ := getCycleCut_spec g hspan cycleStart wordSize hw hb
  obtain ⟨-, c2, -, -, -⟩ := compaction_props S R e3
  refine ⟨_, e5, c2, ?_⟩
  intro q hq
  have := transGen_lt _ (fun a b hab => (c2 a b hab).1) q q hq
  omega

/-- C5 on the three-node cycle, from node 0 with word size 2. -/
theorem cut_is_index_ordered_and_acyclic_witness :
    (∀ v, 1 ≤ cycleGraph.nodeEnd v - cycleGraph.nodeStart v) ∧ 0 < 2 ∧ 2 < 2 ^ 30 ∧
    ∃ cut, GetCycleCut cycleGraph 0 2 = some cut ∧
      (∀ q p, p ∈ cut.predecessors.getD q [] → q < p ∧ p < cut.nodes.length) ∧
      ∀ q, ¬ Relation.TransGen (fun a b => b ∈ cut.predecessors.getD a []) q q :=
  ⟨fun _ => Nat.le_refl 1, by decide, by decide,
    (cut_is_index_ordered_and_acyclic cycleGraph (fun _ => Nat.le_refl 1) 0 2
      (by decide)).1 (by decide)⟩

/-- C7: for every graph with spans of at least 1, every `cycleStart` and `wordSize > 0`: while
the `int` product `wordSize*2` does not overflow (`wordSize < 2^30`), `GetCycleCut` returns a
cut whose `previousCut` and `predecessors` have the length of `nodes`, and `previousCut[i]` is
true exactly when `nodes[i]` is less than `cycleStart`; for the other values of the `int`
(`2^30 ≤ wordSize < 2^31`) the product is negative and no cut is returned. -/
theorem cut_flags_nodes_below_cycle_start (g : AlignmentGraph)
    (hspan : ∀ v, 1 ≤ g.nodeEnd v - g.nodeStart v) (cycleStart wordSize : Nat)
    (hw : 0 < wordSize) :
    (wordSize < 2 ^ 30 →
      ∃ cut, GetCycleCut g cycleStart wordSize = some cut ∧
        cut.previousCut.length = cut.nodes.length ∧
        cut.predecessors.length = cut.nodes.length ∧
        ∀ i, i < cut.nodes.length →
          (cut.previousCut.getD i false = true ↔ cut.nodes.getD i 0 < cycleStart)) ∧
    (2 ^ 30 ≤ wordSize → wordSize < 2 ^ 31 → GetCycleCut g cycleStart wordSize = none) := by
  refine ⟨fun hb => ?_, getCycleCut_overflow g cycleStart wordSize⟩
  obtain ⟨walks, S, R, -, -, e3, -, e5⟩ := getCycleCut_spec g hspan cycleStart wordSize hw hb
  obtain ⟨c1, -, -, -, -⟩ := compaction_props S R e3
  refine ⟨_, e5, by simp, c1, ?_⟩
  intro i hi
  simp only at hi
  simp [List.getD_eq_getElem?_getD, List.getElem?_eq_getElem hi]

/-- C7 on the three-node cycle, from node 1 with word size 3. -/
theorem cut_flags_nodes_below_cycle_start_witness :
    (∀ v, 1 ≤ cycleGraph.nodeEnd v - cycleGraph.nodeStart v) ∧ 0 < 3 ∧ 3 < 2 ^ 30 ∧
    ∃ cut, GetCycleCut cycleGraph 1 3 = some cut ∧
      cut.previousCut.length = cut.nodes.length ∧
      cut.predecessors.length = cut.nodes.length ∧
      ∀ i, i < cut.nodes.length →
        (cut.previousCut.getD i false = true ↔ cut.nodes.getD i 0 < 1) :=
  ⟨fun _ => Nat.le_refl 1, by decide, by decide,
    (cut_flags_nodes_below_cycle_start cycleGraph (fun _ => Nat.le_refl 1) 1 3
      (by decide)).1 (by decide)⟩

/-- C6 fails on a node without incoming neighbours: from node 5 of the graph without edges,
with word size 1, `GetCycleCut` returns the node sequence `[0]`, the index that `findFlowPaths`
pushes for a skeleton of one position, and not `[5]`. -/
theorem single_position_cut_holds_index_zero :
    GetCycleCut isolatedGraph 5 1 =
      some { nodes := [0], predecessors := [[]], previousCut := [true] } := by
  decide

/-! ### A skeleton of one position -/

theorem orderLayer_empty (g : AlignmentGraph) (H : Nat) (st : OrderState) (layers : List Nat)
    (h : ∀ i ∈ layers, st.nodes.getD i [] = []) : layers.foldl (orderLayer g H) st = st := by
  induction layers with
  | nil => rfl
  | cons i layers ih =>
    have hi : orderLayer g H st i = st := by
      unfold orderLayer
      rw [h i (List.mem_cons_self _ _)]
      rfl
    rw [List.foldl_cons, hi]
    exact ih (fun j hj => h j (List.mem_cons_of_mem _ hj))

/-- Without an incoming neighbour of `cycleStart`, or with a span of `cycleStart` that reaches
the horizon, the skeleton is the single position of `cycleStart`. -/
theorem getCycleCuttersOrder_single (g : AlignmentGraph) (s H : Nat) (hH : 0 < H)
    (h : g.inNeighbors s = [] ∨ H ≤ g.nodeEnd s - g.nodeStart s) :
    getCycleCuttersOrder g s H [] = some ([s], [[]]) := by
  have hget : ∀ l, (insertAt (List.replicate H []) 0 s).getD l [] = if l = 0 then [s] else [] := by
    intro l
    rw [getD_insertAt]
    by_cases h : l = 0
    · subst h; simp [hH, getD_replicate_nil, setInsert]
    · simp [h, getD_replicate_nil]
  have hsweep : orderSweep g s H =
      { supersequence := [s], positionInSupersequence := [((0, s), 0)],
        nodes := insertAt (List.replicate H []) 0 s, edges := [] } := by
    obtain ⟨H', rfl⟩ : ∃ H', H = H' + 1 := ⟨H - 1, by omega⟩
    unfold orderSweep
    rw [List.range_eq_range', List.range'_succ, List.foldl_cons]
    have h0 : orderLayer g (H' + 1)
        { supersequence := [], positionInSupersequence := [],
          nodes := insertAt (List.replicate (H' + 1) []) 0 s, edges := [] } 0 =
        { supersequence := [s], positionInSupersequence := [((0, s), 0)],
          nodes := insertAt (List.replicate (H' + 1) []) 0 s, edges := [] } := by
      unfold orderLayer
      simp only [hget, if_true, List.foldl_cons, List.foldl_nil]
      unfold orderNode
      simp only [List.length_nil, List.nil_append, mapSet, Nat.zero_add]
      rcases h with h | h
      · rw [h]; simp
      · rw [if_pos h]
    rw [h0]
    apply orderLayer_empty
    intro i hi
    rw [List.mem_range'_1] at hi
    simp only [hget]
    rw [if_neg (by omega)]
  unfold getCycleCuttersOrder
  rw [if_neg (by omega), hsweep]
  rfl

/-- The single walk `[0]` gives the cut of one position without relation edges. -/
theorem getCycleCut_of_single_walk (g : AlignmentGraph) (s wordSize : Nat)
    (hb : wordSize < 2 ^ 30)
    (hit : iterateOverEdgeCoveringPaths g s (wordSize * 2) = some [[0]]) :
    GetCycleCut g s wordSize =
      some { nodes := [0], predecessors := [[]], previousCut := [decide (0 < s)] } := by
  have hsup : getCycleCuttersSupersequence g s (wordSize * 2) = some [0] := by
    unfold getCycleCuttersSupersequence
    rw [hit]
    rfl
  rw [getCycleCut_in_range g s wordSize hb]
  unfold getCycleCutters
  rw [hsup]
  simp only []
  unfold getPredecessorsFromSupersequenceOverEdgeCoveringPaths
  rw [hit]
  rfl

/-- A skeleton of one position gives the cut of one position without relation edges. -/
theorem getCycleCut_single (g : AlignmentGraph) (hspan : ∀ v, 1 ≤ g.nodeEnd v - g.nodeStart v)
    (s wordSize : Nat) (hw : 0 < wordSize) (hb : wordSize < 2 ^ 30)
    (h : g.inNeighbors s = [] ∨ wordSize * 2 ≤ g.nodeEnd s - g.nodeStart s) :
    GetCycleCut g s wordSize =
      some { nodes := [0], predecessors := [[]], previousCut := [decide (0 < s)] } := by
  have horder := getCycleCuttersOrder_single g s (wordSize * 2) (by omega) h
  obtain ⟨sup, preds, h1, -, -, hcase⟩ := iterate_spec g hspan s (wordSize * 2) (by omega)
  rw [horder] at h1
  simp only [Option.some.injEq, Prod.mk.injEq] at h1
  obtain ⟨rfl, rfl⟩ := h1
  apply getCycleCut_of_single_walk g s wordSize hb
  rcases hcase with ⟨-, hit⟩ | ⟨hlen, -⟩
  · exact hit
  · simp at hlen

/-- The first node of the cut: the cycle start when the skeleton has more than one position,
and the index 0 when it has one. -/
theorem cut_first_node (g : AlignmentGraph) (hspan : ∀ v, 1 ≤ g.nodeEnd v - g.nodeStart v)
    (s wordSize : Nat) (hw : 0 < wordSize) (hb : wordSize < 2 ^ 30) :
    ∃ sup preds cut, getCycleCuttersOrder g s (wordSize * 2) [] = some (sup, preds) ∧
      GetCycleCut g s wordSize = some cut ∧
      (sup.length = 1 → cut.nodes = [0]) ∧
      (2 ≤ sup.length → cut.nodes.head? = some s) := by
  obtain ⟨sup, preds, h1, hsk, hhead, hcase⟩ := iterate_spec g hspan s (wordSize * 2) (by omega)
  rcases hcase with ⟨hlen, hit⟩ | ⟨hlen, paths, hne, hgood, -, hit⟩
  · exact ⟨sup, preds, _, h1, getCycleCut_of_single_walk g s wordSize hb hit, fun _ => rfl,
      fun h2 => by omega⟩
  · obtain ⟨walks, S, R, e1, e2, e3, -, e5⟩ := getCycleCut_spec g hspan s wordSize hw hb
    obtain ⟨walks', h, S', f1, -, f3, f4, f5, -⟩ :=
      supersequence_spec g hspan s (wordSize * 2) (by omega)
    rw [e2] at f4
    rw [hit] at f1
    simp only [Option.some.injEq] at f4 f1
    subst f4 f1
    -- the walks begin with the cycle start
    have hs : h = s := by
      obtain ⟨path, rest, rfl⟩ := List.exists_cons_of_ne_nil hne
      have hw0 := f3 (path.map fun p => sup.getD p 0) (by simp)
      obtain ⟨hp0, -⟩ := hgood path (List.mem_cons_self _ _)
      cases path with
      | nil => simp at hp0
      | cons a rest' =>
        simp only [List.head?_cons, Option.some.injEq] at hp0
        subst hp0
        cases sup with
        | nil => simp at hhead
        | cons a0 sup' =>
          simp only [List.head?_cons, Option.some.injEq] at hhead
          subst hhead
          simpa using hw0.symm
    subst hs
    obtain ⟨ρ, -, hρ0, hkept, -, -⟩ := filter_spec S R e3.length_eq (relInv_valid S R e3)
    have hS0 : 0 < S.length := by
      cases S with
      | nil => simp at f5
      | cons a l => simp
    have hk := (hkept 0 hS0 (Or.inl rfl)).2.1
    rw [hρ0] at hk
    refine ⟨sup, preds, _, h1, e5, fun h1' => by omega, fun _ => ?_⟩
    simp only []
    cases hS : S with
    | nil => rw [hS] at hS0; simp at hS0
    | cons a l =>
      rw [hS] at f5 hk
      simp only [List.head?_cons, Option.some.injEq] at f5
      subst f5
      cases hout : (filterUnnecessaryCharacters (a :: l) R).1 with
      | nil => rw [hout] at hk; simp at hk
      | cons b l' => rw [hout] at hk; simpa using hk

/-- C10, as amended: for every graph with spans of at least 1 and every `wordSize` with
`0 < wordSize < 2^30` (the values for which the `int` product `wordSize*2` does not overflow),
if `cycleStart` has no incoming neighbour or its span is at least `2 * wordSize`, then
`GetCycleCut` returns a cut with exactly one position and no relation edges. -/
theorem cut_is_single_position_without_unrolling (g : AlignmentGraph)
    (hspan : ∀ v, 1 ≤ g.nodeEnd v - g.nodeStart v) (cycleStart wordSize : Nat)
    (hw : 0 < wordSize) (hb : wordSize < 2 ^ 30)
    (h : g.inNeighbors cycleStart = [] ∨
      wordSize * 2 ≤ g.nodeEnd cycleStart - g.nodeStart cycleStart) :
    ∃ cut, GetCycleCut g cycleStart wordSize = some cut ∧ cut.nodes.length = 1 ∧
      cut.predecessors = [[]] :=
  ⟨_, getCycleCut_single g hspan cycleStart wordSize hw hb h, rfl, rfl⟩

/-- C10 as amended, on the graph without edges, from node 5 with word size 1. -/
theorem cut_is_single_position_without_unrolling_witness :
    (∀ v, 1 ≤ isolatedGraph.nodeEnd v - isolatedGraph.nodeStart v) ∧ 0 < 1 ∧ 1 < 2 ^ 30 ∧
    (isolatedGraph.inNeighbors 5 = [] ∨
      1 * 2 ≤ isolatedGraph.nodeEnd 5 - isolatedGraph.nodeStart 5) ∧
    ∃ cut, GetCycleCut isolatedGraph 5 1 = some cut ∧ cut.nodes.length = 1 ∧
      cut.predecessors = [[]] :=
  ⟨fun _ => Nat.le_refl 1, by decide, by decide, Or.inl rfl,
    cut_is_single_position_without_unrolling isolatedGraph (fun _ => Nat.le_refl 1) 5 1
      (by decide) (by decide) (Or.inl rfl)⟩

/-- With `wordSize = 2^30` the `int` product `wordSize*2` is `-2^31`: the call from node 5 of the
graph without edges returns no cut. -/
theorem getCycleCut_overflow_example : GetCycleCut isolatedGraph 5 1073741824 = none :=
  getCycleCut_overflow isolatedGraph 5 1073741824 (by decide) (by decide)

theorem chainGraph_no_return (H : Nat) : ¬ ReturnsWithin chainGraph 0 H := by
  rintro ⟨walk, hwalk, -⟩
  cases walk with
  | nil => simp [IsBackwardWalk, chainGraph] at hwalk
  | cons a walk =>
    simp only [List.cons_append, IsBackwardWalk] at hwalk
    obtain ⟨ha, hwalk⟩ := hwalk
    have ha1 : a = 1 := by simpa [chainGraph] using ha
    subst ha1
    cases walk with
    | nil => simp [IsBackwardWalk, chainGraph] at hwalk
    | cons b walk =>
      simp only [List.cons_append, IsBackwardWalk] at hwalk
      obtain ⟨hb, hwalk⟩ := hwalk
      have hb2 : b = 2 := by simpa [chainGraph] using hb
      subst hb2
      cases walk with
      | nil => simp [IsBackwardWalk, chainGraph] at hwalk
      | cons c walk =>
        simp only [List.cons_append, IsBackwardWalk] at hwalk
        simp [chainGraph] at hwalk

/-- C10 fails as stated: in the chain `0 <- 1 <- 2` of nodes of span 1 no backward walk returns
to node 0, yet `GetCycleCut` from node 0 with word size 2 returns a cut of three positions with
the relation edges `0 -> 1` and `1 -> 2`. -/
theorem cut_without_cycle_is_not_single_position :
    (∀ v, 1 ≤ chainGraph.nodeEnd v - chainGraph.nodeStart v) ∧
    ¬ ReturnsWithin chainGraph 0 (2 * 2) ∧
    GetCycleCut chainGraph 0 2 =
      some { nodes := [0, 1, 2], predecessors := [[1], [2], []],
             previousCut := [false, false, false] } :=
  ⟨fun _ => Nat.le_refl 1, chainGraph_no_return _, by decide⟩

/-- C11: for every graph with spans of at least 1 and every `wordSize > 0`, if `cycleStart` has
no incoming neighbours then the skeleton that `getCycleCuttersOrder` builds has exactly one
position, whatever the horizon, and while the `int` product `wordSize*2` does not overflow
(`wordSize < 2^30`) `GetCycleCut` returns a cut whose node sequence has exactly one element and
whose relation has no edges; for the other values of the `int` (`2^30 ≤ wordSize < 2^31`) the
product is negative and no cut is returned. -/
theorem no_incoming_neighbours_give_single_position (g : AlignmentGraph)
    (hspan : ∀ v, 1 ≤ g.nodeEnd v - g.nodeStart v) (cycleStart wordSize : Nat)
    (hw : 0 < wordSize) (h : g.inNeighbors cycleStart = []) :
    (∀ H, 1 ≤ H → ∃ sup preds, getCycleCuttersOrder g cycleStart H [] = some (sup, preds) ∧
      sup.length = 1 ∧ preds = [[]]) ∧
    (wordSize < 2 ^ 30 →
      ∃ sup preds cut, getCycleCuttersOrder g cycleStart (wordSize * 2) [] = some (sup, preds) ∧
        sup.length = 1 ∧ preds = [[]] ∧
        GetCycleCut g cycleStart wordSize = some cut ∧ cut.nodes.length = 1 ∧
        cut.predecessors = [[]]) ∧
    (2 ^ 30 ≤ wordSize → wordSize < 2 ^ 31 → GetCycleCut g cycleStart wordSize = none) :=
  ⟨fun H hH => ⟨[cycleStart], [[]],
      getCycleCuttersOrder_single g cycleStart H (by omega) (Or.inl h), rfl, rfl⟩,
    fun hb => ⟨[cycleStart], [[]], _,
      getCycleCuttersOrder_single g cycleStart (wordSize * 2) (by omega) (Or.inl h), rfl, rfl,
      getCycleCut_single g hspan cycleStart wordSize hw hb (Or.inl h), rfl, rfl⟩,
    getCycleCut_overflow g cycleStart wordSize⟩

/-- C11 on the graph without edges, from node 5 with word size 1. -/
theorem no_incoming_neighbours_give_single_position_witness :
    (∀ v, 1 ≤ isolatedGraph.nodeEnd v - isolatedGraph.nodeStart v) ∧ 0 < 1 ∧
    isolatedGraph.inNeighbors 5 = [] ∧ 1 < 2 ^ 30 ∧
    ∃ sup preds cut, getCycleCuttersOrder isolatedGraph 5 (1 * 2) [] = some (sup, preds) ∧
      sup.length = 1 ∧ preds = [[]] ∧
      GetCycleCut isolatedGraph 5 1 = some cut ∧ cut.nodes.length = 1 ∧
      cut.predecessors = [[]] :=
  ⟨fun _ => Nat.le_refl 1, by decide, rfl, by decide,
    (no_incoming_neighbours_give_single_position isolatedGraph (fun _ => Nat.le_refl 1) 5 1
      (by decide) rfl).2.1 (by decide)⟩

/-! ### Exact decomposition of the flow -/

theorem chain'_of_edgesOf (path : List Nat) (h : ∀ e ∈ edgesOf path, e.1 < e.2) :
    path.Chain' (· < ·) := by
  induction path with
  | nil => simp
  | cons a rest ih =>
    cases rest with
    | nil => simp
    | cons b rest =>
      refine List.chain'_cons.2 ⟨h (a, b) (by simp [edgesOf]), ih ?_⟩
      intro e he
      exact h e (by simp only [edgesOf, List.mem_cons]; exact Or.inr he)

theorem nodup_edgesOf (path : List Nat) (h : path.Chain' (· < ·)) : (edgesOf path).Nodup := by
  induction path with
  | nil => simp [edgesOf]
  | cons a rest ih =>
    cases rest with
    | nil => simp [edgesOf]
    | cons b rest =>
      obtain ⟨hab, hc⟩ := List.chain'_cons.1 h
      simp only [edgesOf, List.nodup_cons]
      refine ⟨?_, ih hc⟩
      intro hmem
      have := edgesOf_ge rest b hc (a, b) hmem
      simp only at this
      omega

theorem count_edgesOf (path : List Nat) (h : path.Chain' (· < ·)) (k : Edge) :
    (edgesOf path).count k = if k ∈ edgesOf path then 1 else 0 := by
  induction path with
  | nil => simp [edgesOf]
  | cons a rest ih =>
    cases rest with
    | nil => simp [edgesOf]
    | cons b rest =>
      obtain ⟨hab, hc⟩ := List.chain'_cons.1 h
      have hnd := nodup_edgesOf (a :: b :: rest) h
      simp only [edgesOf, List.nodup_cons] at hnd
      simp only [edgesOf, List.count_cons, List.mem_cons, ih hc]
      by_cases hk : k = (a, b)
      · subst hk
        simp [hnd.1]
      · have hk' : ((a, b) == k) = false := by
          simpa using fun h' => hk h'.symm
        simp [hk, hk']

theorem sum_counts_eq_filter_length (sup : List Nat) (preds : List (List Nat))
    (hsk : Skeleton sup preds) (paths : List (List Nat))
    (hgood : ∀ path ∈ paths, GoodPath sup preds path) (k : Edge) :
    (paths.map fun path => (edgesOf path).count k).sum =
      (paths.filter fun path => decide (k ∈ edgesOf path)).length := by
  induction paths with
  | nil => rfl
  | cons p paths ih =>
    have hp := hgood p (List.mem_cons_self _ _)
    have hc : p.Chain' (· < ·) :=
      chain'_of_edgesOf p (fun e he => (hsk.increasing _ _ (hp.2.2.2 e he)).1)
    rw [List.map_cons, List.sum_cons, ih (fun q hq => hgood q (List.mem_cons_of_mem _ hq)),
      count_edgesOf p hc k, List.filter_cons]
    by_cases hk : k ∈ edgesOf p
    · simp [hk]; omega
    · simp [hk]

theorem mapFind_mem {κ β : Type} [DecidableEq κ] (m : List (κ × β)) (k : κ) (v : β)
    (h : mapFind m k = some v) : (k, v) ∈ m := by
  induction m with
  | nil => simp [mapFind] at h
  | cons e m ih =>
    obtain ⟨a, b⟩ := e
    unfold mapFind at h
    by_cases hak : a = k
    · rw [if_pos hak] at h
      simp only [Option.some.injEq] at h
      subst hak h
      exact List.mem_cons_self _ _
    · rw [if_neg hak] at h
      exact List.mem_cons_of_mem _ (ih h)

/-- Taking flow from the edges of a path changes no key and takes one unit per edge. -/
theorem consumePath_keys_total (path : List Nat) : ∀ (m m' : FlowMap),
    consumePath m path = some m' →
      m'.map Prod.fst = m.map Prod.fst ∧ totalFlow m' + (path.length - 1) = totalFlow m := by
  induction path with
  | nil => intro m m' h; simp only [consumePath, Option.some.injEq] at h; subst h; simp
  | cons a rest ih =>
    cases rest with
    | nil => intro m m' h; simp only [consumePath, Option.some.injEq] at h; subst h; simp
    | cons b rest =>
      intro m m' h
      unfold consumePath mapDecr at h
      by_cases hf : (mapFind m (a, b)).getD 0 ≥ 1
      · rw [if_pos hf] at h
        simp only [Option.some_bind] at h
        obtain ⟨e1, e2⟩ := ih _ m' h
        have hkey : (a, b) ∈ m.map Prod.fst := by
          rw [← mapFind_isSome_iff]
          cases hfind : mapFind m (a, b) with
          | none => rw [hfind] at hf; simp at hf
          | some f => exact ⟨f, rfl⟩
        refine ⟨by rw [e1, mapSet_keys, if_pos hkey], ?_⟩
        have h2 := flowSum_mapSet (fun _ => true) m (a, b) ((mapFind m (a, b)).getD 0 - 1)
        rw [← totalFlow_eq_flowSum, ← totalFlow_eq_flowSum] at h2
        simp only [if_true] at h2
        unfold flowAt at h2
        simp only [List.length_cons] at e2 ⊢
        omega
      · rw [if_neg hf] at h
        simp at h

/-- The loop of `findFlowPaths` changes no key of the flow table. -/
theorem findFlowPathsLoop_keys (sup : List Nat) (preds : List (List Nat)) (fuel : Nat) :
    ∀ st st' : FlowPaths, findFlowPathsLoop sup preds fuel st = some st' →
      st'.flows.map Prod.fst = st.flows.map Prod.fst := by
  induction fuel with
  | zero => intro st st' h; simp [findFlowPathsLoop] at h
  | succ fuel ih =>
    intro st st' h
    unfold findFlowPathsLoop at h
    cases hp : getOneFlowPath preds st.flows (preds.length + 1) 0 [] with
    | none => rw [hp] at h; simp at h
    | some path =>
      rw [hp] at h
      simp only [] at h
      by_cases h0 : path.length = 0
      · rw [if_pos h0] at h; simp at h
      · rw [if_neg h0] at h
        by_cases h1 : path.length = 1
        · rw [if_pos h1] at h
          simp only [Option.some.injEq] at h
          subst h; rfl
        · rw [if_neg h1] at h
          cases hc : consumePath st.flows path with
          | none => rw [hc] at h; simp at h
          | some flows =>
            rw [hc] at h
            simp only [] at h
            cases hl : lookupAll sup path with
            | none => rw [hl] at h; simp at h
            | some ids =>
              rw [hl] at h
              simp only [] at h
              rw [ih _ st' h]
              exact (consumePath_keys_total path st.flows flows hc).1

theorem findFlowPaths_keys (sup : List Nat) (preds : List (List Nat)) (m : FlowMap)
    (fp : FlowPaths) (h : findFlowPaths sup preds m = some fp) :
    fp.flows.map Prod.fst = m.map Prod.fst := by
  unfold findFlowPaths at h
  by_cases h0 : sup.length = 0
  · rw [if_pos h0] at h; simp at h
  · rw [if_neg h0] at h
    by_cases h1 : sup.length = 1
    · rw [if_pos h1] at h
      simp only [Option.some.injEq] at h
      subst h; rfl
    · rw [if_neg h1] at h
      cases hl : findFlowPathsLoop sup preds (totalFlow m + 1)
          { paths := [], result := [], flows := m } with
      | none => rw [hl] at h; simp at h
      | some st =>
        rw [hl] at h
        simp only [] at h
        by_cases hr : st.result.length = 0
        · rw [if_pos hr] at h; simp at h
        · rw [if_neg hr] at h
          by_cases ha : (st.flows.all fun x => decide (x.2 = 0)) = true
          · rw [if_pos ha] at h
            simp only [Option.some.injEq] at h
            subst h
            exact findFlowPathsLoop_keys sup preds _ _ _ hl
          · rw [if_neg ha] at h; simp at h

/-- C14: for every graph with spans of at least 1, every `cycleStart` and horizon `H >= 1`,
`findFlowPaths` returns on the flow of `findFeasibleFlow` (so neither the per-step assertion nor
the checked post-condition fails), its loop ends with flow 0 on every edge, its walks are the
node identifiers along its index paths, and every skeleton edge `i -> j` is traversed by exactly
as many of these paths as `findFeasibleFlow` gave it flow. -/
theorem flow_paths_decompose_the_flow (g : AlignmentGraph)
    (hspan : ∀ v, 1 ≤ g.nodeEnd v - g.nodeStart v) (cycleStart H : Nat) (hH : 1 ≤ H) :
    ∃ sup preds fp, getCycleCuttersOrder g cycleStart H [] = some (sup, preds) ∧
      findFlowPaths sup preds (findFeasibleFlow sup preds) = some fp ∧
      (∀ e ∈ fp.flows, e.2 = 0) ∧
      (∀ i j, j ∈ preds.getD i [] → mapFind fp.flows (i, j) = some 0) ∧
      ((sup.length = 1 ∧ fp.result = [[0]]) ∨
        fp.result = fp.paths.map (fun path => path.map fun p => sup.getD p 0)) ∧
      ∀ i j, j ∈ preds.getD i [] →
        (mapFind (findFeasibleFlow sup preds) (i, j)).getD 0 =
          (fp.paths.filter fun path => decide ((i, j) ∈ edgesOf path)).length := by
  obtain ⟨sup, preds, h1, hsk, -, -⟩ := getCycleCuttersOrder_spec g hspan cycleStart H hH
  obtain ⟨hok, hpos⟩ := findFeasibleFlow_spec sup preds hsk
  by_cases hn : 2 ≤ sup.length
  · obtain ⟨paths, mf, e1, e2, e3, e4, e5⟩ :=
      findFlowPaths_spec sup preds hsk hn _ hok hpos
    have hkeys := findFlowPaths_keys sup preds _ _ e1
    simp only at hkeys
    refine ⟨sup, preds, _, h1, e1, e4, ?_, Or.inr rfl, ?_⟩
    · intro i j hij
      have hkey : (i, j) ∈ (findFeasibleFlow sup preds).map Prod.fst := by
        rw [← mapFind_isSome_iff]
        have := hpos i j hij
        cases hfind : mapFind (findFeasibleFlow sup preds) (i, j) with
        | none => unfold flowAt at this; rw [hfind] at this; simp at this
        | some f => exact ⟨f, rfl⟩
      rw [← hkeys, ← mapFind_isSome_iff] at hkey
      obtain ⟨f, hf⟩ := hkey
      have := e4 _ (mapFind_mem mf (i, j) f hf)
      simp only at this
      rw [hf, this]
    · intro i j hij
      have := e5 (i, j)
      unfold flowAt at this
      rw [this]
      exact sum_counts_eq_filter_length sup preds hsk paths e3 (i, j)
  · have hlen : sup.length = 1 := by have := hsk.nonempty; omega
    refine ⟨sup, preds, { paths := [], result := [[0]], flows := findFeasibleFlow sup preds },
      h1, ?_, ?_, ?_, Or.inl ⟨hlen, rfl⟩, ?_⟩
    · unfold findFlowPaths
      rw [if_neg (by omega), if_pos hlen]
    · intro e he
      have := hok.keys_edges e he
      exact absurd this (skeleton_single sup preds hsk hlen _ _)
    · intro i j hij
      exact absurd hij (skeleton_single sup preds hsk hlen i j)
    · intro i j hij
      exact absurd hij (skeleton_single sup preds hsk hlen i j)

/-- C14 on the three-node cycle, from node 0 with horizon 4. -/
theorem flow_paths_decompose_the_flow_witness :
    (∀ v, 1 ≤ cycleGraph.nodeEnd v - cycleGraph.nodeStart v) ∧ 1 ≤ 4 ∧
    ∃ sup preds fp, getCycleCuttersOrder cycleGraph 0 4 [] = some (sup, preds) ∧
      findFlowPaths sup preds (findFeasibleFlow sup preds) = some fp ∧
      (∀ e ∈ fp.flows, e.2 = 0) ∧
      (∀ i j, j ∈ preds.getD i [] → mapFind fp.flows (i, j) = some 0) ∧
      ((sup.length = 1 ∧ fp.result = [[0]]) ∨
        fp.result = fp.paths.map (fun path => path.map fun p => sup.getD p 0)) ∧
      ∀ i j, j ∈ preds.getD i [] →
        (mapFind (findFeasibleFlow sup preds) (i, j)).getD 0 =
          (fp.paths.filter fun path => decide ((i, j) ∈ edgesOf path)).length :=
  ⟨fun _ => Nat.le_refl 1, by decide,
    flow_paths_decompose_the_flow cycleGraph (fun _ => Nat.le_refl 1) 0 4 (by decide)⟩

/-! ### Termination -/

theorem firstFlowEdge_gt (m : FlowMap) (node : Nat) (ps : List Nat) (p : Nat)
    (h : firstFlowEdge m node ps = some (some p)) : node < p ∧ p ∈ ps := by
  induction ps with
  | nil => simp [firstFlowEdge] at h
  | cons a ps ih =>
    unfold firstFlowEdge at h
    by_cases ha : a > node
    · rw [if_pos ha] at h
      cases hf : mapFind m (node, a) with
      | none => rw [hf] at h; simp at h
      | some f =>
        rw [hf] at h
        simp only [] at h
        by_cases hpos : f > 0
        · rw [if_pos hpos] at h
          simp only [Option.some.injEq] at h
          subst h
          exact ⟨ha, List.mem_cons_self _ _⟩
        · rw [if_neg hpos] at h
          exact ⟨(ih h).1, List.mem_cons_of_mem _ (ih h).2⟩
    · rw [if_neg ha] at h; simp at h

/-- Whatever its arguments, a path that `getOneFlowPath` returns climbs to larger and larger
positions inside the skeleton. -/
theorem getOneFlowPath_increasing (preds : List (List Nat)) (m : FlowMap) (fuel : Nat) :
    ∀ (node : Nat) (acc path : List Nat), getOneFlowPath preds m fuel node acc = some path →
      ∃ p, path = acc ++ p ∧ p.head? = some node ∧ p.Chain' (· < ·) ∧
        ∀ x ∈ p, x < preds.length := by
  induction fuel with
  | zero => intro node acc path h; simp [getOneFlowPath] at h
  | succ fuel ih =>
    intro node acc path h
    unfold getOneFlowPath at h
    cases hps : preds[node]? with
    | none => rw [hps] at h; simp at h
    | some ps =>
      have hnode : node < preds.length := by
        by_contra hge
        rw [List.getElem?_eq_none (by omega)] at hps
        simp at hps
      rw [hps] at h
      simp only [] at h
      cases hf : firstFlowEdge m node ps with
      | none => rw [hf] at h; simp at h
      | some r =>
        rw [hf] at h
        cases r with
        | none =>
          simp only [Option.some.injEq] at h
          subst h
          exact ⟨[node], rfl, rfl, by simp, fun x hx => by rw [List.mem_singleton.1 hx]; exact hnode⟩
        | some q =>
          simp only [] at h
          obtain ⟨p, e1, e2, e3, e4⟩ := ih q (acc ++ [node]) path h
          have hq := (firstFlowEdge_gt m node ps q hf).1
          refine ⟨node :: p, by rw [e1]; simp, rfl, ?_, ?_⟩
          · cases p with
            | nil => simp
            | cons b rest =>
              simp only [List.head?_cons, Option.some.injEq] at e2
              subst e2
              exact List.chain'_cons.2 ⟨hq, e3⟩
          · intro x hx
            rcases List.mem_cons.1 hx with rfl | hx
            · exact hnode
            · exact e4 x hx

/-- The recursion of `getOneFlowPath` is bounded by the number of positions above `node`: more
fuel than that changes nothing. -/
theorem getOneFlowPath_fuel (preds : List (List Nat)) (m : FlowMap) (fuel1 : Nat) :
    ∀ (fuel2 node : Nat) (acc : List Nat), preds.length - node < fuel1 →
      preds.length - node < fuel2 →
      getOneFlowPath preds m fuel1 node acc = getOneFlowPath preds m fuel2 node acc := by
  induction fuel1 with
  | zero => intro fuel2 node acc h; omega
  | succ fuel1 ih =>
    intro fuel2 node acc h1 h2
    obtain ⟨fuel2', rfl⟩ : ∃ f, fuel2 = f + 1 := ⟨fuel2 - 1, by omega⟩
    unfold getOneFlowPath
    cases hps : preds[node]? with
    | none => rfl
    | some ps =>
      have hnode : node < preds.length := by
        by_contra hge
        rw [List.getElem?_eq_none (by omega)] at hps
        simp at hps
      simp only []
      cases hf : firstFlowEdge m node ps with
      | none => rfl
      | some r =>
        cases r with
        | none => rfl
        | some q =>
          simp only []
          have hq := (firstFlowEdge_gt m node ps q hf).1
          exact ih fuel2' q (acc ++ [node]) (by omega) (by omega)

/-- The loop of `findFlowPaths` is bounded by the flow in the table: more fuel than that changes
nothing. -/
theorem findFlowPathsLoop_fuel (sup : List Nat) (preds : List (List Nat)) (fuel1 : Nat) :
    ∀ (fuel2 : Nat) (st : FlowPaths), totalFlow st.flows < fuel1 → totalFlow st.flows < fuel2 →
      findFlowPathsLoop sup preds fuel1 st = findFlowPathsLoop sup preds fuel2 st := by
  induction fuel1 with
  | zero => intro fuel2 st h; omega
  | succ fuel1 ih =>
    intro fuel2 st h1 h2
    obtain ⟨fuel2', rfl⟩ : ∃ f, fuel2 = f + 1 := ⟨fuel2 - 1, by omega⟩
    unfold findFlowPathsLoop
    cases hp : getOneFlowPath preds st.flows (preds.length + 1) 0 [] with
    | none => rfl
    | some path =>
      simp only []
      by_cases h0 : path.length = 0
      · rw [if_pos h0, if_pos h0]
      · rw [if_neg h0, if_neg h0]
        by_cases hl1 : path.length = 1
        · rw [if_pos hl1, if_pos hl1]
        · rw [if_neg hl1, if_neg hl1]
          cases hc : consumePath st.flows path with
          | none => rfl
          | some flows =>
            simp only []
            cases hl : lookupAll sup path with
            | none => rfl
            | some ids =>
              simp only []
              have := (consumePath_keys_total path st.flows flows hc).2
              exact ih fuel2' _ (by simp only; omega) (by simp only; omega)

/-- C15: for every graph with spans of at least 1, every `cycleStart` and every `wordSize > 0`,
the call of `GetCycleCut` ends: while the `int` product `wordSize*2` does not overflow
(`wordSize < 2^30`) it returns a cut, and for the other values of the `int`
(`2^30 ≤ wordSize < 2^31`) the product is negative and the call ends with the exception of the
first `resize`, before any loop, without a cut. The recursion of `getOneFlowPath` only moves to
strictly larger positions below the number of positions, so its depth is bounded and more fuel
changes nothing; every iteration of the loop of `findFlowPaths` that does not leave the loop
strictly decreases the total remaining flow, so the number of iterations is bounded and more
fuel changes nothing. -/
theorem cycle_cut_terminates (g : AlignmentGraph)
    (hspan : ∀ v, 1 ≤ g.nodeEnd v - g.nodeStart v) (cycleStart wordSize : Nat)
    (hw : 0 < wordSize) :
    (wordSize < 2 ^ 30 → ∃ cut, GetCycleCut g cycleStart wordSize = some cut) ∧
    (2 ^ 30 ≤ wordSize → wordSize < 2 ^ 31 → GetCycleCut g cycleStart wordSize = none) ∧
    (∀ (preds : List (List Nat)) (flows : FlowMap) (fuel node : Nat) (acc path : List Nat),
      getOneFlowPath preds flows fuel node acc = some path →
        ∃ p, path = acc ++ p ∧ p.head? = some node ∧ p.Chain' (· < ·) ∧
          ∀ x ∈ p, x < preds.length) ∧
    (∀ (preds : List (List Nat)) (flows : FlowMap) (fuel1 fuel2 node : Nat) (acc : List Nat),
      preds.length - node < fuel1 → preds.length - node < fuel2 →
        getOneFlowPath preds flows fuel1 node acc = getOneFlowPath preds flows fuel2 node acc) ∧
    (∀ (flows flows' : FlowMap) (path : List Nat), 2 ≤ path.length →
      consumePath flows path = some flows' → totalFlow flows' < totalFlow flows) ∧
    (∀ (sup : List Nat) (preds : List (List Nat)) (fuel1 fuel2 : Nat) (st : FlowPaths),
      totalFlow st.flows < fuel1 → totalFlow st.flows < fuel2 →
        findFlowPathsLoop sup preds fuel1 st = findFlowPathsLoop sup preds fuel2 st) := by
  refine ⟨?_, getCycleCut_overflow g cycleStart wordSize, ?_, ?_, ?_, ?_⟩
  · intro hb
    obtain ⟨walks, S, R, -, -, -, -, e5⟩ := getCycleCut_spec g hspan cycleStart wordSize hw hb
    exact ⟨_, e5⟩
  · intro preds flows fuel node acc path h
    exact getOneFlowPath_increasing preds flows fuel node acc path h
  · intro preds flows fuel1 fuel2 node acc h1 h2
    exact getOneFlowPath_fuel preds flows fuel1 fuel2 node acc h1 h2
  · intro flows flows' path hlen h
    have := (consumePath_keys_total path flows flows' h).2
    omega
  · intro sup preds fuel1 fuel2 st h1 h2
    exact findFlowPathsLoop_fuel sup preds fuel1 fuel2 st h1 h2

/-- C15 on the three-node cycle, from node 0 with word size 2. -/
theorem cycle_cut_terminates_witness :
    (∀ v, 1 ≤ cycleGraph.nodeEnd v - cycleGraph.nodeStart v) ∧ 0 < 2 ∧
    ((2 < 2 ^ 30 → ∃ cut, GetCycleCut cycleGraph 0 2 = some cut) ∧
    (2 ^ 30 ≤ 2 → 2 < 2 ^ 31 → GetCycleCut cycleGraph 0 2 = none) ∧
    (∀ (preds : List (List Nat)) (flows : FlowMap) (fuel node : Nat) (acc path : List Nat),
      getOneFlowPath preds flows fuel node acc = some path →
        ∃ p, path = acc ++ p ∧ p.head? = some node ∧ p.Chain' (· < ·) ∧
          ∀ x ∈ p, x < preds.length) ∧
    (∀ (preds : List (List Nat)) (flows : FlowMap) (fuel1 fuel2 node : Nat) (acc : List Nat),
      preds.length - node < fuel1 → preds.length - node < fuel2 →
        getOneFlowPath preds flows fuel1 node acc = getOneFlowPath preds flows fuel2 node acc) ∧
    (∀ (flows flows' : FlowMap) (path : List Nat), 2 ≤ path.length →
      consumePath flows path = some flows' → totalFlow flows' < totalFlow flows) ∧
    (∀ (sup : List Nat) (preds : List (List Nat)) (fuel1 fuel2 : Nat) (st : FlowPaths),
      totalFlow st.flows < fuel1 → totalFlow st.flows < fuel2 →
        findFlowPathsLoop sup preds fuel1 st = findFlowPathsLoop sup preds fuel2 st)) :=
  ⟨fun _ => Nat.le_refl 1, by decide,
    cycle_cut_terminates cycleGraph (fun _ => Nat.le_refl 1) 0 2 (by decide)⟩

/-! ### The re-derivation scan, position by position -/

/-- The `for` loop of the re-derivation, started right behind the last matched position: it
returns, the positions `ps` it matches hold the rest of the walk, each is the first position
behind the one before it that holds the wanted node, and the relation gains exactly the edges
between consecutive matched positions. -/
theorem recordWalk_exact (S : List Nat) (rest : List Nat) :
    ∀ (i offset last : Nat) (R : List (List Nat)), R.length = S.length → i + offset = last + 1 →
      last < S.length → rest <+ S.drop (i + offset) →
      ∃ R' ps, recordWalk S rest i offset last R = some R' ∧ R'.length = S.length ∧
        ps.map (fun p => S[p]?) = rest.map some ∧
        (last :: ps).Chain' (fun a b => a < b ∧ ∀ k, a < k → k < b → S[k]? ≠ S[b]?) ∧
        (∀ p ∈ ps, p < S.length) ∧
        ∀ q p, p ∈ R'.getD q [] ↔ (p ∈ R.getD q [] ∨ (q, p) ∈ edgesOf (last :: ps)) := by
  induction rest with
  | nil =>
    intro i offset last R hR _ _ _
    exact ⟨R, [], rfl, hR, rfl, by simp, fun p hp => by simp at hp, fun q p => by simp [edgesOf]⟩
  | cons x rest ih =>
    intro i offset last R hR hnext hlast hsub
    obtain ⟨k, e1, e2, e3, e4⟩ := advance_spec x rest (S.drop (i + offset)) (i + offset) hsub
    have hSk : S[i + offset + k]? = some x := by
      rw [List.getElem?_drop] at e2; exact e2
    have hlt : i + offset + k < S.length := by
      by_contra hge
      rw [List.getElem?_eq_none (by omega)] at hSk
      simp at hSk
    have hnext' : i + 1 + (i + offset + k - i) = i + offset + k + 1 := by omega
    obtain ⟨R', ps, f1, f2, f3, f4, f5, f6⟩ := ih (i + 1) (i + offset + k - i) (i + offset + k)
      (insertAt R last (i + offset + k)) (by rw [length_insertAt]; exact hR) hnext' hlt
      (by rw [hnext']; simpa [List.drop_drop, Nat.add_comm, Nat.add_left_comm, Nat.add_assoc]
            using e3)
    refine ⟨R', (i + offset + k) :: ps, ?_, f2, ?_, ?_, ?_, ?_⟩
    · unfold recordWalk
      rw [e1]
      exact f1
    · simp only [List.map_cons, hSk, f3]
    · refine List.chain'_cons.2 ⟨⟨by omega, ?_⟩, f4⟩
      intro k' hk1 hk2
      rw [hSk]
      have := e4 (k' - (i + offset)) (by omega)
      rw [List.getElem?_drop] at this
      have hk' : i + offset + (k' - (i + offset)) = k' := by omega
      rw [hk'] at this
      exact this
    · intro p hp
      rcases List.mem_cons.1 hp with rfl | hp
      · exact hlt
      · exact f5 p hp
    · intro q p
      rw [f6 q p, mem_insertAt]
      simp only [edgesOf, List.mem_cons, Prod.mk.injEq]
      constructor
      · rintro ((h | ⟨h1, -, h3⟩) | h)
        · exact Or.inl h
        · exact Or.inr (Or.inl ⟨h1, h3⟩)
        · exact Or.inr (Or.inr h)
      · rintro (h | ⟨h1, h3⟩ | h)
        · exact Or.inl (Or.inl h)
        · exact Or.inl (Or.inr ⟨h1, by rw [hR]; exact hlast, h3⟩)
        · exact Or.inr h

/-- The callback of the re-derivation on a walk that is a subsequence of the supersequence and
begins like it. -/
theorem relationStep_exact (S W : List Nat) (R : List (List Nat)) (hR : R.length = S.length)
    (hW : W ≠ []) (h0 : S.head? = W.head?) (hsub : W <+ S) :
    ∃ R' ps, relationStep S R W = some R' ∧ R'.length = S.length ∧
      ps.length = W.length ∧ ps.head? = some 0 ∧
      ps.map (fun p => S[p]?) = W.map some ∧
      ps.Chain' (fun a b => a < b ∧ ∀ k, a < k → k < b → S[k]? ≠ S[b]?) ∧
      (∀ p ∈ ps, p < S.length) ∧
      ∀ q p, p ∈ R'.getD q [] ↔ (p ∈ R.getD q [] ∨ (q, p) ∈ edgesOf ps) := by
  obtain ⟨c0, rest, rfl⟩ := List.exists_cons_of_ne_nil hW
  cases S with
  | nil => simp at hsub
  | cons s0 S' =>
    have hsc : s0 = c0 := by simpa using h0
    subst hsc
    have hrest : rest <+ S' := by
      rcases cons_sublist_cons_cases hsub with h | ⟨-, h⟩
      · exact (List.sublist_cons_self s0 rest).trans h
      · exact h
    obtain ⟨R', ps, f1, f2, f3, f4, f5, f6⟩ := recordWalk_exact (s0 :: S') rest 1 0 0 R hR rfl
      (by simp) (by simpa using hrest)
    refine ⟨R', 0 :: ps, ?_, f2, ?_, rfl, ?_, f4, ?_, f6⟩
    · unfold relationStep
      have := hsub.length_le
      simp only [List.length_cons] at this
      simp only [List.length_cons, true_and, ge_iff_le]
      rw [if_pos (by omega)]
      exact f1
    · have := congrArg List.length f3
      simp only [List.length_map] at this
      simp [this]
    · simp [f3]
    · intro p hp
      rcases List.mem_cons.1 hp with rfl | hp
      · simp
      · exact f5 p hp

/-- C19: for every supersequence `S` and walk `W` with `S[0] = W[0]` such that `W` is a
subsequence of `S`, the scan of the re-derivation returns (it never reads outside `S` and its
assertion holds), it matches every element of `W` at a position of `S` that holds it, starting
at position 0, each later element at the smallest position behind the previous match that
holds it, and the edges it adds to the relation are the pairs of consecutive matches. -/
theorem scan_stays_in_bounds_and_matches_leftmost (S W : List Nat) (R : List (List Nat))
    (hR : R.length = S.length) (hW : W ≠ []) (h0 : S.head? = W.head?)
    (hsub : List.Sublist W S) :
    ∃ R' ps, relationStep S R W = some R' ∧
      ps.length = W.length ∧ ps.head? = some 0 ∧
      (∀ p ∈ ps, p < S.length) ∧
      ps.map (fun p => S[p]?) = W.map some ∧
      ps.Chain' (fun a b => a < b ∧ ∀ k, a < k → k < b → S[k]? ≠ S[b]?) ∧
      ∀ q p, p ∈ R'.getD q [] ↔ (p ∈ R.getD q [] ∨ (q, p) ∈ edgesOf ps) := by
  obtain ⟨R', ps, f1, -, f3, f4, f5, f6, f7, f8⟩ := relationStep_exact S W R hR hW h0 hsub
  exact ⟨R', ps, f1, f3, f4, f7, f5, f6, f8⟩

/-- C19 at `S = [1, 2, 3, 2, 4]`, `W = [1, 2, 4]` and the empty relation. -/
theorem scan_stays_in_bounds_and_matches_leftmost_witness :
    (List.replicate 5 ([] : List Nat)).length = ([1, 2, 3, 2, 4] : List Nat).length ∧
    ([1, 2, 4] : List Nat) ≠ [] ∧
    ([1, 2, 3, 2, 4] : List Nat).head? = ([1, 2, 4] : List Nat).head? ∧
    List.Sublist [1, 2, 4] [1, 2, 3, 2, 4] ∧
    ∃ R' ps, relationStep [1, 2, 3, 2, 4] (List.replicate 5 []) [1, 2, 4] = some R' ∧
      ps.length = [1, 2, 4].length ∧ ps.head? = some 0 ∧
      (∀ p ∈ ps, p < [1, 2, 3, 2, 4].length) ∧
      ps.map (fun p => [1, 2, 3, 2, 4][p]?) = [1, 2, 4].map some ∧
      ps.Chain' (fun a b => a < b ∧
        ∀ k, a < k → k < b → [1, 2, 3, 2, 4][k]? ≠ [1, 2, 3, 2, 4][b]?) ∧
      ∀ q p, p ∈ R'.getD q [] ↔
        (p ∈ (List.replicate 5 ([] : List Nat)).getD q [] ∨ (q, p) ∈ edgesOf ps) :=
  have hsub : List.Sublist [1, 2, 4] [1, 2, 3, 2, 4] := by decide
  ⟨by decide, by decide, by decide, hsub,
    scan_stays_in_bounds_and_matches_leftmost [1, 2, 3, 2, 4] [1, 2, 4] (List.replicate 5 [])
      (by decide) (by decide) (by decide) hsub⟩

/-! ### Relation edges are graph edges -/

theorem edgesOf_map_some (S : List Nat) :
    ∀ (ps W : List Nat), ps.map (fun p => S[p]?) = W.map some → ∀ q p, (q, p) ∈ edgesOf ps →
      ∃ a b, (a, b) ∈ edgesOf W ∧ S[q]? = some a ∧ S[p]? = some b := by
  intro ps
  induction ps with
  | nil => intro W _ q p h; simp [edgesOf] at h
  | cons x ps ih =>
    intro W hmap q p h
    cases ps with
    | nil => simp [edgesOf] at h
    | cons y ps =>
      match W, hmap with
      | a :: b :: W', hmap =>
        simp only [List.map_cons, List.cons.injEq] at hmap
        obtain ⟨h1, h2, h3⟩ := hmap
        simp only [edgesOf, List.mem_cons, Prod.mk.injEq] at h
        rcases h with ⟨rfl, rfl⟩ | h
        · exact ⟨a, b, by simp [edgesOf], h1, h2⟩
        · obtain ⟨a', b', m1, m2, m3⟩ := ih (b :: W') (by simp [h2, h3]) q p h
          exact ⟨a', b', by simp only [edgesOf, List.mem_cons]; exact Or.inr m1, m2, m3⟩
      | [], hmap => simp at hmap
      | [a], hmap => simp at hmap

theorem mem_edgesOf_map (f : Nat → Nat) :
    ∀ (path : List Nat) (a b : Nat), (a, b) ∈ edgesOf (path.map f) →
      ∃ x y, (x, y) ∈ edgesOf path ∧ a = f x ∧ b = f y := by
  intro path
  induction path with
  | nil => intro a b h; simp [edgesOf] at h
  | cons x path ih =>
    intro a b h
    cases path with
    | nil => simp [edgesOf] at h
    | cons y path =>
      simp only [List.map_cons, edgesOf, List.mem_cons, Prod.mk.injEq] at h
      rcases h with ⟨rfl, rfl⟩ | h
      · exact ⟨x, y, by simp [edgesOf], rfl, rfl⟩
      · obtain ⟨x', y', m1, m2, m3⟩ := ih a b (by simpa using h)
        exact ⟨x', y', by simp only [edgesOf, List.mem_cons]; exact Or.inr m1, m2, m3⟩

/-- Consecutive identifiers of every enumerated walk are joined by an incoming edge of the
graph. -/
theorem iterate_walks_graph (g : AlignmentGraph) (hspan : ∀ v, 1 ≤ g.nodeEnd v - g.nodeStart v)
    (s H : Nat) (hH : 1 ≤ H) (walks : List (List Nat))
    (hw : iterateOverEdgeCoveringPaths g s H = some walks) :
    ∀ w ∈ walks, ∀ a b, (a, b) ∈ edgesOf w → b ∈ g.inNeighbors a := by
  obtain ⟨sup, preds, e1, e2, e3, e4⟩ := iterate_spec g hspan s H hH
  obtain ⟨sup', preds', o1, -, -, o4⟩ := getCycleCuttersOrder_spec g hspan s H (by omega)
  rw [e1] at o1
  simp only [Option.some.injEq, Prod.mk.injEq] at o1
  obtain ⟨rfl, rfl⟩ := o1
  rcases e4 with ⟨-, h1⟩ | ⟨-, paths, -, hg, -, h1⟩
  · rw [hw] at h1
    simp only [Option.some.injEq] at h1
    subst h1
    intro w hw' a b hab
    simp only [List.mem_singleton] at hw'
    subst hw'
    simp [edgesOf] at hab
  · rw [hw] at h1
    simp only [Option.some.injEq] at h1
    subst h1
    intro w hw' a b hab
    obtain ⟨path, hp, rfl⟩ := List.mem_map.1 hw'
    obtain ⟨x, y, m1, rfl, rfl⟩ := mem_edgesOf_map _ path a b hab
    have hy := (hg path hp).2.2.2 (x, y) m1
    obtain ⟨u, v, q1, q2, q3⟩ := o4 x y hy
    have hu : sup.getD x 0 = u := by rw [List.getD_eq_getElem?_getD, q1]; rfl
    have hv : sup.getD y 0 = v := by rw [List.getD_eq_getElem?_getD, q2]; rfl
    rw [hu, hv]
    exact q3

/-- Folding the callback of the re-derivation over walks whose consecutive identifiers are
graph edges keeps every relation edge a graph edge. -/
theorem relation_fold_edges (g : AlignmentGraph) (S : List Nat) (walks : List (List Nat)) :
    ∀ R R' : List (List Nat), R.length = S.length →
      (∀ q p, p ∈ R.getD q [] → ∃ u v, S[q]? = some u ∧ S[p]? = some v ∧ v ∈ g.inNeighbors u) →
      (∀ w ∈ walks, w <+ S ∧ w ≠ [] ∧ w.head? = S.head? ∧
        ∀ a b, (a, b) ∈ edgesOf w → b ∈ g.inNeighbors a) →
      walks.foldlM (relationStep S) R = some R' →
      ∀ q p, p ∈ R'.getD q [] → ∃ u v, S[q]? = some u ∧ S[p]? = some v ∧ v ∈ g.inNeighbors u := by
  induction walks with
  | nil =>
    intro R R' _ hR _ h
    simp only [List.foldlM_nil, Option.pure_def, Option.some.injEq] at h
    subst h
    exact hR
  | cons w walks ih =>
    intro R R' hlen hR hw h
    obtain ⟨h1, h2, h3, h4⟩ := hw w (List.mem_cons_self _ _)
    obtain ⟨R1, ps, f1, f2, -, -, f5, -, -, f8⟩ := relationStep_exact S w R hlen h2 h3.symm h1
    simp only [List.foldlM_cons, f1, Option.bind_eq_bind, Option.some_bind] at h
    refine ih R1 R' f2 ?_ (fun w' hw' => hw w' (List.mem_cons_of_mem _ hw')) h
    intro q p hp
    rcases (f8 q p).1 hp with hp | hp
    · exact hR q p hp
    · obtain ⟨a, b, m1, m2, m3⟩ := edgesOf_map_some S ps w f5 q p hp
      exact ⟨a, b, m2, m3, h4 a b m1⟩

/-- The pipeline of `GetCycleCut`, with the fold that re-derives the relation made explicit. -/
theorem getCycleCut_fold (g : AlignmentGraph) (hspan : ∀ v, 1 ≤ g.nodeEnd v - g.nodeStart v)
    (s wordSize : Nat) (hw : 0 < wordSize) (hb : wordSize < 2 ^ 30) :
    ∃ walks S R, iterateOverEdgeCoveringPaths g s (wordSize * 2) = some walks ∧
      (∀ w ∈ walks, w <+ S ∧ w ≠ [] ∧ w.head? = S.head?) ∧
      walks.foldlM (relationStep S) (List.replicate S.length []) = some R ∧ RelInv S R ∧
      GetCycleCut g s wordSize = some
        { nodes := (filterUnnecessaryCharacters S R).1
          predecessors := (filterUnnecessaryCharacters S R).2
          previousCut := (filterUnnecessaryCharacters S R).1.map fun x => decide (x < s) } := by
  obtain ⟨walks, h, S, e1, e2, e3, e4, e5, e6⟩ :=
    supersequence_spec g hspan s (wordSize * 2) (by omega)
  have hwalks : ∀ w ∈ walks, w <+ S ∧ w ≠ [] ∧ w.head? = S.head? := fun w hw' => ⟨e6 w hw', by
      have := e3 w hw'
      rintro rfl
      simp at this, by rw [e3 w hw', e5]⟩
  obtain ⟨R, f1, f2, -, f4⟩ := relation_fold_spec S walks (List.replicate S.length [])
    (relInv_empty S) hwalks
  obtain ⟨-, -, -, -, c5⟩ := compaction_props S R f2
  refine ⟨walks, S, R, e1, hwalks, f1, f2, ?_⟩
  rw [getCycleCut_in_range g s wordSize hb]
  unfold getCycleCutters
  rw [e4]
  simp only []
  unfold getPredecessorsFromSupersequenceOverEdgeCoveringPaths
  rw [e1]
  simp only [resizeSets_nil, f1, c5, if_true, List.nil_append]

/-- C20: for every graph with node spans at least 1, every cycle start and every positive word
size: while the `int` product `wordSize*2` does not overflow (`wordSize < 2^30`), `GetCycleCut`
returns a cut, and every relation edge `q -> p` of it (`p` in `predecessors[q]`) joins two
positions of the cut whose nodes satisfy `nodes[p] ∈ incomingNeighbors(nodes[q])`; for the
other values of the `int` (`2^30 ≤ wordSize < 2^31`) the product is negative and no cut is
returned. -/
theorem cut_relation_edges_are_graph_edges (g : AlignmentGraph)
    (hspan : ∀ v, 1 ≤ g.nodeEnd v - g.nodeStart v) (cycleStart wordSize : Nat)
    (hw : 0 < wordSize) :
    (wordSize < 2 ^ 30 →
      ∃ cut, GetCycleCut g cycleStart wordSize = some cut ∧
        ∀ q p, p ∈ cut.predecessors.getD q [] →
          ∃ u v, cut.nodes[q]? = some u ∧ cut.nodes[p]? = some v ∧ v ∈ g.inNeighbors u) ∧
    (2 ^ 30 ≤ wordSize → wordSize < 2 ^ 31 → GetCycleCut g cycleStart wordSize = none) := by
  refine ⟨fun hb => ?_, getCycleCut_overflow g cycleStart wordSize⟩
  obtain ⟨walks, S, R, e1, e2, e3, e4, e5⟩ := getCycleCut_fold g hspan cycleStart wordSize hw hb
  refine ⟨_, e5, ?_⟩
  simp only []
  have hgraph := iterate_walks_graph g hspan cycleStart (wordSize * 2) (by omega) walks e1
  have hedges := relation_fold_edges g S walks (List.replicate S.length []) R (by simp)
    (fun q p hp => by rw [getD_replicate_nil] at hp; simp at hp)
    (fun w hw' => ⟨(e2 w hw').1, (e2 w hw').2.1, (e2 w hw').2.2, hgraph w hw'⟩) e3
  obtain ⟨ρ, r1, r2, r3, r4, r5⟩ := filter_spec S R e4.length_eq (relInv_valid S R e4)
  intro q p hp
  by_cases hq : q < (filterUnnecessaryCharacters S R).1.length
  · obtain ⟨o, o1, o2, rfl⟩ := r4 q hq
    obtain ⟨-, n1, n2⟩ := r3 o o1 o2
    obtain ⟨x, hx, rfl⟩ := (n2 p).1 hp
    obtain ⟨u, v, q1, q2, q3⟩ := hedges o x hx
    have hxlt : x < S.length := by
      by_contra hge
      rw [List.getElem?_eq_none (by omega)] at q2
      simp at q2
    have hxt : IsTarget R x := mem_getD_imp_isTarget R o x hx
    obtain ⟨-, n1', -⟩ := r3 x hxlt (Or.inr hxt)
    exact ⟨u, v, by rw [n1, q1], by rw [n1', q2], q3⟩
  · rw [getD_eq_nil_of_length_le _ _ (by omega)] at hp
    simp at hp

/-- C20 on the three-node cycle, started at node 0 with word size 2. -/
theorem cut_relation_edges_are_graph_edges_witness :
    (∀ v, 1 ≤ cycleGraph.nodeEnd v - cycleGraph.nodeStart v) ∧ 0 < 2 ∧ 2 < 2 ^ 30 ∧
    ∃ cut, GetCycleCut cycleGraph 0 2 = some cut ∧
      ∀ q p, p ∈ cut.predecessors.getD q [] →
        ∃ u v, cut.nodes[q]? = some u ∧ cut.nodes[p]? = some v ∧
          v ∈ cycleGraph.inNeighbors u :=
  have hspan : ∀ v, 1 ≤ cycleGraph.nodeEnd v - cycleGraph.nodeStart v := fun v => by
    simp [cycleGraph]
  ⟨hspan, by decide, by decide,
    (cut_relation_edges_are_graph_edges cycleGraph hspan 0 2 (by decide)).1 (by decide)⟩

/-! ### The feasible flow, edge by edge -/

/-- The flow summed over the entries of a table whose key satisfies `pred` is the sum of the
flow on the edges of any duplicate-free list that holds exactly those keys. -/
theorem flowSum_eq_sum_over (m : FlowMap) (hnd : (m.map Prod.fst).Nodup) (pred : Edge → Bool)
    (l : List Edge) (hl : l.Nodup) (hmem : ∀ k, k ∈ l ↔ (k ∈ m.map Prod.fst ∧ pred k = true)) :
    flowSum pred m = (l.map (flowAt m)).sum := by
  have h1 : (m.filter fun e => pred e.1).map Prod.snd =
      ((m.filter fun e => pred e.1).map Prod.fst).map (flowAt m) := by
    rw [List.map_map]
    apply List.map_congr_left
    intro e he
    exact (flowAt_of_mem m hnd e (List.mem_filter.1 he).1).symm
  have h2 : ((m.filter fun e => pred e.1).map Prod.fst).Nodup :=
    ((List.filter_sublist _).map Prod.fst).nodup hnd
  have h3 : List.Perm l ((m.filter fun e => pred e.1).map Prod.fst) := by
    rw [List.perm_ext_iff_of_nodup hl h2]
    intro k
    rw [hmem k]
    simp only [List.mem_map, List.mem_filter]
    constructor
    · rintro ⟨⟨e, he, rfl⟩, hp⟩
      exact ⟨e, ⟨he, hp⟩, rfl⟩
    · rintro ⟨e, ⟨he, hp⟩, rfl⟩
      exact ⟨⟨e, he, rfl⟩, hp⟩
  unfold flowSum
  rw [h1]
  exact ((h3.map (flowAt m)).sum_eq).symm

/-- C13: for every skeleton built by `getCycleCuttersOrder` (node spans at least 1, horizon at
least 1), the map returned by `findFeasibleFlow` has one entry per key, its keys are exactly the
skeleton edges, every skeleton edge has a flow of at least 1, and at every position other than
0 that has a successor the flow summed over the skeleton edges into it equals the flow summed
over the skeleton edges out of it. -/
theorem feasible_flow_covers_and_conserves (g : AlignmentGraph)
    (hspan : ∀ v, 1 ≤ g.nodeEnd v - g.nodeStart v) (cycleStart H : Nat) (hH : 1 ≤ H) :
    ∃ sup preds, getCycleCuttersOrder g cycleStart H [] = some (sup, preds) ∧
      ((findFeasibleFlow sup preds).map Prod.fst).Nodup ∧
      (∀ i j, (i, j) ∈ (findFeasibleFlow sup preds).map Prod.fst ↔ j ∈ preds.getD i []) ∧
      (∀ i j, j ∈ preds.getD i [] →
        ∃ f, mapFind (findFeasibleFlow sup preds) (i, j) = some f ∧ 1 ≤ f) ∧
      ∀ v, 0 < v → preds.getD v [] ≠ [] →
        (((List.range preds.length).filter fun u => decide (v ∈ preds.getD u [])).map
            fun u => (mapFind (findFeasibleFlow sup preds) (u, v)).getD 0).sum =
          ((preds.getD v []).map
            fun w => (mapFind (findFeasibleFlow sup preds) (v, w)).getD 0).sum := by
  obtain ⟨sup, preds, e1, hsk, -, -⟩ := getCycleCuttersOrder_spec g hspan cycleStart H (by omega)
  obtain ⟨hok, hpos⟩ := findFeasibleFlow_spec sup preds hsk
  have hkeys : ∀ i j, (i, j) ∈ (findFeasibleFlow sup preds).map Prod.fst ↔
      j ∈ preds.getD i [] := by
    intro i j
    constructor
    · intro h
      obtain ⟨e, he, hk⟩ := List.mem_map.1 h
      have := hok.keys_edges e he
      rw [hk] at this
      exact this
    · intro h
      have h1 := hpos i j h
      have := mem_of_flowAt_pos _ hok.keys_nodup (i, j) (by omega)
      exact List.mem_map.2 ⟨_, this, rfl⟩
  refine ⟨sup, preds, e1, hok.keys_nodup, hkeys, ?_, ?_⟩
  · intro i j h
    have h1 := hpos i j h
    have := mem_of_flowAt_pos _ hok.keys_nodup (i, j) (by omega)
    exact ⟨_, (mem_iff_mapFind _ hok.keys_nodup _ _).1 this, h1⟩
  · intro v hv hne
    have hin := flowSum_eq_sum_over (findFeasibleFlow sup preds) hok.keys_nodup
      (fun e => e.2 == v)
      (((List.range preds.length).filter fun u => decide (v ∈ preds.getD u [])).map
        fun u => (u, v))
      ((List.nodup_range _).filter _ |>.map (fun a b hab => by simpa using hab))
      (by
        rintro ⟨a, b⟩
        simp only [List.mem_map, List.mem_filter, List.mem_range, decide_eq_true_eq,
          Prod.mk.injEq, beq_iff_eq]
        constructor
        · rintro ⟨u, ⟨-, hu⟩, rfl, rfl⟩
          exact ⟨by simpa using (hkeys u v).2 hu, rfl⟩
        · rintro ⟨hk, rfl⟩
          have hm : b ∈ preds.getD a [] := (hkeys a b).1 (by simpa using hk)
          refine ⟨a, ⟨?_, hm⟩, rfl, rfl⟩
          by_contra hge
          rw [getD_eq_nil_of_length_le _ _ (by omega)] at hm
          simp at hm)
    have hout := flowSum_eq_sum_over (findFeasibleFlow sup preds) hok.keys_nodup
      (fun e => e.1 == v) ((preds.getD v []).map fun w => (v, w))
      (((hsk.sorted v).imp (fun h => Nat.ne_of_lt h)).map _ (fun a b hab => by simpa using hab))
      (by
        rintro ⟨a, b⟩
        simp only [List.mem_map, Prod.mk.injEq, beq_iff_eq]
        constructor
        · rintro ⟨w, hw, rfl, rfl⟩
          exact ⟨by simpa using (hkeys v w).2 hw, rfl⟩
        · rintro ⟨hk, rfl⟩
          exact ⟨b, (hkeys a b).1 (by simpa using hk), rfl, rfl⟩)
    have hc := hok.conserve v hv hne
    unfold inflow outflow at hc
    rw [hin, hout, List.map_map, List.map_map] at hc
    exact hc

/-- C13 on the three-node cycle, started at node 0 with horizon 4. -/
theorem feasible_flow_covers_and_conserves_witness :
    (∀ v, 1 ≤ cycleGraph.nodeEnd v - cycleGraph.nodeStart v) ∧ 1 ≤ 4 ∧
    ∃ sup preds, getCycleCuttersOrder cycleGraph 0 4 [] = some (sup, preds) ∧
      ((findFeasibleFlow sup preds).map Prod.fst).Nodup ∧
      (∀ i j, (i, j) ∈ (findFeasibleFlow sup preds).map Prod.fst ↔ j ∈ preds.getD i []) ∧
      (∀ i j, j ∈ preds.getD i [] →
        ∃ f, mapFind (findFeasibleFlow sup preds) (i, j) = some f ∧ 1 ≤ f) ∧
      ∀ v, 0 < v → preds.getD v [] ≠ [] →
        (((List.range preds.length).filter fun u => decide (v ∈ preds.getD u [])).map
            fun u => (mapFind (findFeasibleFlow sup preds) (u, v)).getD 0).sum =
          ((preds.getD v []).map
            fun w => (mapFind (findFeasibleFlow sup preds) (v, w)).getD 0).sum :=
  have hspan : ∀ v, 1 ≤ cycleGraph.nodeEnd v - cycleGraph.nodeStart v := fun v => by
    simp [cycleGraph]
  ⟨hspan, by decide, feasible_flow_covers_and_conserves cycleGraph hspan 0 4 (by decide)⟩

/-! ### The first loop of `getCycleCuttersOrder` records every continuation -/

theorem foldl_orderNeighbor_fields (i sz x : Nat) (ns : List Nat) :
    ∀ st : OrderState,
      (ns.foldl (orderNeighbor i sz x) st).positionInSupersequence = st.positionInSupersequence ∧
      (ns.foldl (orderNeighbor i sz x) st).supersequence = st.supersequence ∧
      (ns.foldl (orderNeighbor i sz x) st).edges =
        st.edges ++ ns.map fun n => ((i, x), (i + sz, n)) := by
  induction ns with
  | nil => intro st; simp
  | cons n ns ih =>
    intro st
    simp only [List.foldl_cons]
    obtain ⟨h1, h2, h3⟩ := ih (orderNeighbor i sz x st n)
    refine ⟨h1, h2, ?_⟩
    rw [h3]
    simp [orderNeighbor]

theorem orderNode_fields (g : AlignmentGraph) (H i : Nat) (st : OrderState) (x : Nat) :
    (orderNode g H i st x).positionInSupersequence =
        mapSet st.positionInSupersequence (i, x) st.supersequence.length ∧
      (∀ e ∈ st.edges, e ∈ (orderNode g H i st x).edges) ∧
      (i + (g.nodeEnd x - g.nodeStart x) < H → ∀ v ∈ g.inNeighbors x,
        ((i, x), (i + (g.nodeEnd x - g.nodeStart x), v)) ∈ (orderNode g H i st x).edges) := by
  unfold orderNode
  by_cases hge : i + (g.nodeEnd x - g.nodeStart x) ≥ H
  · simp only [hge, if_true]
    exact ⟨trivial, fun e he => he, fun h => by omega⟩
  · simp only [hge, if_false]
    obtain ⟨h1, -, h3⟩ := foldl_orderNeighbor_fields i (g.nodeEnd x - g.nodeStart x) x
      (g.inNeighbors x)
      { st with
        positionInSupersequence :=
          mapSet st.positionInSupersequence (i, x) st.supersequence.length
        supersequence := st.supersequence ++ [x] }
    refine ⟨h1, ?_, ?_⟩
    · intro e he
      rw [h3]
      exact List.mem_append_left _ he
    · intro _ v hv
      rw [h3]
      exact List.mem_append_right _ (List.mem_map.2 ⟨v, hv, rfl⟩)

theorem orderNode_closed (g : AlignmentGraph) (s H i : Nat) (done : List Nat) (node : Nat)
    (st : OrderState) (h : OrderInv g s H i done st) (hc : OrderClosed g H st) : OrderClosed g H (orderNode g H i st node) := by
  obtain ⟨f1, f2, f3⟩ := orderNode_fields g H i st node
  constructor
  · intro k1 k2 n h1 h2
    rw [f1, mapFind_mapSet] at h1 h2
    by_cases e1 : (i, node) = k1
    · by_cases e2 : (i, node) = k2
      · rw [← e1, ← e2]
      · rw [if_pos e1] at h1
        rw [if_neg e2] at h2
        simp only [Option.some.injEq] at h1
        have := (h.pos_some k2.1 k2.2 n h2).1
        omega
    · rw [if_neg e1] at h1
      by_cases e2 : (i, node) = k2
      · rw [if_pos e2] at h2
        simp only [Option.some.injEq] at h2
        have := (h.pos_some k1.1 k1.2 n h1).1
        omega
      · rw [if_neg e2] at h2
        exact hc.pos_inj k1 k2 n h1 h2
  · intro l u k hk hlt v hv
    rw [f1, mapFind_mapSet] at hk
    by_cases e1 : (i, node) = (l, u)
    · obtain ⟨rfl, rfl⟩ := Prod.ext_iff.1 e1
      exact f3 hlt v hv
    · rw [if_neg e1] at hk
      exact f2 _ (hc.closed l u k hk hlt v hv)

theorem orderLayer_closed (g : AlignmentGraph) (hspan : ∀ v, 1 ≤ g.nodeEnd v - g.nodeStart v)
    (s H i : Nat) (st : OrderState) (h : OrderInv g s H i [] st) (hc : OrderClosed g H st) :
    OrderClosed g H (orderLayer g H st i) := by
  unfold orderLayer
  have key := foldl_prefix_invariant
    (fun done (st' : OrderState) =>
      (OrderInv g s H i done st' ∧ st'.nodes.getD i [] = st.nodes.getD i []) ∧
        OrderClosed g H st')
    (orderNode g H i) (st.nodes.getD i []) st ⟨⟨h, rfl⟩, hc⟩
    (by
      intro done x rest st' hl ⟨⟨hinv, hsame⟩, hcl⟩
      have hsorted := h.nodes_sorted i
      rw [hl] at hsorted
      have hx : x ∈ st'.nodes.getD i [] := by rw [hsame, hl]; simp
      have hnew : x ∉ done := by
        intro hd
        have := (List.pairwise_append.1 hsorted).2.2 x hd x (List.mem_cons_self _ _)
        omega
      have hfirst : i = 0 → done = [] := by
        intro hi0
        subst hi0
        have := h.layer0
        rw [hl] at this
        cases done with
        | nil => rfl
        | cons d ds =>
          simp only [List.cons_append, List.cons.injEq] at this
          have h2 := this.2
          simp at h2
      obtain ⟨r1, r2⟩ := orderNode_inv g hspan s H i done x st' hinv hx hnew hfirst
      exact ⟨⟨r1, r2.trans hsame⟩, orderNode_closed g s H i done x st' hinv hcl⟩)
  exact key.2

theorem orderSweep_closed (g : AlignmentGraph) (hspan : ∀ v, 1 ≤ g.nodeEnd v - g.nodeStart v)
    (s H : Nat) (hH : 0 < H) : OrderClosed g H (orderSweep g s H) := by
  unfold orderSweep
  rw [List.range_eq_range']
  have := foldl_range'_invariant
    (fun i (st : OrderState) => OrderInv g s H i [] st ∧ OrderClosed g H st)
    (orderLayer g H) 0 H _
    ⟨orderInv_init g s H hH,
      ⟨fun k1 k2 n h1 _ => by simp [mapFind] at h1, fun l u k hk => by simp [mapFind] at hk⟩⟩
    (fun k st _ _ hk => ⟨orderLayer_inv g hspan s H k st hk.1,
      orderLayer_closed g hspan s H k st hk.1 hk.2⟩)
  simpa using this.2

/-! ### Skeleton edges and skeleton positions -/

/-- C16: for every graph with node spans at least 1, every cycle start and horizon at least 1,
every edge that `getCycleCuttersOrder` records has both ends in the position map and becomes a
successor edge; every successor edge `i -> j` comes from a recorded edge; and whenever `i` is
the index of `(l, u)` and `j` the index of `(l', v)` with `j` a successor of `i`, then `v` is an
incoming neighbour of `u`, `l' = l + span u < H` and `i < j < number of positions`, so that the
loop of `getOneFlowPath` over the successors of a node passes its assertion whenever the flow
table has the keys. -/
theorem skeleton_edges_are_well_formed (g : AlignmentGraph)
    (hspan : ∀ v, 1 ≤ g.nodeEnd v - g.nodeStart v) (cycleStart H : Nat) (hH : 1 ≤ H) :
    ∃ sup preds, getCycleCuttersOrder g cycleStart H [] = some (sup, preds) ∧
      (∀ e ∈ (orderSweep g cycleStart H).edges, ∃ i j,
        mapFind (orderSweep g cycleStart H).positionInSupersequence e.1 = some i ∧
        mapFind (orderSweep g cycleStart H).positionInSupersequence e.2 = some j ∧
        j ∈ preds.getD i []) ∧
      (∀ i j, j ∈ preds.getD i [] → i < j ∧ j < sup.length ∧
        ∃ l u l' v, ((l, u), (l', v)) ∈ (orderSweep g cycleStart H).edges ∧
          mapFind (orderSweep g cycleStart H).positionInSupersequence (l, u) = some i ∧
          mapFind (orderSweep g cycleStart H).positionInSupersequence (l', v) = some j) ∧
      (∀ l u l' v i j,
        mapFind (orderSweep g cycleStart H).positionInSupersequence (l, u) = some i →
        mapFind (orderSweep g cycleStart H).positionInSupersequence (l', v) = some j →
        j ∈ preds.getD i [] →
        v ∈ g.inNeighbors u ∧ l' = l + (g.nodeEnd u - g.nodeStart u) ∧ l' < H ∧ i < j ∧
          j < sup.length) ∧
      ∀ (flows : FlowMap) (node : Nat),
        (∀ p ∈ preds.getD node [], ∃ f, mapFind flows (node, p) = some f) →
        ∃ r, firstFlowEdge flows node (preds.getD node []) = some r := by
  have hinv := orderSweep_inv g hspan cycleStart H (by omega)
  have hcl := orderSweep_closed g hspan cycleStart H (by omega)
  have hne : H ≠ 0 := by omega
  obtain ⟨-, e2, -⟩ := orderEdges_spec (orderSweep g cycleStart H).positionInSupersequence
    (orderSweep g cycleStart H).edges
    (List.replicate (orderSweep g cycleStart H).supersequence.length [])
  simp only [List.length_replicate, getD_replicate_nil, List.not_mem_nil, false_or] at e2
  have edge_pos : ∀ e ∈ (orderSweep g cycleStart H).edges, ∃ k1 k2,
      mapFind (orderSweep g cycleStart H).positionInSupersequence e.1 = some k1 ∧
      mapFind (orderSweep g cycleStart H).positionInSupersequence e.2 = some k2 ∧ k1 < k2 ∧
      k2 < (orderSweep g cycleStart H).supersequence.length := by
    intro e he
    obtain ⟨⟨k1, hk1⟩, h2, h3, h4, -⟩ := hinv.edges_ok e he
    obtain ⟨k2, hk2⟩ := hinv.pos_def e.2.1 e.2.2 (Or.inl h3) h4
    exact ⟨k1, k2, hk1, hk2, hinv.pos_mono _ _ _ _ _ _ hk1 hk2 h2,
      (hinv.pos_some _ _ _ hk2).1⟩
  have from_edge : ∀ i j, j ∈ ((orderSweep g cycleStart H).edges.foldl
      (orderEdge (orderSweep g cycleStart H).positionInSupersequence)
      (List.replicate (orderSweep g cycleStart H).supersequence.length [])).getD i [] →
      ∃ e ∈ (orderSweep g cycleStart H).edges,
        mapFind (orderSweep g cycleStart H).positionInSupersequence e.1 = some i ∧
        mapFind (orderSweep g cycleStart H).positionInSupersequence e.2 = some j ∧ i < j ∧
        j < (orderSweep g cycleStart H).supersequence.length := by
    intro i j hj
    obtain ⟨-, e, he, hq, hp⟩ := (e2 i j).1 hj
    obtain ⟨k1, k2, hk1, hk2, hlt, hn⟩ := edge_pos e he
    rw [hk1] at hq; rw [hk2] at hp
    simp only [Option.getD_some] at hq hp
    subst hq hp
    exact ⟨e, he, hk1, hk2, hlt, hn⟩
  refine ⟨(orderSweep g cycleStart H).supersequence,
    (orderSweep g cycleStart H).edges.foldl
      (orderEdge (orderSweep g cycleStart H).positionInSupersequence)
      (List.replicate (orderSweep g cycleStart H).supersequence.length []), by
    unfold getCycleCuttersOrder; rw [if_neg hne]; simp only [resizeSets_nil], ?_, ?_, ?_, ?_⟩
  · intro e he
    obtain ⟨k1, k2, hk1, hk2, hlt, hn⟩ := edge_pos e he
    exact ⟨k1, k2, hk1, hk2, (e2 k1 k2).2 ⟨by omega, e, he, by rw [hk1]; rfl, by rw [hk2]; rfl⟩⟩
  · intro i j hj
    obtain ⟨e, he, hk1, hk2, hlt, hn⟩ := from_edge i j hj
    exact ⟨hlt, hn, e.1.1, e.1.2, e.2.1, e.2.2, he, hk1, hk2⟩
  · intro l u l' v i j hi hj hmem
    obtain ⟨e, he, hk1, hk2, hlt, hn⟩ := from_edge i j hmem
    have h1 : e.1 = (l, u) := hcl.pos_inj _ _ i hk1 hi
    have h2 : e.2 = (l', v) := hcl.pos_inj _ _ j hk2 hj
    obtain ⟨-, -, h3, -, h5, h6⟩ := hinv.edges_ok e he
    rw [h1, h2] at h5 h6
    rw [h2] at h3
    exact ⟨h5, h6, h3, hlt, hn⟩
  · intro flows node hkeys
    have hgt : ∀ p ∈ ((orderSweep g cycleStart H).edges.foldl
        (orderEdge (orderSweep g cycleStart H).positionInSupersequence)
        (List.replicate (orderSweep g cycleStart H).supersequence.length [])).getD node [],
        node < p := by
      intro p hp
      obtain ⟨e, -, -, -, hlt, -⟩ := from_edge node p hp
      exact hlt
    rcases firstFlowEdge_spec flows node _ hgt hkeys with ⟨h, -⟩ | ⟨p, h, -⟩
    · exact ⟨_, h⟩
    · exact ⟨_, h⟩

/-- C16 on the three-node cycle, started at node 0 with horizon 4. -/
theorem skeleton_edges_are_well_formed_witness :
    (∀ v, 1 ≤ cycleGraph.nodeEnd v - cycleGraph.nodeStart v) ∧ 1 ≤ 4 ∧
    ∃ sup preds, getCycleCuttersOrder cycleGraph 0 4 [] = some (sup, preds) ∧
      (∀ e ∈ (orderSweep cycleGraph 0 4).edges, ∃ i j,
        mapFind (orderSweep cycleGraph 0 4).positionInSupersequence e.1 = some i ∧
        mapFind (orderSweep cycleGraph 0 4).positionInSupersequence e.2 = some j ∧
        j ∈ preds.getD i []) ∧
      (∀ i j, j ∈ preds.getD i [] → i < j ∧ j < sup.length ∧
        ∃ l u l' v, ((l, u), (l', v)) ∈ (orderSweep cycleGraph 0 4).edges ∧
          mapFind (orderSweep cycleGraph 0 4).positionInSupersequence (l, u) = some i ∧
          mapFind (orderSweep cycleGraph 0 4).positionInSupersequence (l', v) = some j) ∧
      (∀ l u l' v i j,
        mapFind (orderSweep cycleGraph 0 4).positionInSupersequence (l, u) = some i →
        mapFind (orderSweep cycleGraph 0 4).positionInSupersequence (l', v) = some j →
        j ∈ preds.getD i [] →
        v ∈ cycleGraph.inNeighbors u ∧
          l' = l + (cycleGraph.nodeEnd u - cycleGraph.nodeStart u) ∧ l' < 4 ∧ i < j ∧
          j < sup.length) ∧
      ∀ (flows : FlowMap) (node : Nat),
        (∀ p ∈ preds.getD node [], ∃ f, mapFind flows (node, p) = some f) →
        ∃ r, firstFlowEdge flows node (preds.getD node []) = some r :=
  have hspan : ∀ v, 1 ≤ cycleGraph.nodeEnd v - cycleGraph.nodeStart v := fun v => by
    simp [cycleGraph]
  ⟨hspan, by decide, skeleton_edges_are_well_formed cycleGraph hspan 0 4 (by decide)⟩

/-! ### Positions and backward walks -/

theorem isBackwardWalk_append_pair (g : AlignmentGraph) (u v : Nat) :
    ∀ w : List Nat, IsBackwardWalk g (w ++ [u, v]) ↔
      (IsBackwardWalk g (w ++ [u]) ∧ v ∈ g.inNeighbors u) := by
  intro w
  induction w with
  | nil => simp [IsBackwardWalk]
  | cons a w ih =>
    cases w with
    | nil =>
      simp only [List.cons_append, List.nil_append, IsBackwardWalk, and_true]
    | cons b w =>
      have ih' : IsBackwardWalk g (b :: (w ++ [u, v])) ↔
          (IsBackwardWalk g (b :: (w ++ [u])) ∧ v ∈ g.inNeighbors u) := ih
      show (b ∈ g.inNeighbors a ∧ IsBackwardWalk g (b :: (w ++ [u, v]))) ↔
        ((b ∈ g.inNeighbors a ∧ IsBackwardWalk g (b :: (w ++ [u]))) ∧ v ∈ g.inNeighbors u)
      rw [ih', and_assoc]

theorem totalSpan_append_single (g : AlignmentGraph) (w : List Nat) (u : Nat) :
    totalSpan g (w ++ [u]) = totalSpan g w + (g.nodeEnd u - g.nodeStart u) := by
  simp [totalSpan]

/-- Every node of a layer is the end of a backward walk from the cycle start whose nodes before
the end have the layer as their total span. -/
theorem layer_sound (g : AlignmentGraph) (s H : Nat) (st : OrderState)
    (hinv : OrderInv g s H H [] st) :
    ∀ n l, l < n → ∀ v, v ∈ st.nodes.getD l [] →
      ∃ walk, (walk ++ [v]).head? = some s ∧ IsBackwardWalk g (walk ++ [v]) ∧
        l = totalSpan g walk := by
  intro n
  induction n with
  | zero => intro l hl; omega
  | succ n ih =>
    intro l hl v hv
    by_cases hl0 : l = 0
    · subst hl0
      rw [hinv.layer0] at hv
      simp only [List.mem_singleton] at hv
      subst hv
      exact ⟨[], rfl, trivial, rfl⟩
    · obtain ⟨e, he, he2⟩ := hinv.nodes_src l v (by omega) hv
      obtain ⟨⟨k1, hk1⟩, h2, -, -, h5, h6⟩ := hinv.edges_ok e he
      have hu := (hinv.pos_some e.1.1 e.1.2 k1 hk1).2.2.1
      rw [he2] at h2 h5 h6
      simp only at h2 h5 h6
      obtain ⟨walk, w1, w2, w3⟩ := ih e.1.1 (by omega) e.1.2 hu
      refine ⟨walk ++ [e.1.2], ?_, ?_, ?_⟩
      · cases walk with
        | nil => simpa using w1
        | cons a walk => simpa using w1
      · rw [List.append_assoc]
        exact (isBackwardWalk_append_pair g e.1.2 v walk).2 ⟨w2, h5⟩
      · rw [totalSpan_append_single, ← w3]
        exact h6

/-- The end of every backward walk from the cycle start whose nodes before the end have a total
span below the horizon is in the layer of that span. -/
theorem layer_complete (g : AlignmentGraph) (s H : Nat) (st : OrderState)
    (hinv : OrderInv g s H H [] st) (hcl : OrderClosed g H st) :
    ∀ (walk : List Nat) (v : Nat), (walk ++ [v]).head? = some s →
      IsBackwardWalk g (walk ++ [v]) → totalSpan g walk < H →
      v ∈ st.nodes.getD (totalSpan g walk) [] := by
  intro walk
  induction walk using List.reverseRecOn with
  | nil =>
    intro v h1 _ _
    simp only [List.nil_append, List.head?_cons, Option.some.injEq] at h1
    subst h1
    simp only [totalSpan, List.map_nil, List.sum_nil]
    rw [hinv.layer0]
    simp
  | append_singleton w u ih =>
    intro v h1 h2 h3
    rw [List.append_assoc] at h1 h2
    simp only [List.singleton_append] at h1 h2
    obtain ⟨h4, h5⟩ := (isBackwardWalk_append_pair g u v w).1 h2
    rw [totalSpan_append_single] at h3 ⊢
    have hhead : (w ++ [u]).head? = some s := by
      cases w with
      | nil => simpa using h1
      | cons a w => simpa using h1
    have hu := ih u hhead h4 (by omega)
    obtain ⟨k, hk⟩ := hinv.pos_def (totalSpan g w) u (Or.inl (by omega)) hu
    have he := hcl.closed (totalSpan g w) u k hk h3 v h5
    exact (hinv.edges_ok _ he).2.2.2.1

/-- C17: for every graph with node spans at least 1, every cycle start and horizon at least 1,
a pair (layer `l`, node `v`) is a position of the skeleton built by `getCycleCuttersOrder`
exactly when some backward walk `cycleStart = v_0, ..., v_k = v` has
`l = span(v_0) + ... + span(v_(k-1)) < H`; the position map sends the pairs one-to-one onto the
indices of the returned node sequence, which holds the node of each pair at its index, and
index 0 is the pair `(0, cycleStart)`. -/
theorem skeleton_positions_are_bounded_backward_walks (g : AlignmentGraph)
    (hspan : ∀ v, 1 ≤ g.nodeEnd v - g.nodeStart v) (cycleStart H : Nat) (hH : 1 ≤ H) :
    ∃ sup preds, getCycleCuttersOrder g cycleStart H [] = some (sup, preds) ∧
      (∀ l v, (∃ k, mapFind (orderSweep g cycleStart H).positionInSupersequence (l, v) = some k) ↔
        ∃ walk, (walk ++ [v]).head? = some cycleStart ∧ IsBackwardWalk g (walk ++ [v]) ∧
          l = totalSpan g walk ∧ l < H) ∧
      (∀ l v k, mapFind (orderSweep g cycleStart H).positionInSupersequence (l, v) = some k →
        k < sup.length ∧ sup[k]? = some v) ∧
      (∀ k, k < sup.length →
        ∃ l v, mapFind (orderSweep g cycleStart H).positionInSupersequence (l, v) = some k) ∧
      (∀ k1 k2 n, mapFind (orderSweep g cycleStart H).positionInSupersequence k1 = some n →
        mapFind (orderSweep g cycleStart H).positionInSupersequence k2 = some n → k1 = k2) ∧
      mapFind (orderSweep g cycleStart H).positionInSupersequence (0, cycleStart) = some 0 := by
  have hinv := orderSweep_inv g hspan cycleStart H (by omega)
  have hcl := orderSweep_closed g hspan cycleStart H (by omega)
  have hne : H ≠ 0 := by omega
  refine ⟨(orderSweep g cycleStart H).supersequence,
    (orderSweep g cycleStart H).edges.foldl
      (orderEdge (orderSweep g cycleStart H).positionInSupersequence)
      (List.replicate (orderSweep g cycleStart H).supersequence.length []), by
    unfold getCycleCuttersOrder; rw [if_neg hne]; simp only [resizeSets_nil], ?_, ?_, ?_, ?_, ?_⟩
  · intro l v
    constructor
    · rintro ⟨k, hk⟩
      obtain ⟨-, -, h3, h4⟩ := hinv.pos_some l v k hk
      have hl : l < H := by
        rcases h4 with h4 | ⟨-, h4⟩
        · exact h4
        · simp at h4
      obtain ⟨walk, w1, w2, w3⟩ := layer_sound g cycleStart H _ hinv (l + 1) l (by omega) v h3
      exact ⟨walk, w1, w2, w3, hl⟩
    · rintro ⟨walk, w1, w2, rfl, w4⟩
      exact hinv.pos_def _ v (Or.inl w4) (layer_complete g cycleStart H _ hinv hcl walk v w1 w2 w4)
  · intro l v k hk
    exact ⟨(hinv.pos_some l v k hk).1, (hinv.pos_some l v k hk).2.1⟩
  · exact hinv.pos_surj
  · exact hcl.pos_inj
  · have hs0 : cycleStart ∈ (orderSweep g cycleStart H).nodes.getD 0 [] := by
      rw [hinv.layer0]; simp
    obtain ⟨k0, hk0⟩ := hinv.pos_def 0 cycleStart (Or.inl (by omega)) hs0
    have hk00 := hinv.pos_zero cycleStart k0 hk0
    subst hk00
    exact hk0

/-- C17 on the three-node cycle, started at node 0 with horizon 4. -/
theorem skeleton_positions_are_bounded_backward_walks_witness :
    (∀ v, 1 ≤ cycleGraph.nodeEnd v - cycleGraph.nodeStart v) ∧ 1 ≤ 4 ∧
    ∃ sup preds, getCycleCuttersOrder cycleGraph 0 4 [] = some (sup, preds) ∧
      (∀ l v, (∃ k, mapFind (orderSweep cycleGraph 0 4).positionInSupersequence (l, v) = some k) ↔
        ∃ walk, (walk ++ [v]).head? = some 0 ∧ IsBackwardWalk cycleGraph (walk ++ [v]) ∧
          l = totalSpan cycleGraph walk ∧ l < 4) ∧
      (∀ l v k, mapFind (orderSweep cycleGraph 0 4).positionInSupersequence (l, v) = some k →
        k < sup.length ∧ sup[k]? = some v) ∧
      (∀ k, k < sup.length →
        ∃ l v, mapFind (orderSweep cycleGraph 0 4).positionInSupersequence (l, v) = some k) ∧
      (∀ k1 k2 n, mapFind (orderSweep cycleGraph 0 4).positionInSupersequence k1 = some n →
        mapFind (orderSweep cycleGraph 0 4).positionInSupersequence k2 = some n → k1 = k2) ∧
      mapFind (orderSweep cycleGraph 0 4).positionInSupersequence (0, 0) = some 0 :=
  have hspan : ∀ v, 1 ≤ cycleGraph.nodeEnd v - cycleGraph.nodeStart v := fun v => by
    simp [cycleGraph]
  ⟨hspan, by decide,
    skeleton_positions_are_bounded_backward_walks cycleGraph hspan 0 4 (by decide)⟩

/-! ### The compactor against its contract -/

theorem keepFrom_nil {α : Type} (l : List α) : ∀ k, keepFrom ([] : List Nat) k l = l := by
  induction l with
  | nil => intro k; rfl
  | cons y ys ih => intro k; simp [keepFrom, ih]

theorem keepFrom_eq_filter_map {α : Type} (rm : List Nat) (d : α) (l : List α) :
    ∀ k, keepFrom rm k l =
      ((List.range' k l.length).filter fun i => decide (i ∉ rm)).map fun i => l.getD (i - k) d := by
  induction l with
  | nil => intro k; simp [keepFrom]
  | cons x xs ih =>
    intro k
    have hrest : (((List.range' (k + 1) xs.length).filter fun i => decide (i ∉ rm)).map
        fun i => (x :: xs).getD (i - k) d) =
        ((List.range' (k + 1) xs.length).filter fun i => decide (i ∉ rm)).map
          fun i => xs.getD (i - (k + 1)) d := by
      apply List.map_congr_left
      intro i hi
      have hik := (List.mem_range'_1.1 (List.mem_filter.1 hi).1).1
      obtain ⟨m, hm⟩ : ∃ m, i - k = m + 1 := ⟨i - k - 1, by omega⟩
      have hm' : i - (k + 1) = m := by omega
      rw [hm, hm']
      rfl
    unfold keepFrom
    simp only [List.length_cons, List.range'_succ, List.filter_cons]
    by_cases hk : k ∈ rm
    · simp only [hk, if_true, not_true_eq_false, decide_False, Bool.false_eq_true, if_false]
      rw [ih (k + 1), hrest]
    · simp only [hk, if_false, not_false_eq_true, decide_True, if_true, List.map_cons,
        Nat.sub_self]
      rw [ih (k + 1), hrest]
      rfl

theorem rankFrom_nil (j : Nat) : ∀ k, rankFrom [] k j = j := by
  induction j with
  | zero => intro k; rfl
  | succ j ih => intro k; simp [rankFrom, ih]; omega

/-- Kept and removed positions below `x` add up to `x`. -/
theorem rank_add_removedBelow (S : List Nat) (P : List (List Nat)) (rm : List Nat)
    (hmem : ∀ i, i ∈ rm ↔ 1 ≤ i ∧ i < S.length ∧ ¬ IsTarget P i) :
    ∀ x, rankFrom rm 0 x + removedBelow S P x = x := by
  intro x
  induction x with
  | zero => simp [rankFrom, removedBelow]
  | succ x ih =>
    rw [rankFrom_succ_back]
    have hstep : removedBelow S P (x + 1) = removedBelow S P x + (if x ∈ rm then 1 else 0) := by
      unfold removedBelow
      rw [List.range_succ, List.filter_append, List.length_append]
      congr 1
      have hiff : (x < S.length ∧ ¬ (x = 0 ∨ x ∈ P.flatten)) ↔ x ∈ rm := by
        rw [hmem x]
        unfold IsTarget
        rw [List.mem_flatten]
        constructor
        · rintro ⟨h1, h2⟩
          exact ⟨by omega, h1, fun h => h2 (Or.inr h)⟩
        · rintro ⟨h1, h2, h3⟩
          exact ⟨h2, fun h => h.elim (fun h => by omega) h3⟩
      by_cases hx : x ∈ rm
      · rw [if_pos hx]
        have hd : decide (x < S.length ∧ ¬ (x = 0 ∨ x ∈ P.flatten)) = true :=
          decide_eq_true (hiff.2 hx)
        simp only [List.filter_cons, hd, if_true, List.filter_nil, List.length_singleton]
      · rw [if_neg hx]
        have hd : decide (x < S.length ∧ ¬ (x = 0 ∨ x ∈ P.flatten)) = false :=
          decide_eq_false (fun h => hx (hiff.1 h))
        simp only [List.filter_cons, hd, Bool.false_eq_true, if_false, List.filter_nil,
          List.length_nil]
    rw [hstep]
    simp only [Nat.zero_add]
    by_cases hx : x ∈ rm
    · simp only [hx, if_true]; omega
    · simp only [hx, if_false]; omega

theorem setInsert_last (y : Nat) : ∀ s : List Nat, (∀ z ∈ s, z < y) → setInsert y s = s ++ [y] := by
  intro s
  induction s with
  | nil => intro _; rfl
  | cons a s ih =>
    intro h
    have ha := h a (List.mem_cons_self _ _)
    unfold setInsert
    rw [if_neg (by omega), if_neg (by omega), ih (fun z hz => h z (List.mem_cons_of_mem _ hz))]
    rfl

/-- Inserting the images of an ascending list under a function that is increasing on it builds
the list of the images. -/
theorem rewrite_sorted (f : Nat → Nat) (olds : List Nat) :
    ∀ s : List Nat, (olds.Pairwise (· < ·)) → (∀ a ∈ olds, ∀ b ∈ olds, a < b → f a < f b) →
      (∀ z ∈ s, ∀ a ∈ olds, z < f a) →
      olds.foldl (fun s x => setInsert (f x) s) s = s ++ olds.map f := by
  induction olds with
  | nil => intro s _ _ _; simp
  | cons a olds ih =>
    intro s hs hf hz
    have hp := List.pairwise_cons.1 hs
    simp only [List.foldl_cons, List.map_cons]
    rw [setInsert_last (f a) s (fun z hz' => hz z hz' a (List.mem_cons_self _ _)),
      ih (s ++ [f a]) hp.2
        (fun x hx y hy => hf x (List.mem_cons_of_mem _ hx) y (List.mem_cons_of_mem _ hy))]
    · simp
    · intro z hz' b hb
      rcases List.mem_append.1 hz' with h | h
      · exact hz z h b (List.mem_cons_of_mem _ hb)
      · rw [List.mem_singleton.1 h]
        exact hf a (List.mem_cons_self _ _) b (List.mem_cons_of_mem _ hb) (hp.1 b hb)

/-- The compactor and its contract, set by set. -/
theorem filter_eq_kept (S : List Nat) (P : List (List Nat)) (hlen : P.length = S.length)
    (hvalid : ∀ ps ∈ P, ∀ p ∈ ps, p < S.length) :
    ∃ F : List Nat → List Nat,
      filterUnnecessaryCharacters S P =
        ((keptPositions S P).map (fun i => S.getD i 0),
         (keptPositions S P).map fun i => F (P.getD i [])) ∧
      ∀ olds ∈ P, (∀ y, y ∈ F olds ↔ y ∈ olds.map fun x => x - removedBelow S P x) ∧
        (olds.Pairwise (· < ·) → F olds = olds.map fun x => x - removedBelow S P x) := by
  have hsorted := removeIndices_sorted (markPredecessors S.length P)
  have hmem0 := mem_remove S P
  generalize hrmdef : removeIndices (markPredecessors S.length P) = rm at hsorted hmem0
  have hmem : ∀ i, i ∈ rm ↔ 1 ≤ i ∧ i < S.length ∧ ¬ IsTarget P i := hmem0
  have h0 : 0 ∉ rm := fun h => by have := (hmem 0).1 h; omega
  have hnd : rm.Nodup := hsorted.imp (fun h => Nat.ne_of_lt h)
  have hkept : keptPositions S P = (List.range S.length).filter fun i => decide (i ∉ rm) := by
    unfold keptPositions
    apply List.filter_congr
    intro i hi
    have hi' := List.mem_range.1 hi
    have : (i = 0 ∨ i ∈ P.flatten) ↔ i ∉ rm := by
      rw [hmem i, List.mem_flatten]
      unfold IsTarget
      constructor
      · rintro (h | h) ⟨h1, -, h3⟩
        · omega
        · exact h3 h
      · intro h
        by_cases hi0 : i = 0
        · exact Or.inl hi0
        · right
          by_contra hnt
          exact h ⟨by omega, hi', hnt⟩
    simp only [this]
  have hS : keepFrom rm 0 S = (keptPositions S P).map fun i => S.getD i 0 := by
    rw [keepFrom_eq_filter_map rm 0 S 0, hkept, ← List.range_eq_range']
    rfl
  have hP : keepFrom rm 0 P = (keptPositions S P).map fun i => P.getD i [] := by
    rw [keepFrom_eq_filter_map rm [] P 0, hkept, ← List.range_eq_range', hlen]
    rfl
  have hg : ∀ olds ∈ P, ∀ x ∈ olds,
      rankFrom rm 0 x = x - removedBelow S P x ∧ rankFrom rm 1 x = x - removedBelow S P x ∧
        x ∉ rm ∧ x < S.length := by
    intro olds ho x hx
    have hxt : IsTarget P x := ⟨olds, ho, hx⟩
    have hxr : x ∉ rm := fun h => ((hmem x).1 h).2.2 hxt
    have := rank_add_removedBelow S P rm hmem x
    have h01 := rankFrom_zero_one rm h0 x hxr
    exact ⟨by omega, by omega, hxr, hvalid olds ho x hx⟩
  by_cases hrm : rm = []
  · refine ⟨id, ?_, ?_⟩
    · unfold filterUnnecessaryCharacters
      simp only [hrmdef, hrm, List.length_nil, if_true]
      show (S, P) = ((keptPositions S P).map (fun i => S.getD i 0),
        (keptPositions S P).map fun i => P.getD i [])
      rw [← hS, ← hP, hrm, keepFrom_nil, keepFrom_nil]
    · intro olds ho
      have hid : (olds.map fun x => x - removedBelow S P x) = olds := by
        conv_rhs => rw [← List.map_id olds]
        apply List.map_congr_left
        intro x hx
        have := (hg olds ho x hx).1
        rw [hrm, rankFrom_nil] at this
        simp only [id]
        omega
      rw [hid]
      exact ⟨fun y => Iff.rfl, fun _ => rfl⟩
  · refine ⟨fun olds => olds.foldl
      (fun s x => setInsert ((newIndex S.length rm).getD x 0) s) [], ?_, ?_⟩
    · have hne : rm.length ≠ 0 := fun h => hrm (List.length_eq_zero.1 h)
      unfold filterUnnecessaryCharacters
      simp only [hrmdef, hne, if_false, erasePair_eq_keepFrom _ hsorted]
      rw [hS, hP, List.map_map]
      rfl
    · intro olds ho
      have hidx : ∀ x ∈ olds, (newIndex S.length rm).getD x 0 = x - removedBelow S P x := by
        intro x hx
        obtain ⟨-, h2, -, h4⟩ := hg olds ho x hx
        rw [getD_newIndex S.length rm hnd x h4]
        exact h2
      constructor
      · intro y
        simp only []
        rw [mem_rewrite, List.mem_map]
        constructor
        · rintro ⟨x, hx, rfl⟩
          exact ⟨x, hx, (hidx x hx).symm⟩
        · rintro ⟨x, hx, rfl⟩
          exact ⟨x, hx, (hidx x hx).symm⟩
      · intro hso
        simp only []
        rw [rewrite_sorted (fun x => (newIndex S.length rm).getD x 0) olds [] hso ?_
          (fun z hz => by simp at hz)]
        · simp only [List.nil_append]
          exact List.map_congr_left hidx
        · intro a ha b hb hab
          simp only []
          rw [getD_newIndex S.length rm hnd a (hg olds ho a ha).2.2.2,
            getD_newIndex S.length rm hnd b (hg olds ho b hb).2.2.2]
          have hlt := rankFrom_strict rm 0 a b hab (by simpa using (hg olds ho a ha).2.2.1)
          have e1 := rankFrom_zero_one rm h0 a (hg olds ho a ha).2.2.1
          have e2 := rankFrom_zero_one rm h0 b (hg olds ho b hb).2.2.1
          omega

/-- C18: for every node sequence and relation of equal length whose relation targets are valid
indices, `filterUnnecessaryCharacters` returns what the contract says: the node identifiers of
position 0 and of the positions that occur as a relation target, in their original order, and
for each kept position its relation set with every target `x` replaced by `x` minus the number
of removed positions smaller than `x` (as sets, and as the very same ascending lists when the
input sets are ascending); when every position but the first is a target, the input is returned
unchanged. -/
theorem compactor_keeps_start_and_targets (S : List Nat) (P : List (List Nat))
    (hlen : P.length = S.length) (hvalid : ∀ ps ∈ P, ∀ p ∈ ps, p < S.length) :
    (filterUnnecessaryCharacters S P).1 = (compactSpec S P).1 ∧
    (filterUnnecessaryCharacters S P).2.length = (compactSpec S P).2.length ∧
    (∀ k y, y ∈ (filterUnnecessaryCharacters S P).2.getD k [] ↔
      y ∈ (compactSpec S P).2.getD k []) ∧
    ((∀ ps ∈ P, ps.Pairwise (· < ·)) → filterUnnecessaryCharacters S P = compactSpec S P) ∧
    ((∀ i, 1 ≤ i → i < S.length → ∃ ps ∈ P, i ∈ ps) →
      filterUnnecessaryCharacters S P = (S, P)) := by
  obtain ⟨F, hF, hFs⟩ := filter_eq_kept S P hlen hvalid
  have hin : ∀ i ∈ keptPositions S P, P.getD i [] ∈ P := by
    intro i hi
    have hi' : i < P.length := by
      rw [hlen]
      exact List.mem_range.1 (List.mem_filter.1 hi).1
    rw [List.getD_eq_getElem?_getD, List.getElem?_eq_getElem hi']
    exact List.getElem_mem hi'
  refine ⟨by rw [hF]; rfl, by rw [hF]; simp [compactSpec], ?_, ?_, ?_⟩
  · intro k y
    rw [hF]
    simp only [compactSpec, List.getD_eq_getElem?_getD, List.getElem?_map]
    cases hk : (keptPositions S P)[k]? with
    | none => simp
    | some i =>
      have hi : i ∈ keptPositions S P := List.getElem?_mem hk
      have := (hFs _ (hin i hi)).1 y
      simpa [List.getD_eq_getElem?_getD] using this
  · intro hso
    rw [hF]
    unfold compactSpec
    congr 1
    apply List.map_congr_left
    intro i hi
    exact (hFs _ (hin i hi)).2 (hso _ (hin i hi))
  · intro hall
    exact filter_eq_self_of_all_targets S P hall

/-- C18 at the node sequence `[7, 8, 9]` whose only relation edge is `0 -> 2`. -/
theorem compactor_keeps_start_and_targets_witness :
    ([[2], [], []] : List (List Nat)).length = ([7, 8, 9] : List Nat).length ∧
    (∀ ps ∈ ([[2], [], []] : List (List Nat)), ∀ p ∈ ps, p < ([7, 8, 9] : List Nat).length) ∧
    (filterUnnecessaryCharacters [7, 8, 9] [[2], [], []]).1 =
      (compactSpec [7, 8, 9] [[2], [], []]).1 ∧
    (filterUnnecessaryCharacters [7, 8, 9] [[2], [], []]).2.length =
      (compactSpec [7, 8, 9] [[2], [], []]).2.length ∧
    (∀ k y, y ∈ (filterUnnecessaryCharacters [7, 8, 9] [[2], [], []]).2.getD k [] ↔
      y ∈ (compactSpec [7, 8, 9] [[2], [], []]).2.getD k []) ∧
    ((∀ ps ∈ ([[2], [], []] : List (List Nat)), ps.Pairwise (· < ·)) →
      filterUnnecessaryCharacters [7, 8, 9] [[2], [], []] =
        compactSpec [7, 8, 9] [[2], [], []]) ∧
    ((∀ i, 1 ≤ i → i < ([7, 8, 9] : List Nat).length →
        ∃ ps ∈ ([[2], [], []] : List (List Nat)), i ∈ ps) →
      filterUnnecessaryCharacters [7, 8, 9] [[2], [], []] = ([7, 8, 9], [[2], [], []])) :=
  ⟨by decide, by decide,
    compactor_keeps_start_and_targets [7, 8, 9] [[2], [], []] (by decide) (by decide)⟩

/-! ### Scenario A: a cycle of three nodes of span 1 -/

theorem scenarioA_sweep (g : AlignmentGraph) (A B C : Nat)
    (hsA : g.nodeEnd A - g.nodeStart A = 1) (hsB : g.nodeEnd B - g.nodeStart B = 1)
    (hsC : g.nodeEnd C - g.nodeStart C = 1)
    (hA : g.inNeighbors A = [C]) (hB : g.inNeighbors B = [A]) (hC : g.inNeighbors C = [B]) :
    orderSweep g A 4 =
      { supersequence := [A, C, B, A]
        positionInSupersequence := [((0, A), 0), ((1, C), 1), ((2, B), 2), ((3, A), 3)]
        nodes := [[A], [C], [B], [A]]
        edges := [((0, A), (1, C)), ((1, C), (2, B)), ((2, B), (3, A))] } := by
  simp [orderSweep, orderLayer, orderNode, orderNeighbor, insertAt, setInsert, mapSet,
    List.range, List.range.loop, hsA, hsB, hsC, hA, hB, hC, List.replicate]

theorem scenarioA_order (g : AlignmentGraph) (A B C : Nat)
    (hsA : g.nodeEnd A - g.nodeStart A = 1) (hsB : g.nodeEnd B - g.nodeStart B = 1)
    (hsC : g.nodeEnd C - g.nodeStart C = 1)
    (hA : g.inNeighbors A = [C]) (hB : g.inNeighbors B = [A]) (hC : g.inNeighbors C = [B]) :
    getCycleCuttersOrder g A 4 [] = some ([A, C, B, A], [[1], [2], [3], []]) := by
  unfold getCycleCuttersOrder
  rw [if_neg (by decide), scenarioA_sweep g A B C hsA hsB hsC hA hB hC]
  simp [orderEdge, mapFind, insertAt, setInsert, resizeSets, List.replicate]

theorem scenarioA_flow (A B C : Nat) :
    findFeasibleFlow [A, C, B, A] [[1], [2], [3], []] =
      [((0, 1), 1), ((2, 3), 1), ((1, 2), 1)] := by
  simp [findFeasibleFlow, flowBack, flowForward, flowBackStep, flowForwardStep, flowEdgeStep,
    mapFind, mapSet, mapIncr, insertAt, setInsert, List.range, List.range.loop, List.replicate]

theorem scenarioA_paths (A B C : Nat) :
    findFlowPaths [A, C, B, A] [[1], [2], [3], []] [((0, 1), 1), ((2, 3), 1), ((1, 2), 1)] =
      some { paths := [[0, 1, 2, 3]], result := [[A, C, B, A]],
             flows := [((0, 1), 0), ((2, 3), 0), ((1, 2), 0)] } := by
  simp [findFlowPaths, findFlowPathsLoop, getOneFlowPath, firstFlowEdge, consumePath, mapDecr,
    lookupAll, totalFlow, mapFind, mapSet]

theorem scenarioA_positive (A B C : Nat) :
    startFlowPositive [A, C, B, A] [[1], [2], [3], []] [((0, 1), 1), ((2, 3), 1), ((1, 2), 1)] =
      true := by
  simp [startFlowPositive, mapFind, List.range, List.range.loop]

theorem scenarioA_walks (g : AlignmentGraph) (A B C : Nat)
    (hsA : g.nodeEnd A - g.nodeStart A = 1) (hsB : g.nodeEnd B - g.nodeStart B = 1)
    (hsC : g.nodeEnd C - g.nodeStart C = 1)
    (hA : g.inNeighbors A = [C]) (hB : g.inNeighbors B = [A]) (hC : g.inNeighbors C = [B]) :
    iterateOverEdgeCoveringPaths g A 4 = some [[A, C, B, A]] := by
  unfold iterateOverEdgeCoveringPaths
  rw [scenarioA_order g A B C hsA hsB hsC hA hB hC]
  simp only [scenarioA_flow, scenarioA_paths, scenarioA_positive, if_true, Option.map_some']

theorem scenarioA_relation (A B C : Nat) :
    [[A, C, B, A]].foldlM (relationStep [A, C, B, A]) (resizeSets [] [A, C, B, A].length) =
      some [[1], [2], [3], []] := by
  simp [relationStep, recordWalk, advance, insertAt, setInsert, resizeSets, List.replicate]

theorem scenarioA_filter (A B C : Nat) :
    filterUnnecessaryCharacters [A, C, B, A] [[1], [2], [3], []] =
      ([A, C, B, A], [[1], [2], [3], []]) := by
  apply filter_eq_self_of_all_targets
  intro i h1 h2
  simp only [List.length_cons, List.length_nil] at h2
  unfold IsTarget
  have : i = 1 ∨ i = 2 ∨ i = 3 := by omega
  rcases this with rfl | rfl | rfl <;> simp

theorem scenarioA_check (A B C : Nat) :
    allPredecessors [A, C, B, A] [[1], [2], [3], []] = true := by
  simp [allPredecessors, markPredecessors, List.replicate, List.range']

/-- C12 (Scenario A): for node identifiers `A`, `B`, `C` of span 1 with `incoming(A) = {C}`,
`incoming(B) = {A}` and `incoming(C) = {B}`, `GetCycleCut(A, 2)` builds the layers `0:{A}`,
`1:{C}`, `2:{B}`, `3:{A}` and the skeleton of the four positions `A, C, B, A` with the edges
`0 -> 1 -> 2 -> 3`, enumerates the one walk `A, C, B, A`, merges it to the supersequence
`A, C, B, A`, and returns the cut with `nodes = [A, C, B, A]` and the relation
`0 -> 1`, `1 -> 2`, `2 -> 3`, position 3 without continuation. The three identifiers need not
be distinct for this. -/
theorem scenario_a_three_node_cycle (g : AlignmentGraph) (A B C : Nat)
    (hsA : g.nodeEnd A - g.nodeStart A = 1) (hsB : g.nodeEnd B - g.nodeStart B = 1)
    (hsC : g.nodeEnd C - g.nodeStart C = 1)
    (hA : g.inNeighbors A = [C]) (hB : g.inNeighbors B = [A]) (hC : g.inNeighbors C = [B]) :
    (orderSweep g A (2 * 2)).nodes = [[A], [C], [B], [A]] ∧
    getCycleCuttersOrder g A (2 * 2) [] = some ([A, C, B, A], [[1], [2], [3], []]) ∧
    iterateOverEdgeCoveringPaths g A (2 * 2) = some [[A, C, B, A]] ∧
    getCycleCuttersSupersequence g A (2 * 2) = some [A, C, B, A] ∧
    ∃ cut, GetCycleCut g A 2 = some cut ∧ cut.nodes = [A, C, B, A] ∧
      cut.predecessors = [[1], [2], [3], []] := by
  have hw := scenarioA_walks g A B C hsA hsB hsC hA hB hC
  have hsup : getCycleCuttersSupersequence g A 4 = some [A, C, B, A] := by
    unfold getCycleCuttersSupersequence
    rw [hw]
    simp [supersequenceStep]
  refine ⟨by rw [scenarioA_sweep g A B C hsA hsB hsC hA hB hC],
    scenarioA_order g A B C hsA hsB hsC hA hB hC, hw, hsup, ?_⟩
  refine ⟨{ nodes := [A, C, B, A], predecessors := [[1], [2], [3], []],
            previousCut := [A, C, B, A].map fun x => decide (x < A) }, ?_, rfl, rfl⟩
  rw [getCycleCut_in_range g A 2 (by decide)]
  unfold getCycleCutters
  rw [show 2 * 2 = 4 from rfl, hsup]
  simp only []
  unfold getPredecessorsFromSupersequenceOverEdgeCoveringPaths
  rw [hw]
  simp only [scenarioA_relation, scenarioA_filter, scenarioA_check, if_true, List.nil_append]

/-- C12 on the graph `cycleGraph`, with `A = 0`, `B = 1`, `C = 2`. -/
theorem scenario_a_three_node_cycle_witness :
    cycleGraph.nodeEnd 0 - cycleGraph.nodeStart 0 = 1 ∧
    cycleGraph.nodeEnd 1 - cycleGraph.nodeStart 1 = 1 ∧
    cycleGraph.nodeEnd 2 - cycleGraph.nodeStart 2 = 1 ∧
    cycleGraph.inNeighbors 0 = [2] ∧ cycleGraph.inNeighbors 1 = [0] ∧
    cycleGraph.inNeighbors 2 = [1] ∧
    (orderSweep cycleGraph 0 (2 * 2)).nodes = [[0], [2], [1], [0]] ∧
    getCycleCuttersOrder cycleGraph 0 (2 * 2) [] = some ([0, 2, 1, 0], [[1], [2], [3], []]) ∧
    iterateOverEdgeCoveringPaths cycleGraph 0 (2 * 2) = some [[0, 2, 1, 0]] ∧
    getCycleCuttersSupersequence cycleGraph 0 (2 * 2) = some [0, 2, 1, 0] ∧
    ∃ cut, GetCycleCut cycleGraph 0 2 = some cut ∧ cut.nodes = [0, 2, 1, 0] ∧
      cut.predecessors = [[1], [2], [3], []] :=
  ⟨rfl, rfl, rfl, rfl, rfl, rfl,
    scenario_a_three_node_cycle cycleGraph 0 1 2 rfl rfl rfl rfl rfl rfl⟩

end CycleCutCalculation
